import Mathlib

/-!
Scapegoat tree (`scapegoat_tree.c`): embedding and verification.

The C program manipulates heap-allocated nodes linked by `parent`, `left` and
`right` pointers.  The embedding keeps that pointer structure:

* node memory is a list of node records (`ScapegoatTree.nodes`); a node pointer
  is `Option Nat`, where `none` is `NULL` and `some i` is the address of cell `i`;
* `calloc` of a node appends a zeroed record, so the new address is the old
  length of the store; whether a `calloc` succeeds is an explicit Boolean input;
* every C function that recurses over pointers takes a `fuel` argument and
  returns an `Option`; `none` stands for "did not return": either the fuel ran
  out, or the C code would dereference a dangling pointer or write outside the
  scratch buffer (undefined behaviour);
* `int` values are natural numbers.  The sizes that the code computes
  (`GetTreeSize`, the sizes handed up the walk, buffer indices) are node counts
  and fit a C `int` unless the tree has more than `INT_MAX = 2^31 - 1` nodes; the
  sum `left_size + right_size + 1` inside `IsUnbalanced` is modelled with its
  32-bit wrap-around.  The field `tree_size` is also incremented by an insert
  whose node allocation fails, so it can reach `INT_MAX` on a small tree.  The
  model does not wrap it: model and C code agree on `tree_size` as long as the
  value is at most `INT_MAX`, and the increment of `ScapegoatInsert` on
  `INT_MAX` itself is an `int` overflow in C (see the theorem on C16);
* the `double` arithmetic of `IsUnbalanced` is modelled by correctly rounded
  binary64 division (`f64_div`), with a binary64 value written as a pair
  `(m, e)` standing for `m * 2^(-e)`.
-/

namespace Scapegoat

/-! ## Data model (`scapegoat_tree.h`) -/

/-- A single node in the tree: `struct ScapegoatTreeNode_s`. -/
structure ScapegoatTreeNode (K : Type) where
  parent : Option Nat
  left : Option Nat
  right : Option Nat
  key : K

/-- Metadata about the whole tree: the C struct `ScapegoatTree`, together with
the node memory (`nodes`) that its pointers refer to.  The `int` fields
`tree_size` and `node_ptr_cache_size` are natural numbers; they stand for the C
values as long as these are at most `INT_MAX = 2^31 - 1`. -/
structure ScapegoatTree (K : Type) where
  comparator : K → K → Int
  root : Option Nat
  tree_size : Nat
  node_ptr_cache : Option (List (Option Nat))
  node_ptr_cache_size : Nat
  nodes : List (ScapegoatTreeNode K)

/-! ## Binary64 arithmetic used by `IsUnbalanced` -/

/-- The binary64 number nearest to the decimal literal `0.7`, as `(m, e)` for
`m * 2^(-e)`: `0.7` is `0x3FE6666666666666`. -/
def BALANCE_FACTOR : Nat × Nat := (6305039478318694, 53)

/-- The integer part of the base-2 logarithm of `x ≥ 1`, by repeated halving; the
first argument bounds the number of halvings and `ilog2 x x` is the logarithm. -/
def ilog2 : Nat → Nat → Nat
  | 0, _ => 0
  | fuel + 1, x => if x < 2 then 0 else 1 + ilog2 fuel (x / 2)

/-- The binary64 quotient `(double) n / (double) d` for integers `0 ≤ n ≤ d`,
`0 < d < 2^53` (both conversions are then exact), rounded to nearest, ties to
even.  The result `(m, e)` stands for `m * 2^(-e)`; for `n > 0` the exponent is
chosen so that the exact quotient scaled by `2^e` lies in `[2^52, 2^53]`, where
the binary64 numbers are exactly the integers. -/
def f64_div (n d : Nat) : Nat × Nat :=
  if n = 0 then (0, 0)
  else
    let e := 53 + ilog2 (d / n) (d / n)
    let q := (n * 2 ^ e) / d
    let r := (n * 2 ^ e) % d
    let m := if 2 * r < d then q else if d < 2 * r then q + 1 else q + q % 2
    (m, e)

/-- The comparison `a > b` of two binary64 values `(m, e)`. -/
def f64_gt (a b : Nat × Nat) : Bool :=
  decide (b.1 * 2 ^ a.2 < a.1 * 2 ^ b.2)

/-! ## The functions of `scapegoat_tree.c` -/

/-- Reads the node stored at address `p`; `none` if `p` is not an allocated node. -/
def readNode {K : Type} (nodes : List (ScapegoatTreeNode K)) (p : Nat) :
    Option (ScapegoatTreeNode K) :=
  nodes[p]?

/-- The assignment `p->parent = v`; `none` if `p` is not an allocated node. -/
def setParent {K : Type} (nodes : List (ScapegoatTreeNode K)) (p : Nat) (v : Option Nat) :
    Option (List (ScapegoatTreeNode K)) :=
  match readNode nodes p with
  | none => none
  | some n => some (nodes.set p { n with parent := v })

/-- The assignment `p->left = v`; `none` if `p` is not an allocated node. -/
def setLeft {K : Type} (nodes : List (ScapegoatTreeNode K)) (p : Nat) (v : Option Nat) :
    Option (List (ScapegoatTreeNode K)) :=
  match readNode nodes p with
  | none => none
  | some n => some (nodes.set p { n with left := v })

/-- The assignment `p->right = v`; `none` if `p` is not an allocated node. -/
def setRight {K : Type} (nodes : List (ScapegoatTreeNode K)) (p : Nat) (v : Option Nat) :
    Option (List (ScapegoatTreeNode K)) :=
  match readNode nodes p with
  | none => none
  | some n => some (nodes.set p { n with right := v })

/-- `CreateScapegoatTree`: a zeroed tree record holding the comparator, or `none`
(the C `NULL`) when the allocation fails. -/
def CreateScapegoatTree {K : Type} (comparator : K → K → Int) (alloc_ok : Bool) :
    Option (ScapegoatTree K) :=
  if alloc_ok then
    some { comparator := comparator, root := none, tree_size := 0,
           node_ptr_cache := none, node_ptr_cache_size := 0, nodes := [] }
  else none

/-- `GetOrAllocateNodePtrCache`: returns the updated tree and the buffer (`none`
is the C `NULL`).  `alloc_ok` says whether the `calloc` of a grown buffer
succeeds. -/
def GetOrAllocateNodePtrCache {K : Type} (tree : ScapegoatTree K)
    (required_capacity : Nat) (alloc_ok : Bool) :
    ScapegoatTree K × Option (List (Option Nat)) :=
  if required_capacity ≤ tree.node_ptr_cache_size then
    (tree, tree.node_ptr_cache)
  else if required_capacity > tree.tree_size then
    (tree, none)
  else
    let tree1 := { tree with node_ptr_cache := none, node_ptr_cache_size := 0 }
    if alloc_ok then
      let new_list : List (Option Nat) := List.replicate tree.tree_size none
      ({ tree1 with node_ptr_cache := some new_list,
                    node_ptr_cache_size := tree.tree_size }, some new_list)
    else (tree1, none)

/-- `FindClosestNode`: the node holding `key`, or the node that would be the
parent of a new node for `key`; `some none` is the C `NULL`. -/
def FindClosestNode {K : Type} (fuel : Nat) (tree : ScapegoatTree K)
    (node : Option Nat) (key : K) : Option (Option Nat) :=
  match fuel with
  | 0 => none
  | fuel + 1 =>
    match node with
    | none => some none
    | some p =>
      match readNode tree.nodes p with
      | none => none
      | some n =>
        let result := tree.comparator key n.key
        if result = 0 then some (some p)
        else if result < 0 then
          match n.left with
          | none => some (some p)
          | some l => FindClosestNode fuel tree (some l) key
        else
          match n.right with
          | none => some (some p)
          | some r => FindClosestNode fuel tree (some r) key

/-- `AllocateNewNode`: appends a zeroed node holding `key`; returns the new
store and the new address, or `NULL` when the allocation fails. -/
def AllocateNewNode {K : Type} (nodes : List (ScapegoatTreeNode K)) (key : K)
    (alloc_ok : Bool) : List (ScapegoatTreeNode K) × Option Nat :=
  if alloc_ok then
    (nodes ++ [{ parent := none, left := none, right := none, key := key }],
     some nodes.length)
  else (nodes, none)

/-- `GetTreeSize`: the number of nodes of the subtree rooted at `node`. -/
def GetTreeSize {K : Type} (fuel : Nat) (nodes : List (ScapegoatTreeNode K))
    (node : Option Nat) : Option Nat :=
  match fuel with
  | 0 => none
  | fuel + 1 =>
    match node with
    | none => some 0
    | some p =>
      match readNode nodes p with
      | none => none
      | some n =>
        match GetTreeSize fuel nodes n.left with
        | none => none
        | some a =>
          match GetTreeSize fuel nodes n.right with
          | none => none
          | some b => some (1 + a + b)

/-- `TraverseNodesInOrder`: writes the addresses of the subtree's nodes, in
order, into `sorted` from index `next_index` on; returns the buffer and the
advanced index.  A write outside the buffer does not return. -/
def TraverseNodesInOrder {K : Type} (fuel : Nat) (nodes : List (ScapegoatTreeNode K))
    (node : Option Nat) (sorted : List (Option Nat)) (next_index : Nat) :
    Option (List (Option Nat) × Nat) :=
  match fuel with
  | 0 => none
  | fuel + 1 =>
    match node with
    | none => some (sorted, next_index)
    | some p =>
      match readNode nodes p with
      | none => none
      | some n =>
        match TraverseNodesInOrder fuel nodes n.left sorted next_index with
        | none => none
        | some (sorted1, i1) =>
          if i1 < sorted1.length then
            TraverseNodesInOrder fuel nodes n.right (sorted1.set i1 (some p)) (i1 + 1)
          else none

/-- `BuildTreeFromSortedNodes`: relinks the first `node_count` nodes of
`sorted_nodes` into a balanced tree and returns the new store and the root.
The pointer `sorted_nodes + k` of the C code is `sorted_nodes.drop k`.  With
`node_count = 0` the C recursion never ends; here the fuel runs out. -/
def BuildTreeFromSortedNodes {K : Type} (fuel : Nat) (nodes : List (ScapegoatTreeNode K))
    (sorted_nodes : List (Option Nat)) (node_count : Nat) :
    Option (List (ScapegoatTreeNode K) × Nat) :=
  match fuel with
  | 0 => none
  | fuel + 1 =>
    let median_index := node_count >>> 1
    match sorted_nodes[median_index]? with
    | some (some median) => do
      let nodes1 ← setLeft nodes median none
      let nodes2 ← setRight nodes1 median none
      if node_count = 1 then pure (nodes2, median)
      else do
        let (nodes3, left) ← BuildTreeFromSortedNodes fuel nodes2 sorted_nodes median_index
        let nodes4 ← setParent nodes3 left (some median)
        let nodes5 ← setLeft nodes4 median (some left)
        if node_count = 2 then pure (nodes5, median)
        else do
          let (nodes6, right) ← BuildTreeFromSortedNodes fuel nodes5
            (sorted_nodes.drop (median_index + 1)) (node_count - (median_index + 1))
          let nodes7 ← setParent nodes6 right (some median)
          let nodes8 ← setRight nodes7 median (some right)
          pure (nodes8, median)
    | _ => none

/-- `RebuildSubtree`: rebuilds the subtree rooted at `node`; returns the C result
(`0` on error, `1` on success) and the updated tree.  The scratch buffer is the
tree's `node_ptr_cache`, so the traversal's writes land in it. -/
def RebuildSubtree {K : Type} (fuel : Nat) (tree : ScapegoatTree K) (node : Nat)
    (node_size : Nat) (cache_alloc_ok : Bool) : Option (Nat × ScapegoatTree K) := do
  let n ← readNode tree.nodes node
  let original_parent := n.parent
  let was_left_child ← match n.parent with
    | none => some false
    | some pp => (readNode tree.nodes pp).map (fun pn => decide (pn.left = some node))
  match GetOrAllocateNodePtrCache tree node_size cache_alloc_ok with
  | (tree1, none) => pure (0, tree1)
  | (tree1, some sorted_nodes) => do
    let (sorted1, sorted_node_count) ←
      TraverseNodesInOrder fuel tree1.nodes (some node) sorted_nodes 0
    let (nodes1, new_root) ←
      BuildTreeFromSortedNodes fuel tree1.nodes sorted1 sorted_node_count
    let nodes2 ← setParent nodes1 new_root original_parent
    match original_parent with
    | some pp => do
      let nodes3 ← if was_left_child then setLeft nodes2 pp (some new_root)
                   else setRight nodes2 pp (some new_root)
      pure (1, { tree1 with node_ptr_cache := some sorted1, nodes := nodes3 })
    | none =>
      pure (1, { tree1 with node_ptr_cache := some sorted1, nodes := nodes2,
                            root := some new_root })

/-- `IsUnbalanced`: `1` if a node with the given left and right sizes is too
unbalanced, else `0`; the two quotients are computed in binary64.

The arguments are C `int`s, that is numbers from `0` to `INT_MAX = 2^31 - 1`.
The C code computes `left_size + right_size + 1` in `int` before converting it
to `double`: `our_size` is the 32-bit pattern of that sum, which wraps modulo
`2^32`.  A pattern from `2^31` on is a negative `int`; both quotients are then
at most zero, neither exceeds `0.7`, and the function returns `0`. -/
def IsUnbalanced (left_size right_size : Nat) : Nat :=
  let our_size := (left_size + right_size + 1) % 4294967296
  if 2147483648 ≤ our_size then 0
  else if f64_gt (f64_div left_size our_size) BALANCE_FACTOR then 1
  else if f64_gt (f64_div right_size our_size) BALANCE_FACTOR then 1
  else 0

/-- `FindAndRebalanceRecursive`: walks from `node` towards the root and rebuilds
the first node that is unbalanced. -/
def FindAndRebalanceRecursive {K : Type} (fuel : Nat) (tree : ScapegoatTree K)
    (node : Nat) (left_size right_size : Nat) (cache_alloc_ok : Bool) :
    Option (Nat × ScapegoatTree K) :=
  match fuel with
  | 0 => none
  | fuel + 1 =>
    let our_size := left_size + right_size + 1
    if IsUnbalanced left_size right_size ≠ 0 then
      RebuildSubtree fuel tree node our_size cache_alloc_ok
    else do
      let n ← readNode tree.nodes node
      match n.parent with
      | none => pure (1, tree)
      | some parent => do
        let pn ← readNode tree.nodes parent
        if pn.left = some node then do
          let right_size ← GetTreeSize fuel tree.nodes pn.right
          FindAndRebalanceRecursive fuel tree parent our_size right_size cache_alloc_ok
        else do
          let left_size ← GetTreeSize fuel tree.nodes pn.left
          FindAndRebalanceRecursive fuel tree parent left_size our_size cache_alloc_ok

/-- `ScapegoatInsert`: returns the C result (`0` on error, `1` otherwise) and the
updated tree.  `node_alloc_ok` and `cache_alloc_ok` say whether the `calloc` of
the new node and of a grown scratch buffer succeed.

`tree_size` is incremented before the node is allocated, as in the C code.  The
increment is the one of natural numbers: it is the C `int` increment as long as
`tree_size < INT_MAX = 2^31 - 1`; on `INT_MAX` the C increment overflows, which
this definition does not model. -/
def ScapegoatInsert {K : Type} (fuel : Nat) (tree : ScapegoatTree K) (key : K)
    (node_alloc_ok cache_alloc_ok : Bool) : Option (Nat × ScapegoatTree K) :=
  match tree.root with
  | none =>
    match AllocateNewNode tree.nodes key node_alloc_ok with
    | (_, none) => some (0, tree)
    | (nodes1, some new_node) =>
      some (1, { tree with nodes := nodes1, root := some new_node, tree_size := 1 })
  | some root =>
    match FindClosestNode fuel tree (some root) key with
    | some (some parent) => do
      let pn ← readNode tree.nodes parent
      let result := tree.comparator key pn.key
      if result = 0 then pure (1, tree)
      else
        let tree1 := { tree with tree_size := tree.tree_size + 1 }
        match AllocateNewNode tree1.nodes key node_alloc_ok with
        | (_, none) => pure (0, tree1)
        | (nodes1, some new_node) => do
          let nodes2 ← setParent nodes1 new_node (some parent)
          let nodes3 ← if result < 0 then setLeft nodes2 parent (some new_node)
                       else setRight nodes2 parent (some new_node)
          FindAndRebalanceRecursive fuel { tree1 with nodes := nodes3 } new_node 0 0
            cache_alloc_ok
    | _ => none

/-- `SearchTreeRecursive`: the stored key matching `key` in the subtree at
`root`; `some none` is the C `NULL`. -/
def SearchTreeRecursive {K : Type} (fuel : Nat) (tree : ScapegoatTree K)
    (root : Option Nat) (key : K) : Option (Option K) :=
  match fuel with
  | 0 => none
  | fuel + 1 =>
    match root with
    | none => some none
    | some p =>
      match readNode tree.nodes p with
      | none => none
      | some n =>
        let result := tree.comparator key n.key
        if result = 0 then some (some n.key)
        else if result < 0 then SearchTreeRecursive fuel tree n.left key
        else SearchTreeRecursive fuel tree n.right key

/-- `ScapegoatSearch`: the stored key matching `key`, `some none` if there is none. -/
def ScapegoatSearch {K : Type} (fuel : Nat) (tree : ScapegoatTree K) (key : K) :
    Option (Option K) :=
  SearchTreeRecursive fuel tree tree.root key

/-! ## Abstract view of the pointer structure -/

/-- The shape of a pointer subtree: each node with its address and its key. -/
inductive Shape (K : Type) where
  | nil : Shape K
  | node (l : Shape K) (p : Nat) (k : K) (r : Shape K) : Shape K

/-- The address of the root node of a shape (`NULL` for the empty shape). -/
def Shape.root {K : Type} : Shape K → Option Nat
  | .nil => none
  | .node _ p _ _ => some p

/-- Number of nodes. -/
def Shape.size {K : Type} : Shape K → Nat
  | .nil => 0
  | .node l _ _ r => 1 + l.size + r.size

/-- Number of nodes on the longest path from the root down to a leaf. -/
def Shape.levels {K : Type} : Shape K → Nat
  | .nil => 0
  | .node l _ _ r => 1 + max l.levels r.levels

/-- In-order (left, self, right) list of the nodes, as address and key. -/
def Shape.toList {K : Type} : Shape K → List (Nat × K)
  | .nil => []
  | .node l p k r => l.toList ++ (p, k) :: r.toList

/-- In-order list of the node addresses. -/
def Shape.ptrs {K : Type} (s : Shape K) : List Nat := s.toList.map Prod.fst

/-- In-order list of the keys. -/
def Shape.keys {K : Type} (s : Shape K) : List K := s.toList.map Prod.snd

/-- The node store `nodes` holds the shape `s` below a node whose address is
`par`: every node of `s` is allocated and its four fields are the ones the
shape prescribes. -/
def Rep {K : Type} (nodes : List (ScapegoatTreeNode K)) : Option Nat → Shape K → Prop
  | _, .nil => True
  | par, .node l p k r =>
    readNode nodes p = some { parent := par, left := l.root, right := r.root, key := k } ∧
    Rep nodes (some p) l ∧ Rep nodes (some p) r

/-- The balanced shape that `BuildTreeFromSortedNodes` gives to a sorted list of
nodes: the element at index `length / 2` is the root, the elements before it
form the left subtree and the elements after it the right subtree.  The first
argument bounds the recursion depth. -/
def buildShape {K : Type} : Nat → List (Nat × K) → Shape K
  | 0, _ => .nil
  | fuel + 1, l =>
    match l[l.length / 2]? with
    | none => .nil
    | some (p, k) =>
      .node (buildShape fuel (l.take (l.length / 2))) p k
        (buildShape fuel (l.drop (l.length / 2 + 1)))

/-- The balanced shape on the in-order node list `l`. -/
def balanced {K : Type} (l : List (Nat × K)) : Shape K := buildShape l.length l

/-! ## Comparator contract and zipper view of a path -/

/-- The comparator contract: negative, zero or positive according to a total
order on the keys. -/
structure TotalOrder {K : Type} (cmp : K → K → Int) : Prop where
  antisymm : ∀ a b, cmp a b < 0 ↔ 0 < cmp b a
  trans : ∀ a b c, cmp a b ≤ 0 → cmp b c ≤ 0 → cmp a c ≤ 0

/-- A list of keys is in strictly ascending comparator order. -/
def Ascending {K : Type} (cmp : K → K → Int) (l : List K) : Prop :=
  l.Pairwise (fun a b => cmp a b < 0)

/-- One step of a path from a node up to the root: the parent's address and
key, and the sibling subtree.  `left` means the path comes from the parent's
left child (the sibling is the right subtree), `right` the converse. -/
inductive Frame (K : Type) where
  | left (p : Nat) (k : K) (sib : Shape K) : Frame K
  | right (p : Nat) (k : K) (sib : Shape K) : Frame K

/-- Address of the parent node of a frame. -/
def Frame.ptr {K : Type} : Frame K → Nat
  | .left p _ _ => p
  | .right p _ _ => p

/-- The parent subtree obtained by putting `s` at the frame's open side. -/
def Frame.fill {K : Type} : Frame K → Shape K → Shape K
  | .left p k sib, s => .node s p k sib
  | .right p k sib, s => .node sib p k s

/-- The whole tree obtained by putting `s` below the path `c` (innermost frame
first). -/
def plug {K : Type} : List (Frame K) → Shape K → Shape K
  | [], s => s
  | f :: c, s => plug c (f.fill s)

/-- Address of the node directly above the hole of a path (`NULL` at the top). -/
def ctxParent {K : Type} : List (Frame K) → Option Nat
  | [] => none
  | f :: _ => some f.ptr

/-- The node store holds the nodes of the path `c` when the subtree below it
has root address `hole`. -/
def RepCtx {K : Type} (nodes : List (ScapegoatTreeNode K)) :
    List (Frame K) → Option Nat → Prop
  | [], _ => True
  | .left p k sib :: c, hole =>
    readNode nodes p = some { parent := ctxParent c, left := hole, right := sib.root, key := k } ∧
    Rep nodes (some p) sib ∧ RepCtx nodes c (some p)
  | .right p k sib :: c, hole =>
    readNode nodes p = some { parent := ctxParent c, left := sib.root, right := hole, key := k } ∧
    Rep nodes (some p) sib ∧ RepCtx nodes c (some p)

/-- The nodes of a path that come before its hole in the in-order walk. -/
def ctxBefore {K : Type} : List (Frame K) → List (Nat × K)
  | [] => []
  | .left _ _ _ :: c => ctxBefore c
  | .right p k sib :: c => ctxBefore c ++ (sib.toList ++ [(p, k)])

/-- The nodes of a path that come after its hole in the in-order walk. -/
def ctxAfter {K : Type} : List (Frame K) → List (Nat × K)
  | [] => []
  | .left p k sib :: c => (p, k) :: sib.toList ++ ctxAfter c
  | .right _ _ _ :: c => ctxAfter c

/-- The addresses of the nodes of a path: the parents and the sibling subtrees. -/
def ctxPtrs {K : Type} (c : List (Frame K)) : List Nat :=
  (ctxBefore c ++ ctxAfter c).map Prod.fst

/-- The tree is well formed and holds the shape `S`: the root pointer and every
node field are as `S` prescribes, node addresses are distinct, the keys are in
strictly ascending comparator order, `tree_size` is at least the node count,
and the scratch buffer has the recorded capacity. -/
structure Inv {K : Type} (t : ScapegoatTree K) (S : Shape K) : Prop where
  root_eq : t.root = S.root
  rep : Rep t.nodes none S
  nodup : S.ptrs.Nodup
  asc : Ascending t.comparator S.keys
  size_le : S.size ≤ t.tree_size
  cache_some : ∀ c, t.node_ptr_cache = some c → c.length = t.node_ptr_cache_size
  cache_none : t.node_ptr_cache = none → t.node_ptr_cache_size = 0

/-! ## Pure model of the insertion -/

/-- The descent of `FindClosestNode` on a shape: the path followed and the
subtree rooted at the node it returns. -/
def descend {K : Type} (cmp : K → K → Int) (key : K) :
    List (Frame K) → Shape K → List (Frame K) × Shape K
  | c, .nil => (c, .nil)
  | c, .node l p k r =>
    if cmp key k = 0 then (c, .node l p k r)
    else if cmp key k < 0 then
      match l with
      | .nil => (c, .node l p k r)
      | .node ll lp lk lr => descend cmp key (.left p k r :: c) (.node ll lp lk lr)
    else
      match r with
      | .nil => (c, .node l p k r)
      | .node rl rp rk rr => descend cmp key (.right p k l :: c) (.node rl rp rk rr)

/-- The upward walk of `FindAndRebalanceRecursive` on a shape: `s` is the subtree
at the current node, `c` the path above it, and the two sizes are the ones the
C code carries.  The result is the whole tree after a successful walk. -/
def walk {K : Type} : List (Frame K) → Shape K → Nat → Nat → Shape K
  | c, s, left_size, right_size =>
    if IsUnbalanced left_size right_size ≠ 0 then plug c (balanced s.toList)
    else
      match c with
      | [] => s
      | .left p k sib :: c1 =>
        walk c1 (.node s p k sib) (left_size + right_size + 1) sib.size
      | .right p k sib :: c1 =>
        walk c1 (.node sib p k s) sib.size (left_size + right_size + 1)

/-- The shape after a successful `ScapegoatInsert` of `key`, the new node (if
one is made) getting the address `new_node`. -/
def insertShape {K : Type} (cmp : K → K → Int) (S : Shape K) (key : K) (new_node : Nat) :
    Shape K :=
  match descend cmp key [] S with
  | (_, .nil) => .node .nil new_node key .nil
  | (c, .node l p k r) =>
    if cmp key k = 0 then S
    else if cmp key k < 0 then walk (.left p k r :: c) (.node .nil new_node key .nil) 0 0
    else walk (.right p k l :: c) (.node .nil new_node key .nil) 0 0

/-- Insertion of a node into an in-order node list that is ascending in the
keys; a node whose key compares equal to a listed one is not inserted. -/
def insertKey {K : Type} (cmp : K → K → Int) (new : Nat × K) :
    List (Nat × K) → List (Nat × K)
  | [] => [new]
  | a :: rest =>
    if cmp new.2 a.2 = 0 then a :: rest
    else if cmp new.2 a.2 < 0 then new :: a :: rest
    else a :: insertKey cmp new rest

/-! ## Runs of insertions and observations used in the statements -/

/-- `IntComparator` of `examples/basic_test.c`: compares two `int` keys. -/
def IntComparator (a b : Int) : Int :=
  if a < b then -1 else if a > b then 1 else 0

/-- A sequence of `ScapegoatInsert` calls on one tree.  Each call comes with its
key and the outcomes of its two possible allocations (new node, grown scratch
buffer); the result is the list of the values returned and the final tree. -/
def insertMany {K : Type} (fuel : Nat) (t : ScapegoatTree K) :
    List (K × Bool × Bool) → Option (List Nat × ScapegoatTree K)
  | [] => some ([], t)
  | (key, node_alloc_ok, cache_alloc_ok) :: rest =>
    match ScapegoatInsert fuel t key node_alloc_ok cache_alloc_ok with
    | none => none
    | some (ret, t1) =>
      match insertMany fuel t1 rest with
      | none => none
      | some (rets, t2) => some (ret :: rets, t2)

/-- The calls inserting the keys `ks` in order, every allocation succeeding. -/
def allOk {K : Type} (ks : List K) : List (K × Bool × Bool) :=
  ks.map (fun k => (k, true, true))

/-- The keys stored at the addresses listed in a scratch buffer; `none` if an
entry is `NULL` or dangling. -/
def keysOf {K : Type} (nodes : List (ScapegoatTreeNode K)) : List (Option Nat) → Option (List K)
  | [] => some []
  | none :: _ => none
  | some p :: rest =>
    match readNode nodes p, keysOf nodes rest with
    | some n, some ks => some (n.key :: ks)
    | _, _ => none

/-- The keys in the order in which the in-order walk `TraverseNodesInOrder`
meets them, starting at the root with a fresh scratch buffer of `tree_size`
entries. -/
def inorderKeys {K : Type} (fuel : Nat) (t : ScapegoatTree K) : Option (List K) :=
  match TraverseNodesInOrder fuel t.nodes t.root (List.replicate t.tree_size none) 0 with
  | none => none
  | some (sorted, n) => keysOf t.nodes (sorted.take n)

/-- Number of nodes on the longest path from `node` down to a leaf, read off
the node store (the height in edges is one less). -/
def treeLevels {K : Type} (fuel : Nat) (nodes : List (ScapegoatTreeNode K))
    (node : Option Nat) : Option Nat :=
  match fuel with
  | 0 => none
  | fuel + 1 =>
    match node with
    | none => some 0
    | some p =>
      match readNode nodes p with
      | none => none
      | some n =>
        match treeLevels fuel nodes n.left, treeLevels fuel nodes n.right with
        | some a, some b => some (1 + max a b)
        | _, _ => none

/-- Every node's left subtree holds only smaller keys and its right subtree
only larger keys. -/
def Shape.Ordered {K : Type} (cmp : K → K → Int) : Shape K → Prop
  | .nil => True
  | .node l _ k r =>
    (∀ a ∈ l.keys, cmp a k < 0) ∧ (∀ b ∈ r.keys, 0 < cmp b k) ∧ l.Ordered cmp ∧ r.Ordered cmp

/-- Every node of the shape passes the balance test of `IsUnbalanced`. -/
def Shape.Balanced {K : Type} : Shape K → Prop
  | .nil => True
  | .node l _ _ r => IsUnbalanced l.size r.size = 0 ∧ l.Balanced ∧ r.Balanced

/-- The shape after inserting the keys `ks` in order with every call succeeding;
each new node gets the next free address, which is the number of nodes so far. -/
def insertShapes {K : Type} (cmp : K → K → Int) : Shape K → List K → Shape K
  | S, [] => S
  | S, k :: ks => insertShapes cmp (insertShape cmp S k S.size) ks

/-- Every node of the shape whose subtree contains the address `x` passes the
balance test: the nodes on the path from the root down to `x`. -/
def Shape.BalancedTowards {K : Type} (x : Nat) : Shape K → Prop
  | .nil => True
  | .node l p k r =>
    (x ∈ (Shape.node l p k r).ptrs → IsUnbalanced l.size r.size = 0) ∧
    l.BalancedTowards x ∧ r.BalancedTowards x

/-- The root node of the shape fails the balance test. -/
def Shape.rootUnbalanced {K : Type} : Shape K → Prop
  | .nil => False
  | .node l _ _ r => IsUnbalanced l.size r.size ≠ 0

/-- Below the root, every node whose subtree contains `x` passes the balance test. -/
def Shape.BalancedBelowRoot {K : Type} (x : Nat) : Shape K → Prop
  | .nil => True
  | .node l _ _ r => l.BalancedTowards x ∧ r.BalancedTowards x

/-- The shape right after `ScapegoatInsert` has linked the new node (address
`new_node`) as a leaf and before the upward walk: the plain binary-search-tree
insertion.  A key that is already stored leaves the shape as it is. -/
def linkShape {K : Type} (cmp : K → K → Int) (S : Shape K) (key : K) (new_node : Nat) :
    Shape K :=
  match descend cmp key [] S with
  | (_, .nil) => .node .nil new_node key .nil
  | (c, .node l p k r) =>
    if cmp key k = 0 then S
    else if cmp key k < 0 then plug (.left p k r :: c) (.node .nil new_node key .nil)
    else plug (.right p k l :: c) (.node .nil new_node key .nil)

/-! ## Concrete inputs used in the examples -/

/-- A comparator on pairs that looks at the first component only: two pairs
with the same first component are distinct key references that compare equal. -/
def firstComparator (a b : Int × Int) : Int := IntComparator a.1 b.1

/-- The empty tree that `CreateScapegoatTree IntComparator` returns. -/
def emptyTree : ScapegoatTree Int :=
  { comparator := IntComparator, root := none, tree_size := 0,
    node_ptr_cache := none, node_ptr_cache_size := 0, nodes := [] }

/-- The tree after inserting the key `5` into `emptyTree`. -/
def tree5 : ScapegoatTree Int :=
  { comparator := IntComparator, root := some 0, tree_size := 1,
    node_ptr_cache := none, node_ptr_cache_size := 0,
    nodes := [{ parent := none, left := none, right := none, key := 5 }] }

/-- The tree after inserting the keys `0`, `1`, `2` into `emptyTree`: a chain of
right children, every node still balanced. -/
def chain3 : ScapegoatTree Int :=
  { comparator := IntComparator, root := some 0, tree_size := 3,
    node_ptr_cache := none, node_ptr_cache_size := 0,
    nodes := [{ parent := none, left := none, right := some 1, key := 0 },
              { parent := some 0, left := none, right := some 2, key := 1 },
              { parent := some 1, left := none, right := none, key := 2 }] }

/-- The shape of `chain3`. -/
def chain3Shape : Shape Int :=
  .node .nil 0 0 (.node .nil 1 1 (.node .nil 2 2 .nil))

/-! ## Relabelling of keys -/

/-- The same shape with every key replaced by its image under `f`. -/
def Shape.mapKeys {K K' : Type} (f : K → K') : Shape K → Shape K'
  | .nil => .nil
  | .node l p k r => .node (l.mapKeys f) p (f k) (r.mapKeys f)

/-- The same frame with every key replaced by its image under `f`. -/
def Frame.mapKeys {K K' : Type} (f : K → K') : Frame K → Frame K'
  | .left p k sib => .left p (f k) (sib.mapKeys f)
  | .right p k sib => .right p (f k) (sib.mapKeys f)

/-- A strictly increasing map of the integers that sends the position `i` to
the `i`-th key of the list `ks` (and continues with slope one on both sides). -/
def keyAt (ks : List Int) (i : Int) : Int :=
  if i < 0 then ks.getD 0 0 + i
  else if i < ks.length then ks.getD i.toNat 0
  else ks.getD (ks.length - 1) 0 + (i - (ks.length - 1))

/-- Every node of the shape splits its `m` nodes at the median: the left
subtree has `m / 2` of them and the right subtree `m - m / 2 - 1`. -/
def Shape.MedianSplit {K : Type} : Shape K → Prop
  | .nil => True
  | .node l p k r =>
    l.size = (Shape.node l p k r).size / 2 ∧
    r.size = (Shape.node l p k r).size - (Shape.node l p k r).size / 2 - 1 ∧
    l.MedianSplit ∧ r.MedianSplit

/-- At every node the sizes of the two subtrees differ by at most one. -/
def Shape.HalvesDifferByOne {K : Type} : Shape K → Prop
  | .nil => True
  | .node l _ _ r =>
    l.size ≤ r.size + 1 ∧ r.size ≤ l.size + 1 ∧ l.HalvesDifferByOne ∧ r.HalvesDifferByOne

/-- The calls of `FindAndRebalanceRecursive` that the upward walk makes when it
is started with the given arguments, in order, each as
`(node, left_size, right_size)`: the same recursion with the result replaced by
the list of the calls (the walk changes nothing before its last call, which
either rebuilds or stops at the root). -/
def walkCalls {K : Type} (fuel : Nat) (tree : ScapegoatTree K)
    (node : Nat) (left_size right_size : Nat) : Option (List (Nat × Nat × Nat)) :=
  match fuel with
  | 0 => none
  | fuel + 1 =>
    let our_size := left_size + right_size + 1
    if IsUnbalanced left_size right_size ≠ 0 then
      some [(node, left_size, right_size)]
    else do
      let n ← readNode tree.nodes node
      match n.parent with
      | none => pure [(node, left_size, right_size)]
      | some parent => do
        let pn ← readNode tree.nodes parent
        if pn.left = some node then do
          let right_size1 ← GetTreeSize fuel tree.nodes pn.right
          let rest ← walkCalls fuel tree parent our_size right_size1
          pure ((node, left_size, right_size) :: rest)
        else do
          let left_size1 ← GetTreeSize fuel tree.nodes pn.left
          let rest ← walkCalls fuel tree parent left_size1 our_size
          pure ((node, left_size, right_size) :: rest)

/-! ## The right spine under ascending insertions -/

/-- The right spine of a shape, lowest node first: for every node on the path
from the rightmost node up to the root, the size and the number of levels of
its left subtree. -/
def rspine {K : Type} : Shape K → List (Nat × Nat)
  | .nil => []
  | .node l _ _ r => rspine r ++ [(l.size, l.levels)]

/-- The size and the number of levels of the sibling subtree of each frame. -/
def absCtx {K : Type} : List (Frame K) → List (Nat × Nat)
  | [] => []
  | .left _ _ sib :: c => (sib.size, sib.levels) :: absCtx c
  | .right _ _ sib :: c => (sib.size, sib.levels) :: absCtx c

/-- Every frame of the path is a step to a right child. -/
def AllRight {K : Type} : List (Frame K) → Prop
  | [] => True
  | .left _ _ _ :: _ => False
  | .right _ _ _ :: c => AllRight c

/-- Number of levels of the balanced shape on `m` nodes (the recursion of
`buildShape` on the node count alone). -/
def blevels : Nat → Nat → Nat
  | 0, _ => 0
  | fuel + 1, m =>
    if m = 0 then 0
    else 1 + max (blevels fuel (m / 2)) (blevels fuel (m - (m / 2 + 1)))

/-- The right spine of the balanced shape on `m` nodes, put in front of `acc`. -/
def bspineAcc : Nat → Nat → List (Nat × Nat) → List (Nat × Nat)
  | 0, _, acc => acc
  | fuel + 1, m, acc =>
    if m = 0 then acc
    else bspineAcc fuel (m - (m / 2 + 1)) ((m / 2, blevels fuel (m / 2)) :: acc)

/-- The upward walk on right spines: `ctx` is the part of the spine above the
current node, `full` the spine of the whole tree if nothing is rebuilt.  The
balance test is the exact comparison with `7/10`. -/
def awalk : List (Nat × Nat) → Nat → Nat → List (Nat × Nat) → List (Nat × Nat)
  | ctx, ls, rs, full =>
    if 7 * (ls + rs + 1) < 10 * ls ∨ 7 * (ls + rs + 1) < 10 * rs then
      bspineAcc (ls + rs + 1) (ls + rs + 1) ctx
    else
      match ctx with
      | [] => full
      | (a, _) :: ctx1 => awalk ctx1 a (ls + rs + 1) full

/-- The right spine after the insertion of a key above all stored keys. -/
def astep (sp : List (Nat × Nat)) : List (Nat × Nat) := awalk sp 0 0 ((0, 0) :: sp)

/-- The right spine after `n` insertions of ascending keys. -/
def asteps : Nat → List (Nat × Nat) → List (Nat × Nat)
  | 0, sp => sp
  | n + 1, sp => asteps n (astep sp)

/-- Number of levels of a tree with the given right spine, root first. -/
def spLevels : List (Nat × Nat) → Nat
  | [] => 0
  | a :: rest => 1 + max a.2 (spLevels rest)

/-- Number of nodes of a tree with the given right spine. -/
def spSize : List (Nat × Nat) → Nat
  | [] => 0
  | a :: rest => 1 + a.1 + spSize rest

/-! ## Theorems -/

/-! ### Binary64 comparison against the balance factor -/

theorem ilog2_spec : ∀ (fuel x : Nat), 1 ≤ x → x ≤ fuel →
    2 ^ ilog2 fuel x ≤ x ∧ x < 2 ^ (ilog2 fuel x + 1) := by
  intro fuel
  induction fuel with
  | zero => intro x h1 h2; omega
  | succ f ih =>
    intro x h1 h2
    simp only [ilog2]
    by_cases hx : x < 2
    · rw [if_pos hx]; simp; omega
    · rw [if_neg hx]
      obtain ⟨a, b⟩ := ih (x / 2) (by omega) (by omega)
      have e1 : 2 ^ (1 + ilog2 f (x / 2)) = 2 * 2 ^ ilog2 f (x / 2) := by
        rw [Nat.add_comm, Nat.pow_succ, Nat.mul_comm]
      have e2 : 2 ^ (1 + ilog2 f (x / 2) + 1) = 2 * 2 ^ (ilog2 f (x / 2) + 1) := by
        rw [Nat.pow_succ, Nat.mul_comm, Nat.add_comm 1]
      rw [e1, e2]
      omega

/-- The rounded quotient: the mantissa `m` of `f64_div n d` for `0 < n ≤ d`, with
`P = 2^j` the scaling chosen, is within rounding of `n * 2^53 * P / d`. -/
theorem f64_div_spec (n d : Nat) (hn : 0 < n) (hnd : n ≤ d) :
    ∃ j q r, f64_div n d =
        ((if 2 * r < d then q else if d < 2 * r then q + 1 else q + q % 2), 53 + j) ∧
      n * 2 ^ (53 + j) = d * q + r ∧ r < d ∧ 2 ^ j * n ≤ d ∧ d < 2 ^ (j + 1) * n := by
  have hx : 1 ≤ d / n := (Nat.le_div_iff_mul_le hn).mpr (by omega)
  obtain ⟨a, b⟩ := ilog2_spec (d / n) (d / n) hx (Nat.le_refl _)
  refine ⟨ilog2 (d / n) (d / n), n * 2 ^ (53 + ilog2 (d / n) (d / n)) / d,
    n * 2 ^ (53 + ilog2 (d / n) (d / n)) % d, ?_, ?_, ?_, ?_, ?_⟩
  · simp only [f64_div, Nat.ne_of_gt hn, if_false]
  · exact (Nat.div_add_mod _ _).symm
  · exact Nat.mod_lt _ (by omega)
  · exact (Nat.le_div_iff_mul_le hn).mp a
  · exact (Nat.div_lt_iff_lt_mul hn).mp b

theorem f64_gt_balance (m j : Nat) :
    f64_gt (m, 53 + j) BALANCE_FACTOR = true ↔ 6305039478318694 * 2 ^ j < m := by
  simp only [f64_gt, BALANCE_FACTOR, decide_eq_true_eq]
  rw [Nat.pow_add, ← Nat.mul_assoc, Nat.mul_comm _ (2 ^ 53), Nat.mul_comm m (2 ^ 53),
    Nat.mul_assoc]
  exact Nat.mul_lt_mul_left (by norm_num)


/-- With the quotient at most one half the scaled mantissa is at most `2^53`, so
the quotient is not above `0.7` (no bound on the operands is needed). -/
theorem f64_not_gt_of_scaled (n d j q r : Nat) (hd : 0 < d) (hj : 1 ≤ j)
    (hX : n * 2 ^ (53 + j) = d * q + r) (hA : 2 ^ j * n ≤ d) :
    ¬ 6305039478318694 * 2 ^ j <
      (if 2 * r < d then q else if d < 2 * r then q + 1 else q + q % 2) := by
  have e : n * 2 ^ (53 + j) = 2 ^ 53 * (2 ^ j * n) := by
    rw [Nat.pow_add]; ring
  rw [e] at hX
  have hP : 2 ≤ 2 ^ j := by
    calc 2 = 2 ^ 1 := by norm_num
      _ ≤ 2 ^ j := Nat.pow_le_pow_right (by norm_num) hj
  generalize 2 ^ j * n = A at hX hA
  generalize 2 ^ j = P at hP
  norm_num at hX
  have hq : q ≤ 9007199254740992 := by
    by_contra hq
    have := Nat.mul_le_mul_left d (by omega : 9007199254740993 ≤ q)
    omega
  split_ifs with h1 h2
  · omega
  · rcases Nat.lt_or_ge q 9007199254740992 with h | h
    · omega
    · have hqe : q = 9007199254740992 := by omega
      subst hqe
      omega
  · omega

theorem f64_not_gt_of_half (n d : Nat) (hd : 0 < d) (h2 : 2 * n ≤ d) :
    f64_gt (f64_div n d) BALANCE_FACTOR = false := by
  rcases Nat.eq_zero_or_pos n with rfl | hn
  · simp [f64_div, f64_gt, BALANCE_FACTOR]
  · obtain ⟨j, q, r, hdiv, hX, hr, hA, hB⟩ := f64_div_spec n d hn (by omega)
    rw [hdiv]
    apply Bool.eq_false_iff.mpr
    rw [Ne, f64_gt_balance]
    have hj : 1 ≤ j := by
      by_contra hj
      have : j = 0 := by omega
      subst this
      simp at hB
      omega
    exact f64_not_gt_of_scaled n d j q r hd hj hX hA

/-- Rounding to nearest, ties to even: the rounded mantissa and the remainder. -/
theorem round_bounds (q r d : Nat) :
    q ≤ (if 2 * r < d then q else if d < 2 * r then q + 1 else q + q % 2) ∧
    (if 2 * r < d then q else if d < 2 * r then q + 1 else q + q % 2) ≤ q + 1 ∧
    (2 * r < d → (if 2 * r < d then q else if d < 2 * r then q + 1 else q + q % 2) = q) ∧
    (d < 2 * r → (if 2 * r < d then q else if d < 2 * r then q + 1 else q + q % 2) = q + 1) := by
  split_ifs <;> omega

/-- For operands below `2^53` the binary64 test `n / d > 0.7` agrees with the
exact comparison `10 * n > 7 * d`. -/
theorem f64_gt_div_iff (n d : Nat) (hd : 0 < d) (hnd : n ≤ d) (hd53 : d < 2 ^ 53) :
    f64_gt (f64_div n d) BALANCE_FACTOR = true ↔ 7 * d < 10 * n := by
  rcases Nat.eq_zero_or_pos n with rfl | hn
  · simp [f64_div, f64_gt, BALANCE_FACTOR]
  · obtain ⟨j, q, r, hdiv, hX, hr, hA, hB⟩ := f64_div_spec n d hn hnd
    rw [hdiv, f64_gt_balance]
    norm_num at hd53
    rcases Nat.eq_zero_or_pos j with rfl | hj
    · -- quotient in (1/2, 1]
      norm_num at hX hA hB ⊢
      obtain ⟨m1, m2, m3, m4⟩ := round_bounds q r d
      generalize (if 2 * r < d then q else if d < 2 * r then q + 1 else q + q % 2) = m
        at m1 m2 m3 m4 ⊢
      constructor
      · intro hm
        by_contra hcon
        have hq : q ≤ 6305039478318694 := by
          by_contra hq
          have := Nat.mul_le_mul_left d (by omega : 6305039478318695 ≤ q)
          omega
        rcases Nat.lt_or_ge q 6305039478318694 with h | h
        · omega
        · have hqe : q = 6305039478318694 := by omega
          subst hqe
          have h2r : 2 * r < d := by omega
          have := m3 h2r
          omega
      · intro h7
        rcases Nat.lt_or_ge 6305039478318694 q with h | h
        · omega
        · rcases Nat.lt_or_ge q 6305039478318694 with h' | h'
          · exfalso
            have := Nat.mul_le_mul_left d (by omega : q + 1 ≤ 6305039478318694)
            rw [Nat.mul_succ] at this
            omega
          · have hqe : q = 6305039478318694 := by omega
            subst hqe
            have h2r : d < 2 * r := by omega
            have := m4 h2r
            omega
    · -- quotient at most 1/2
      constructor
      · intro hm
        exact absurd hm (f64_not_gt_of_scaled n d j q r hd hj hX hA)
      · intro h7
        exfalso
        have hP : 2 ≤ 2 ^ j := by
          calc 2 = 2 ^ 1 := by norm_num
            _ ≤ 2 ^ j := Nat.pow_le_pow_right (by norm_num) hj
        have := Nat.mul_le_mul_right n hP
        omega

theorem IsUnbalanced_le_one (left_size right_size : Nat) :
    IsUnbalanced left_size right_size = 0 ∨ IsUnbalanced left_size right_size = 1 := by
  simp only [IsUnbalanced]
  split_ifs <;> simp

/-- When the `int` sum `left_size + right_size + 1` does not overflow, the test
is the one on the exact sum. -/
theorem IsUnbalanced_of_int (left_size right_size : Nat)
    (h : left_size + right_size + 1 < 2 ^ 31) :
    IsUnbalanced left_size right_size =
      if f64_gt (f64_div left_size (left_size + right_size + 1)) BALANCE_FACTOR then 1
      else if f64_gt (f64_div right_size (left_size + right_size + 1)) BALANCE_FACTOR then 1
      else 0 := by
  norm_num at h
  have hmod : (left_size + right_size + 1) % 4294967296 = left_size + right_size + 1 :=
    Nat.mod_eq_of_lt (by omega)
  simp only [IsUnbalanced, hmod]
  rw [if_neg (by omega)]

/-- When the `int` sum `left_size + right_size + 1` overflows (the operands being
`int`s, the sum is below `2^32`), the test returns `0`. -/
theorem IsUnbalanced_of_overflow (left_size right_size : Nat)
    (h1 : 2 ^ 31 ≤ left_size + right_size + 1) (h2 : left_size + right_size + 1 < 2 ^ 32) :
    IsUnbalanced left_size right_size = 0 := by
  norm_num at h1 h2
  have hmod : (left_size + right_size + 1) % 4294967296 = left_size + right_size + 1 :=
    Nat.mod_eq_of_lt (by omega)
  simp only [IsUnbalanced, hmod]
  rw [if_pos (by omega)]

/-- `IsUnbalanced` decides the exact bound of the balance factor `7/10` whenever
the `int` sum `left_size + right_size + 1` does not overflow, that is up to
`INT_MAX = 2^31 - 1`. -/
theorem IsUnbalanced_iff (left_size right_size : Nat)
    (h : left_size + right_size + 1 < 2 ^ 31) :
    IsUnbalanced left_size right_size = 0 ↔
      10 * max left_size right_size ≤ 7 * (left_size + right_size + 1) := by
  have h53 : left_size + right_size + 1 < 2 ^ 53 :=
    Nat.lt_of_lt_of_le h (Nat.pow_le_pow_right (by norm_num) (by norm_num))
  have h1 := f64_gt_div_iff left_size (left_size + right_size + 1) (by omega) (by omega) h53
  have h2 := f64_gt_div_iff right_size (left_size + right_size + 1) (by omega) (by omega) h53
  have hmax : max left_size right_size = left_size ∨ max left_size right_size = right_size := by
    rcases Nat.le_total left_size right_size with hlr | hlr
    · exact Or.inr (max_eq_right hlr)
    · exact Or.inl (max_eq_left hlr)
  have hl : left_size ≤ max left_size right_size := le_max_left _ _
  have hr : right_size ≤ max left_size right_size := le_max_right _ _
  generalize max left_size right_size = M at hmax hl hr ⊢
  rw [IsUnbalanced_of_int left_size right_size h]
  cases c1 : f64_gt (f64_div left_size (left_size + right_size + 1)) BALANCE_FACTOR
  · cases c2 : f64_gt (f64_div right_size (left_size + right_size + 1)) BALANCE_FACTOR
    · have n1 : ¬ 7 * (left_size + right_size + 1) < 10 * left_size := fun hh => by
        rw [h1.mpr hh] at c1; cases c1
      have n2 : ¬ 7 * (left_size + right_size + 1) < 10 * right_size := fun hh => by
        rw [h2.mpr hh] at c2; cases c2
      constructor
      · intro _
        rcases hmax with e | e <;> omega
      · intro _; simp
    · have := h2.mp c2
      constructor
      · intro h0; simp at h0
      · intro hb; omega
  · have := h1.mp c1
    constructor
    · intro h0; simp at h0
    · intro hb; omega

/-- Subtrees that each hold at most half of the nodes pass the balance test
(for sizes whose sum is below `2^32`, as every sum of two `int`s and one is). -/
theorem IsUnbalanced_eq_zero_of_half (left_size right_size : Nat)
    (hl : 2 * left_size ≤ left_size + right_size + 1)
    (hr : 2 * right_size ≤ left_size + right_size + 1)
    (h32 : left_size + right_size + 1 < 2 ^ 32) :
    IsUnbalanced left_size right_size = 0 := by
  rcases Nat.lt_or_ge (left_size + right_size + 1) (2 ^ 31) with h | h
  · rw [IsUnbalanced_of_int left_size right_size h]
    simp only [f64_not_gt_of_half _ _ (by omega) hl, f64_not_gt_of_half _ _ (by omega) hr]
    simp
  · exact IsUnbalanced_of_overflow left_size right_size h h32


/-! ### Shapes and the node store -/

variable {K : Type}

@[simp] theorem Shape.root_nil : (Shape.nil : Shape K).root = none := rfl
@[simp] theorem Shape.root_node (l : Shape K) (p : Nat) (k : K) (r : Shape K) :
    (Shape.node l p k r).root = some p := rfl
@[simp] theorem Shape.size_nil : (Shape.nil : Shape K).size = 0 := rfl
@[simp] theorem Shape.size_node (l : Shape K) (p : Nat) (k : K) (r : Shape K) :
    (Shape.node l p k r).size = 1 + l.size + r.size := rfl
@[simp] theorem Shape.levels_nil : (Shape.nil : Shape K).levels = 0 := rfl
@[simp] theorem Shape.levels_node (l : Shape K) (p : Nat) (k : K) (r : Shape K) :
    (Shape.node l p k r).levels = 1 + max l.levels r.levels := rfl
@[simp] theorem Shape.toList_nil : (Shape.nil : Shape K).toList = [] := rfl
@[simp] theorem Shape.toList_node (l : Shape K) (p : Nat) (k : K) (r : Shape K) :
    (Shape.node l p k r).toList = l.toList ++ (p, k) :: r.toList := rfl
@[simp] theorem Shape.ptrs_nil : (Shape.nil : Shape K).ptrs = [] := rfl
@[simp] theorem Shape.ptrs_node (l : Shape K) (p : Nat) (k : K) (r : Shape K) :
    (Shape.node l p k r).ptrs = l.ptrs ++ p :: r.ptrs := by simp [Shape.ptrs]
@[simp] theorem Shape.keys_nil : (Shape.nil : Shape K).keys = [] := rfl
@[simp] theorem Shape.keys_node (l : Shape K) (p : Nat) (k : K) (r : Shape K) :
    (Shape.node l p k r).keys = l.keys ++ k :: r.keys := by simp [Shape.keys]
@[simp] theorem Shape.length_toList (s : Shape K) : s.toList.length = s.size := by
  induction s with
  | nil => rfl
  | node l p k r ihl ihr => simp [ihl, ihr]; omega
@[simp] theorem Shape.length_ptrs (s : Shape K) : s.ptrs.length = s.size := by
  simp [Shape.ptrs]
@[simp] theorem Shape.length_keys (s : Shape K) : s.keys.length = s.size := by
  simp [Shape.keys]

theorem Shape.levels_le_size (s : Shape K) : s.levels ≤ s.size := by
  induction s with
  | nil => simp
  | node l p k r ihl ihr => simp only [Shape.levels_node, Shape.size_node]; omega

theorem Shape.root_eq_none_iff (s : Shape K) : s.root = none ↔ s = Shape.nil := by
  cases s <;> simp

@[simp] theorem Rep_nil (nodes : List (ScapegoatTreeNode K)) (par : Option Nat) :
    Rep nodes par Shape.nil = True := rfl
theorem Rep_node (nodes : List (ScapegoatTreeNode K)) (par : Option Nat)
    (l : Shape K) (p : Nat) (k : K) (r : Shape K) :
    Rep nodes par (Shape.node l p k r) =
    (readNode nodes p = some { parent := par, left := l.root, right := r.root, key := k } ∧
    Rep nodes (some p) l ∧ Rep nodes (some p) r) := rfl

theorem GetTreeSize_of_Rep (nodes : List (ScapegoatTreeNode K)) (s : Shape K) :
    ∀ (par : Option Nat) (fuel : Nat), Rep nodes par s → s.levels < fuel →
      GetTreeSize fuel nodes s.root = some s.size := by
  induction s with
  | nil =>
    intro par fuel _ hf
    cases fuel with
    | zero => omega
    | succ f => simp [GetTreeSize]
  | node l p k r ihl ihr =>
    intro par fuel hrep hf
    cases fuel with
    | zero => omega
    | succ f =>
      obtain ⟨h1, h2, h3⟩ := hrep
      simp only [Shape.levels_node] at hf
      have hl := ihl (some p) f h2 (by omega)
      have hr := ihr (some p) f h3 (by omega)
      simp [GetTreeSize, h1, hl, hr]

/-- Frame: a store that agrees with `nodes` on the addresses of `s` holds `s` too. -/
theorem Rep_congr (nodes nodes' : List (ScapegoatTreeNode K)) (s : Shape K) :
    ∀ par, (∀ q ∈ s.ptrs, readNode nodes' q = readNode nodes q) →
      Rep nodes par s → Rep nodes' par s := by
  induction s with
  | nil => intro par _ _; trivial
  | node l p k r ihl ihr =>
    intro par hag hrep
    obtain ⟨h1, h2, h3⟩ := hrep
    refine ⟨?_, ihl _ ?_ h2, ihr _ ?_ h3⟩
    · rw [hag p (by simp), h1]
    · intro q hq; exact hag q (by simp [hq])
    · intro q hq; exact hag q (by simp [hq])

theorem Rep_ptr_lt (nodes : List (ScapegoatTreeNode K)) (s : Shape K) :
    ∀ par, Rep nodes par s → ∀ q ∈ s.ptrs, q < nodes.length := by
  induction s with
  | nil => intro par _ q hq; simp at hq
  | node l p k r ihl ihr =>
    intro par hrep q hq
    obtain ⟨h1, h2, h3⟩ := hrep
    simp only [Shape.ptrs_node, List.mem_append, List.mem_cons] at hq
    rcases hq with hq | rfl | hq
    · exact ihl _ h2 q hq
    · simp only [readNode] at h1
      exact (List.getElem?_eq_some.mp h1).1
    · exact ihr _ h3 q hq

theorem TraverseNodesInOrder_of_Rep (nodes : List (ScapegoatTreeNode K)) (s : Shape K) :
    ∀ (par : Option Nat) (fuel : Nat) (pre mid post : List (Option Nat)),
      Rep nodes par s → s.levels < fuel → mid.length = s.size →
      TraverseNodesInOrder fuel nodes s.root (pre ++ (mid ++ post)) pre.length =
        some (pre ++ (s.ptrs.map some ++ post), pre.length + s.size) := by
  induction s with
  | nil =>
    intro par fuel pre mid post _ hf hmid
    cases fuel with
    | zero => omega
    | succ f =>
      have : mid = [] := List.length_eq_zero.mp (by simpa using hmid)
      simp [TraverseNodesInOrder, this]
  | node l p k r ihl ihr =>
    intro par fuel pre mid post hrep hf hmid
    cases fuel with
    | zero => omega
    | succ f =>
      obtain ⟨h1, h2, h3⟩ := hrep
      simp only [Shape.levels_node] at hf
      simp only [Shape.size_node] at hmid
      have hsplit : mid = mid.take l.size ++ (mid.drop l.size) := (List.take_append_drop _ _).symm
      obtain ⟨m, midR, hm⟩ : ∃ m midR, mid.drop l.size = m :: midR := by
        cases hd : mid.drop l.size with
        | nil => have := congrArg List.length hd; simp at this; omega
        | cons m midR => exact ⟨m, midR, rfl⟩
      have hlenL : (mid.take l.size).length = l.size := by simp; omega
      have hlenR : midR.length = r.size := by
        have := congrArg List.length hm; simp at this; omega
      have hl := ihl (some p) f pre (mid.take l.size) (m :: midR ++ post) h2 (by omega) hlenL
      have hmid2 : pre ++ (mid ++ post) = pre ++ (mid.take l.size ++ (m :: midR ++ post)) := by
        conv => lhs; rw [hsplit, hm]
        simp
      simp only [TraverseNodesInOrder, Shape.root_node, h1, hmid2, hl]
      have e1 : pre ++ (l.ptrs.map some ++ (m :: midR ++ post))
          = (pre ++ l.ptrs.map some) ++ (m :: (midR ++ post)) := by simp
      have e2 : pre.length + l.size = (pre ++ l.ptrs.map some).length := by simp
      rw [if_pos (by simp)]
      rw [e1, e2, List.set_append_right _ _ (Nat.le_refl _)]
      simp only [Nat.sub_self, List.set_cons_zero]
      have hr := ihr (some p) f ((pre ++ l.ptrs.map some) ++ [some p]) midR post h3 (by omega) hlenR
      have e3 : (pre ++ l.ptrs.map some) ++ (some p :: (midR ++ post))
          = ((pre ++ l.ptrs.map some) ++ [some p]) ++ (midR ++ post) := by simp
      have e4 : (pre ++ l.ptrs.map some).length + 1
          = ((pre ++ l.ptrs.map some) ++ [some p]).length := by simp [Nat.add_assoc]
      rw [e3, e4, hr]
      simp only [Shape.size_node, Shape.ptrs_node, Option.some.injEq, Prod.mk.injEq]
      refine ⟨by simp, by simp; omega⟩

theorem TraverseNodesInOrder_zero (nodes : List (ScapegoatTreeNode K)) (s : Shape K)
    (par : Option Nat) (fuel : Nat) (sorted : List (Option Nat))
    (hrep : Rep nodes par s) (hf : s.levels < fuel) (hlen : s.size ≤ sorted.length) :
    TraverseNodesInOrder fuel nodes s.root sorted 0 =
      some (s.ptrs.map some ++ sorted.drop s.size, s.size) := by
  have h := TraverseNodesInOrder_of_Rep nodes s par fuel [] (sorted.take s.size)
    (sorted.drop s.size) hrep hf (by simp; omega)
  simpa using h


theorem buildShape_nil (fuel : Nat) : buildShape fuel ([] : List (Nat × K)) = Shape.nil := by
  cases fuel <;> simp [buildShape]

theorem buildShape_toList : ∀ (fuel : Nat) (l : List (Nat × K)), l.length ≤ fuel →
    (buildShape fuel l).toList = l := by
  intro fuel
  induction fuel with
  | zero =>
    intro l hl
    have : l = [] := List.length_eq_zero.mp (by omega)
    simp [this, buildShape]
  | succ f ih =>
    intro l hl
    cases hm : l[l.length / 2]? with
    | none =>
      have h0 : l.length ≤ l.length / 2 := by simpa using hm
      have : l = [] := List.length_eq_zero.mp (by omega)
      simp [this, buildShape]
    | some pk =>
      obtain ⟨p, k⟩ := pk
      simp only [buildShape, hm, Shape.toList_node]
      have hlt : l.length / 2 < l.length := (List.getElem?_eq_some.mp hm).1
      rw [ih _ (by simp; omega), ih _ (by simp; omega)]
      have hget : l[l.length / 2] = (p, k) := (List.getElem?_eq_some.mp hm).2
      conv => rhs; rw [← List.take_append_drop (l.length / 2) l]
      congr 1
      rw [← hget]
      exact (List.drop_eq_getElem_cons hlt).symm

theorem balanced_toList (l : List (Nat × K)) : (balanced l).toList = l :=
  buildShape_toList _ _ (Nat.le_refl _)

theorem readNode_set (nodes : List (ScapegoatTreeNode K)) (p q : Nat) (n : ScapegoatTreeNode K) :
    readNode (nodes.set p n) q =
      if p = q then (if p < nodes.length then some n else none) else readNode nodes q := by
  simp only [readNode, List.getElem?_set]

theorem readNode_lt {nodes : List (ScapegoatTreeNode K)} {p : Nat} {n : ScapegoatTreeNode K}
    (h : readNode nodes p = some n) : p < nodes.length :=
  (List.getElem?_eq_some.mp h).1

theorem readNode_set_self {nodes : List (ScapegoatTreeNode K)} {p : Nat}
    {n0 : ScapegoatTreeNode K} (h : readNode nodes p = some n0) (n : ScapegoatTreeNode K) :
    readNode (nodes.set p n) p = some n := by
  rw [readNode_set, if_pos rfl, if_pos (readNode_lt h)]

theorem readNode_set_ne (nodes : List (ScapegoatTreeNode K)) {p q : Nat} (h : p ≠ q)
    (n : ScapegoatTreeNode K) : readNode (nodes.set p n) q = readNode nodes q := by
  rw [readNode_set, if_neg h]

theorem setLeft_eq {nodes : List (ScapegoatTreeNode K)} {p : Nat} {n : ScapegoatTreeNode K}
    (h : readNode nodes p = some n) (v : Option Nat) :
    setLeft nodes p v = some (nodes.set p { n with left := v }) := by
  simp [setLeft, h]

theorem setRight_eq {nodes : List (ScapegoatTreeNode K)} {p : Nat} {n : ScapegoatTreeNode K}
    (h : readNode nodes p = some n) (v : Option Nat) :
    setRight nodes p v = some (nodes.set p { n with right := v }) := by
  simp [setRight, h]

theorem setParent_eq {nodes : List (ScapegoatTreeNode K)} {p : Nat} {n : ScapegoatTreeNode K}
    (h : readNode nodes p = some n) (v : Option Nat) :
    setParent nodes p v = some (nodes.set p { n with parent := v }) := by
  simp [setParent, h]

/-- Re-parenting the root of a represented shape whose addresses are distinct. -/
theorem Rep_set_root_parent {nodes : List (ScapegoatTreeNode K)} {par : Option Nat}
    {l r : Shape K} {p : Nat} {k : K} (h : Rep nodes par (Shape.node l p k r))
    (hl : p ∉ l.ptrs) (hr : p ∉ r.ptrs) (par' : Option Nat) :
    Rep (nodes.set p { parent := par', left := l.root, right := r.root, key := k }) par'
      (Shape.node l p k r) := by
  obtain ⟨h1, h2, h3⟩ := h
  refine ⟨readNode_set_self h1 _, ?_, ?_⟩
  · apply Rep_congr nodes _ l _ _ h2
    intro q hq
    exact readNode_set_ne _ (by rintro rfl; exact hl hq) _
  · apply Rep_congr nodes _ r _ _ h3
    intro q hq
    exact readNode_set_ne _ (by rintro rfl; exact hr hq) _

theorem Shape.eq_node_of_root {s : Shape K} {p : Nat} (h : s.root = some p) :
    ∃ l k r, s = Shape.node l p k r := by
  cases s with
  | nil => simp at h
  | node l q k r => simp at h; subst h; exact ⟨l, k, r, rfl⟩

theorem Shape.ptrs_eq_of_toList {s : Shape K} {l : List (Nat × K)} (h : s.toList = l) :
    s.ptrs = l.map Prod.fst := by
  simp [Shape.ptrs, h]

/-- Re-parenting the root of a represented shape, stated for an arbitrary shape
with distinct addresses and a known root. -/
theorem Rep_setParent {nodes : List (ScapegoatTreeNode K)} {par : Option Nat}
    {s : Shape K} {p : Nat} (h : Rep nodes par s) (hroot : s.root = some p)
    (hnd : s.ptrs.Nodup) (par' : Option Nat) :
    ∃ nodes', setParent nodes p par' = some nodes' ∧ Rep nodes' par' s ∧
      (∀ q, q ≠ p → readNode nodes' q = readNode nodes q) ∧
      (∃ n, readNode nodes p = some n ∧
        readNode nodes' p = some { n with parent := par' }) := by
  obtain ⟨l, k, r, rfl⟩ := Shape.eq_node_of_root hroot
  have h1 := h.1
  simp only [Shape.ptrs_node] at hnd
  have hl : p ∉ l.ptrs := by
    intro hp
    exact (List.nodup_append.mp hnd).2.2 hp (by simp)
  have hr : p ∉ r.ptrs := by
    have := (List.nodup_append.mp hnd).2.1
    exact (List.nodup_cons.mp this).1
  refine ⟨_, setParent_eq h1 par', Rep_set_root_parent h hl hr par', ?_, _, h1, ?_⟩
  · intro q hq
    exact readNode_set_ne _ (Ne.symm hq) _
  · exact readNode_set_self h1 _


theorem BuildTreeFromSortedNodes_spec : ∀ (fuel : Nat) (nodes : List (ScapegoatTreeNode K))
    (sorted : List (Option Nat)) (l : List (Nat × K)),
    0 < l.length → l.length ≤ fuel →
    sorted.take l.length = l.map (fun pk => some pk.1) →
    (l.map Prod.fst).Nodup →
    (∀ pk ∈ l, ∃ n, readNode nodes pk.1 = some n ∧ n.key = pk.2) →
    ∃ nodes' root par,
      BuildTreeFromSortedNodes fuel nodes sorted l.length = some (nodes', root) ∧
      (buildShape fuel l).root = some root ∧
      Rep nodes' par (buildShape fuel l) ∧
      (∀ q, q ∉ l.map Prod.fst → readNode nodes' q = readNode nodes q) := by
  intro fuel
  induction fuel with
  | zero => intro nodes sorted l h0 h1; omega
  | succ f ih =>
    intro nodes sorted l hpos hfuel hsorted hnd hvalid
    have hm : l.length / 2 < l.length := Nat.div_lt_self hpos (by decide)
    -- the median element
    obtain ⟨p, k, hpk⟩ : ∃ p k, l[l.length / 2]? = some (p, k) :=
      ⟨_, _, List.getElem?_eq_getElem hm⟩
    have hmem : (p, k) ∈ l := List.getElem?_mem hpk
    have hsm : sorted[l.length / 2]? = some (some p) := by
      have : (sorted.take l.length)[l.length / 2]? = sorted[l.length / 2]? :=
        List.getElem?_take_of_lt hm
      rw [← this, hsorted, List.getElem?_map, hpk]; rfl
    obtain ⟨n0, hn0, hk0⟩ := hvalid _ hmem
    simp only at hn0 hk0
    -- decomposition of the list around the median
    have hsplit : l = l.take (l.length / 2) ++ (p, k) :: l.drop (l.length / 2 + 1) := by
      conv => lhs; rw [← List.take_append_drop (l.length / 2) l]
      congr 1
      rw [List.drop_eq_getElem_cons hm]
      congr 1
      exact (List.getElem?_eq_some.mp hpk).2
    have hnd' : ((l.take (l.length / 2)).map Prod.fst ++
        p :: (l.drop (l.length / 2 + 1)).map Prod.fst).Nodup := by
      have := hnd
      rw [hsplit] at this
      simpa using this
    have hndL := (List.nodup_append.mp hnd').1
    have hndR := (List.nodup_cons.mp (List.nodup_append.mp hnd').2.1).2
    have hpL : p ∉ (l.take (l.length / 2)).map Prod.fst := fun h =>
      (List.nodup_append.mp hnd').2.2 h (by simp)
    have hpR : p ∉ (l.drop (l.length / 2 + 1)).map Prod.fst :=
      (List.nodup_cons.mp (List.nodup_append.mp hnd').2.1).1
    have hLR : ∀ q, q ∈ (l.take (l.length / 2)).map Prod.fst →
        q ∉ (l.drop (l.length / 2 + 1)).map Prod.fst := fun q h1 h2 =>
      (List.nodup_append.mp hnd').2.2 h1 (List.mem_cons_of_mem _ h2)
    -- clearing the children of the median
    have e1 := setLeft_eq hn0 none
    have hr1 := readNode_set_self hn0 { n0 with left := none }
    have e2 := setRight_eq hr1 none
    have hM2 := readNode_set_self hr1 { n0 with left := none, right := none }
    have hF2 : ∀ q, q ≠ p → readNode ((nodes.set p { n0 with left := none }).set p
        { n0 with left := none, right := none }) q = readNode nodes q := by
      intro q hq
      rw [readNode_set_ne _ (Ne.symm hq), readNode_set_ne _ (Ne.symm hq)]
    generalize (nodes.set p { n0 with left := none }).set p
        { n0 with left := none, right := none } = nodes2 at e2 hM2 hF2
    simp only [BuildTreeFromSortedNodes, Nat.shiftRight_eq_div_pow, pow_one, hsm, e1, e2,
      Option.bind_eq_bind, Option.some_bind, Option.pure_def]
    have hshape : buildShape (f + 1) l = Shape.node (buildShape f (l.take (l.length / 2))) p k
        (buildShape f (l.drop (l.length / 2 + 1))) := by
      simp only [buildShape, hpk]
    rw [hshape]
    subst hk0
    by_cases hn1 : l.length = 1
    · -- a single node
      rw [if_pos hn1]
      refine ⟨nodes2, p, n0.parent, rfl, rfl, ?_, ?_⟩
      · have hz : l.length / 2 = 0 := by omega
        have hd : l.drop (l.length / 2 + 1) = [] := by
          apply List.drop_eq_nil_of_le; omega
        rw [hz] at hd ⊢
        simp only [List.take_zero, hd, buildShape_nil]
        exact ⟨hM2, trivial, trivial⟩
      · intro q hq
        apply hF2
        rintro rfl
        exact hq (List.mem_map_of_mem Prod.fst hmem)
    · rw [if_neg hn1]
      -- the left half
      have hlenL : (l.take (l.length / 2)).length = l.length / 2 := by
        simp; omega
      have hvalidL : ∀ pk ∈ l.take (l.length / 2),
          ∃ n, readNode nodes2 pk.1 = some n ∧ n.key = pk.2 := by
        intro pk hpkL
        have hne : pk.1 ≠ p := by
          rintro rfl
          exact hpL (List.mem_map_of_mem Prod.fst hpkL)
        rw [hF2 _ hne]
        exact hvalid pk (List.mem_of_mem_take hpkL)
      obtain ⟨nodes3, left, parL, hB3, hrootL, hrepL, hF3⟩ :=
        ih nodes2 sorted (l.take (l.length / 2)) (by rw [hlenL]; omega) (by rw [hlenL]; omega)
          (by
            rw [hlenL, List.map_take, ← hsorted, List.take_take]
            congr 1; omega)
          hndL hvalidL
      rw [hlenL] at hB3
      have hptrsL : (buildShape f (l.take (l.length / 2))).ptrs
          = (l.take (l.length / 2)).map Prod.fst :=
        Shape.ptrs_eq_of_toList (buildShape_toList _ _ (by rw [hlenL]; omega))
      have hleftL : left ∈ (l.take (l.length / 2)).map Prod.fst := by
        rw [← hptrsL]
        obtain ⟨a, kl, b, hs⟩ := Shape.eq_node_of_root hrootL
        rw [hs]; simp
      obtain ⟨nodes4, hB4, hrep4, hF4, -⟩ :=
        Rep_setParent hrepL hrootL (by rw [hptrsL]; exact hndL) (some p)
      have hlp : left ≠ p := by
        rintro rfl; exact hpL hleftL
      have hM4 : readNode nodes4 p
          = some { parent := n0.parent, left := none, right := none, key := n0.key } := by
        rw [hF4 p (Ne.symm hlp), hF3 p hpL, hM2]
      have hB5 := setLeft_eq hM4 (some left)
      have hM5 := readNode_set_self hM4 { n0 with left := some left, right := none }
      have hF5 : ∀ q, q ≠ p → readNode (nodes4.set p
          { n0 with left := some left, right := none }) q = readNode nodes4 q := by
        intro q hq
        rw [readNode_set_ne _ (Ne.symm hq)]
      generalize nodes4.set p { n0 with left := some left, right := none } = nodes5
        at hB5 hM5 hF5
      have hrep5 : Rep nodes5 (some p) (buildShape f (l.take (l.length / 2))) := by
        apply Rep_congr nodes4 _ _ _ _ hrep4
        intro q hq
        apply hF5
        rintro rfl
        exact hpL (hptrsL ▸ hq)
      simp only [hB3, Option.some_bind, hB4, hB5]
      have hmemL : ∀ q, q ∉ l.map Prod.fst → q ≠ p ∧
          q ∉ (l.take (l.length / 2)).map Prod.fst ∧
          q ∉ (l.drop (l.length / 2 + 1)).map Prod.fst := by
        intro q hq
        refine ⟨?_, ?_, ?_⟩
        · rintro rfl; exact hq (List.mem_map_of_mem Prod.fst hmem)
        · intro h
          obtain ⟨pk, h1, h2⟩ := List.mem_map.mp h
          exact hq (List.mem_map.mpr ⟨pk, List.mem_of_mem_take h1, h2⟩)
        · intro h
          obtain ⟨pk, h1, h2⟩ := List.mem_map.mp h
          exact hq (List.mem_map.mpr ⟨pk, List.mem_of_mem_drop h1, h2⟩)
      have hF5' : ∀ q, q ≠ p → q ∉ (l.take (l.length / 2)).map Prod.fst →
          readNode nodes5 q = readNode nodes q := by
        intro q hq hqL
        have hql : q ≠ left := by rintro rfl; exact hqL hleftL
        rw [hF5 q hq, hF4 q hql, hF3 q hqL, hF2 q hq]
      by_cases hn2 : l.length = 2
      · -- two nodes: no right subtree
        rw [if_pos hn2]
        refine ⟨nodes5, p, n0.parent, rfl, rfl, ?_, ?_⟩
        · have hd : l.drop (l.length / 2 + 1) = [] := by
            apply List.drop_eq_nil_of_le; omega
          rw [hd, buildShape_nil]
          refine ⟨?_, hrep5, trivial⟩
          rw [hM5, hrootL]; rfl
        · intro q hq
          obtain ⟨h1, h2, -⟩ := hmemL q hq
          exact hF5' q h1 h2
      · rw [if_neg hn2]
        -- the right half
        have hlenR : (l.drop (l.length / 2 + 1)).length = l.length - (l.length / 2 + 1) := by
          simp
        have hvalidR : ∀ pk ∈ l.drop (l.length / 2 + 1),
            ∃ n, readNode nodes5 pk.1 = some n ∧ n.key = pk.2 := by
          intro pk hpkR
          have hne : pk.1 ≠ p := by
            rintro rfl
            exact hpR (List.mem_map_of_mem Prod.fst hpkR)
          have hnl : pk.1 ∉ (l.take (l.length / 2)).map Prod.fst := fun h =>
            hLR _ h (List.mem_map_of_mem Prod.fst hpkR)
          rw [hF5' _ hne hnl]
          exact hvalid pk (List.mem_of_mem_drop hpkR)
        obtain ⟨nodes6, right, parR, hB6, hrootR, hrepR, hF6⟩ :=
          ih nodes5 (sorted.drop (l.length / 2 + 1)) (l.drop (l.length / 2 + 1))
            (by rw [hlenR]; omega) (by rw [hlenR]; omega)
            (by
              rw [hlenR, List.map_drop, ← hsorted, List.drop_take])
            hndR hvalidR
        rw [hlenR] at hB6
        have hptrsR : (buildShape f (l.drop (l.length / 2 + 1))).ptrs
            = (l.drop (l.length / 2 + 1)).map Prod.fst :=
          Shape.ptrs_eq_of_toList (buildShape_toList _ _ (by rw [hlenR]; omega))
        have hrightR : right ∈ (l.drop (l.length / 2 + 1)).map Prod.fst := by
          rw [← hptrsR]
          obtain ⟨a, kl, b, hs⟩ := Shape.eq_node_of_root hrootR
          rw [hs]; simp
        obtain ⟨nodes7, hB7, hrep7, hF7, -⟩ :=
          Rep_setParent hrepR hrootR (by rw [hptrsR]; exact hndR) (some p)
        have hrp : right ≠ p := by
          rintro rfl; exact hpR hrightR
        have hM7 : readNode nodes7 p
            = some { parent := n0.parent, left := some left, right := none, key := n0.key } := by
          rw [hF7 p (Ne.symm hrp), hF6 p hpR, hM5]
        have hB8 := setRight_eq hM7 (some right)
        have hM8 := readNode_set_self hM7 { n0 with left := some left, right := some right }
        have hF8 : ∀ q, q ≠ p → readNode (nodes7.set p
            { n0 with left := some left, right := some right }) q = readNode nodes7 q := by
          intro q hq
          rw [readNode_set_ne _ (Ne.symm hq)]
        generalize nodes7.set p { n0 with left := some left, right := some right } = nodes8
          at hB8 hM8 hF8
        simp only [hB6, Option.some_bind, hB7, hB8]
        refine ⟨nodes8, p, n0.parent, rfl, rfl, ⟨?_, ?_, ?_⟩, ?_⟩
        · rw [hM8, hrootL, hrootR]
        · apply Rep_congr nodes5 _ _ _ _ hrep5
          intro q hq
          rw [hptrsL] at hq
          have hqp : q ≠ p := by rintro rfl; exact hpL hq
          have hqr : q ≠ right := by rintro rfl; exact hLR _ hq hrightR
          rw [hF8 q hqp, hF7 q hqr, hF6 q (hLR q hq)]
        · apply Rep_congr nodes7 _ _ _ _ hrep7
          intro q hq
          rw [hptrsR] at hq
          have hqp : q ≠ p := by rintro rfl; exact hpR hq
          rw [hF8 q hqp]
        · intro q hq
          obtain ⟨h1, h2, h3⟩ := hmemL q hq
          have hqr : q ≠ right := by rintro rfl; exact h3 hrightR
          rw [hF8 q h1, hF7 q hqr, hF6 q h3, hF5' q h1 h2]

/-! ### Comparator facts -/

theorem TotalOrder.refl {cmp : K → K → Int} (h : TotalOrder cmp) (a : K) : cmp a a = 0 := by
  have h1 := h.antisymm a a
  omega

theorem TotalOrder.eq_symm {cmp : K → K → Int} (h : TotalOrder cmp) {a b : K}
    (hab : cmp a b = 0) : cmp b a = 0 := by
  have h1 := h.antisymm a b
  have h2 := h.antisymm b a
  omega

theorem TotalOrder.lt_of_le_of_lt {cmp : K → K → Int} (h : TotalOrder cmp) {a b c : K}
    (hab : cmp a b ≤ 0) (hbc : cmp b c < 0) : cmp a c < 0 := by
  have h1 := h.trans a b c hab (by omega)
  rcases lt_or_eq_of_le h1 with h2 | h2
  · exact h2
  · exfalso
    have h3 := h.eq_symm h2
    have h4 := h.trans c a b (by omega) hab
    have h5 := h.antisymm b c
    omega

theorem TotalOrder.lt_of_lt_of_le {cmp : K → K → Int} (h : TotalOrder cmp) {a b c : K}
    (hab : cmp a b < 0) (hbc : cmp b c ≤ 0) : cmp a c < 0 := by
  have h1 := h.trans a b c (by omega) hbc
  rcases lt_or_eq_of_le h1 with h2 | h2
  · exact h2
  · exfalso
    have h3 := h.eq_symm h2
    have h4 := h.trans b c a hbc (by omega)
    have h5 := h.antisymm a b
    omega

theorem TotalOrder.lt_trans {cmp : K → K → Int} (h : TotalOrder cmp) {a b c : K}
    (hab : cmp a b < 0) (hbc : cmp b c < 0) : cmp a c < 0 :=
  h.lt_of_lt_of_le hab (by omega)

theorem TotalOrder.gt_iff {cmp : K → K → Int} (h : TotalOrder cmp) (a b : K) :
    0 < cmp a b ↔ cmp b a < 0 := (h.antisymm b a).symm

/-! ### Paths -/

theorem Rep_plug (nodes : List (ScapegoatTreeNode K)) :
    ∀ (c : List (Frame K)) (s : Shape K),
      Rep nodes none (plug c s) ↔ RepCtx nodes c s.root ∧ Rep nodes (ctxParent c) s := by
  intro c
  induction c with
  | nil => intro s; simp [plug, RepCtx, ctxParent]
  | cons f c ih =>
    intro s
    cases f with
    | left p k sib =>
      simp only [plug, Frame.fill, ih, Shape.root_node, RepCtx, ctxParent, Frame.ptr, Rep_node]
      tauto
    | right p k sib =>
      simp only [plug, Frame.fill, ih, Shape.root_node, RepCtx, ctxParent, Frame.ptr, Rep_node]
      tauto

theorem plug_toList : ∀ (c : List (Frame K)) (s : Shape K),
    (plug c s).toList = ctxBefore c ++ s.toList ++ ctxAfter c := by
  intro c
  induction c with
  | nil => intro s; simp [plug, ctxBefore, ctxAfter]
  | cons f c ih =>
    intro s
    cases f with
    | left p k sib => simp [plug, Frame.fill, ih, ctxBefore, ctxAfter]
    | right p k sib => simp [plug, Frame.fill, ih, ctxBefore, ctxAfter]

theorem Shape.size_eq_of_toList {s s' : Shape K} (h : s.toList = s'.toList) :
    s.size = s'.size := by
  rw [← Shape.length_toList, ← Shape.length_toList, h]

theorem plug_toList_congr (c : List (Frame K)) {s s' : Shape K} (h : s.toList = s'.toList) :
    (plug c s).toList = (plug c s').toList := by
  rw [plug_toList, plug_toList, h]

theorem plug_root_cons (f : Frame K) (c : List (Frame K)) (s s' : Shape K) :
    (plug (f :: c) s).root = (plug (f :: c) s').root := by
  induction c generalizing f s s' with
  | nil => cases f <;> simp [plug, Frame.fill]
  | cons g c ih =>
    show (plug (g :: c) (f.fill s)).root = (plug (g :: c) (f.fill s')).root
    exact ih g _ _

/-! ### Search -/

theorem find?_eq_none_of_forall {α : Type} (p : α → Bool) (l : List α)
    (h : ∀ a ∈ l, p a = false) : l.find? p = none := by
  rw [List.find?_eq_none]
  intro a ha
  simp [h a ha]

theorem SearchTreeRecursive_of_Rep (t : ScapegoatTree K) (htot : TotalOrder t.comparator)
    (key : K) (s : Shape K) :
    ∀ (par : Option Nat) (fuel : Nat), Rep t.nodes par s → Ascending t.comparator s.keys →
      s.levels < fuel →
      SearchTreeRecursive fuel t s.root key
        = some (s.keys.find? (fun k => decide (t.comparator key k = 0))) := by
  induction s with
  | nil =>
    intro par fuel _ _ hf
    cases fuel with
    | zero => omega
    | succ f => simp [SearchTreeRecursive]
  | node l p k r ihl ihr =>
    intro par fuel hrep hasc hf
    cases fuel with
    | zero => omega
    | succ f =>
      obtain ⟨h1, h2, h3⟩ := hrep
      simp only [Shape.levels_node] at hf
      simp only [Ascending, Shape.keys_node, List.pairwise_append, List.pairwise_cons] at hasc
      obtain ⟨hal, ⟨hkr, har⟩, hlr⟩ := hasc
      have hlk : ∀ a ∈ l.keys, t.comparator a k < 0 := fun a ha => hlr a ha k (by simp)
      simp only [SearchTreeRecursive, Shape.root_node, h1, Shape.keys_node, List.find?_append,
        List.find?_cons]
      by_cases hz : t.comparator key k = 0
      · rw [if_pos hz]
        have hnone : l.keys.find? (fun k => decide (t.comparator key k = 0)) = none := by
          apply find?_eq_none_of_forall
          intro a ha
          have h4 := hlk a ha
          have h5 := htot.lt_of_lt_of_le h4 (Int.le_of_eq (htot.eq_symm hz))
          have h6 := htot.antisymm a key
          simp only [decide_eq_false_iff_not]
          omega
        simp [hnone, hz]
      · rw [if_neg hz]
        by_cases hlt : t.comparator key k < 0
        · rw [if_pos hlt, ihl (some p) f h2 hal (by omega)]
          have hnone : r.keys.find? (fun k => decide (t.comparator key k = 0)) = none := by
            apply find?_eq_none_of_forall
            intro a ha
            have h5 := htot.lt_trans hlt (hkr a ha)
            simp only [decide_eq_false_iff_not]
            omega
          simp [hnone, hz]
        · rw [if_neg hlt, ihr (some p) f h3 har (by omega)]
          have hnone : l.keys.find? (fun k => decide (t.comparator key k = 0)) = none := by
            apply find?_eq_none_of_forall
            intro a ha
            have h4 := hlk a ha
            have h6 := htot.antisymm k key
            have h5 := htot.lt_trans h4 (by omega : t.comparator k key < 0)
            have h7 := htot.antisymm a key
            simp only [decide_eq_false_iff_not]
            omega
          simp [hnone, hz]


theorem descend_node_eq (cmp : K → K → Int) (key : K) (c : List (Frame K))
    (l : Shape K) (p : Nat) (k : K) (r : Shape K) :
    descend cmp key c (Shape.node l p k r) =
      if cmp key k = 0 then (c, Shape.node l p k r)
      else if cmp key k < 0 then
        (if l.root = none then (c, Shape.node l p k r)
         else descend cmp key (Frame.left p k r :: c) l)
      else
        (if r.root = none then (c, Shape.node l p k r)
         else descend cmp key (Frame.right p k l :: c) r) := by
  cases l <;> cases r <;> simp [descend]

theorem FindClosestNode_of_Rep (t : ScapegoatTree K) (key : K) (s : Shape K) :
    ∀ (c : List (Frame K)) (par : Option Nat) (fuel : Nat), Rep t.nodes par s →
      s.levels < fuel →
      FindClosestNode fuel t s.root key = some (descend t.comparator key c s).2.root := by
  induction s with
  | nil =>
    intro c par fuel _ hf
    cases fuel with
    | zero => omega
    | succ f => simp [FindClosestNode, descend]
  | node l p k r ihl ihr =>
    intro c par fuel hrep hf
    cases fuel with
    | zero => omega
    | succ f =>
      obtain ⟨h1, h2, h3⟩ := hrep
      simp only [Shape.levels_node] at hf
      simp only [FindClosestNode, Shape.root_node, h1, descend_node_eq]
      by_cases hz : t.comparator key k = 0
      · simp [hz]
      · simp only [hz, if_false]
        by_cases hlt : t.comparator key k < 0
        · simp only [hlt, if_true]
          cases hl : l with
          | nil => simp
          | node ll lp lk lr =>
            have := ihl (Frame.left p k r :: c) (some p) f h2 (by omega)
            rw [hl] at this
            simpa using this
        · simp only [hlt, if_false]
          cases hr : r with
          | nil => simp
          | node rl rp rk rr =>
            have := ihr (Frame.right p k l :: c) (some p) f h3 (by omega)
            rw [hr] at this
            simpa using this

theorem Ascending_node {cmp : K → K → Int} {l r : Shape K} {p : Nat} {k : K}
    (h : Ascending cmp (Shape.node l p k r).keys) :
    Ascending cmp l.keys ∧ Ascending cmp r.keys ∧
    (∀ a ∈ l.keys, cmp a k < 0) ∧ (∀ a ∈ r.keys, cmp k a < 0) := by
  simp only [Ascending, Shape.keys_node, List.pairwise_append, List.pairwise_cons] at h
  obtain ⟨hal, ⟨hkr, har⟩, hlr⟩ := h
  exact ⟨hal, har, fun a ha => hlr a ha k (by simp), hkr⟩

theorem Shape.mem_keys_of_mem_toList {s : Shape K} {a : Nat × K} (h : a ∈ s.toList) :
    a.2 ∈ s.keys := List.mem_map_of_mem Prod.snd h

/-- What the descent returns: the same whole tree seen from the node reached,
every node before the path smaller than the key and every node after it
larger, and the reason the descent stopped. -/
theorem descend_spec {cmp : K → K → Int} (htot : TotalOrder cmp) (key : K) (s : Shape K) :
    ∀ (c : List (Frame K)), Ascending cmp s.keys →
      (∀ b ∈ ctxBefore c, cmp b.2 key < 0) → (∀ a ∈ ctxAfter c, cmp key a.2 < 0) →
      plug (descend cmp key c s).1 (descend cmp key c s).2 = plug c s ∧
      (∀ b ∈ ctxBefore (descend cmp key c s).1, cmp b.2 key < 0) ∧
      (∀ a ∈ ctxAfter (descend cmp key c s).1, cmp key a.2 < 0) ∧
      Ascending cmp (descend cmp key c s).2.keys ∧
      (s ≠ Shape.nil → ∃ l p k r, (descend cmp key c s).2 = Shape.node l p k r ∧
        (cmp key k = 0 ∨ (cmp key k < 0 ∧ l = Shape.nil) ∨ (0 < cmp key k ∧ r = Shape.nil))) := by
  induction s with
  | nil =>
    intro c hasc hb ha
    simp only [descend]
    exact ⟨trivial, hb, ha, hasc, fun h => absurd rfl h⟩
  | node l p k r ihl ihr =>
    intro c hasc hb ha
    obtain ⟨hal, har, hlk, hkr⟩ := Ascending_node hasc
    rw [descend_node_eq]
    by_cases hz : cmp key k = 0
    · simp only [hz, if_true]
      exact ⟨trivial, hb, ha, hasc, fun _ => ⟨l, p, k, r, rfl, Or.inl hz⟩⟩
    · simp only [hz, if_false]
      by_cases hlt : cmp key k < 0
      · simp only [hlt, if_true]
        by_cases hl0 : l.root = none
        · have hl := (Shape.root_eq_none_iff l).mp hl0
          simp only [hl0, if_true]
          exact ⟨trivial, hb, ha, hasc, fun _ => ⟨_, p, k, r, rfl, Or.inr (Or.inl ⟨hlt, hl⟩)⟩⟩
        · have hl : l ≠ Shape.nil := fun h => hl0 ((Shape.root_eq_none_iff l).mpr h)
          simp only [hl0, if_false]
          have hb' : ∀ b ∈ ctxBefore (Frame.left p k r :: c), cmp b.2 key < 0 := by
            simpa [ctxBefore] using hb
          have ha' : ∀ a ∈ ctxAfter (Frame.left p k r :: c), cmp key a.2 < 0 := by
            intro a haa
            simp only [ctxAfter, List.cons_append, List.mem_cons, List.mem_append] at haa
            rcases haa with rfl | haa | haa
            · exact hlt
            · exact htot.lt_trans hlt (hkr _ (Shape.mem_keys_of_mem_toList haa))
            · exact ha a haa
          obtain ⟨e1, e2, e3, e4, e5⟩ := ihl (Frame.left p k r :: c) hal hb' ha'
          exact ⟨e1, e2, e3, e4, fun _ => e5 hl⟩
      · simp only [hlt, if_false]
        have hgt : cmp k key < 0 := by
          have := htot.antisymm k key
          omega
        by_cases hr0 : r.root = none
        · have hr := (Shape.root_eq_none_iff r).mp hr0
          simp only [hr0, if_true]
          exact ⟨trivial, hb, ha, hasc, fun _ => ⟨l, p, k, _, rfl, Or.inr (Or.inr ⟨by omega, hr⟩)⟩⟩
        · have hr : r ≠ Shape.nil := fun h => hr0 ((Shape.root_eq_none_iff r).mpr h)
          simp only [hr0, if_false]
          have hb' : ∀ b ∈ ctxBefore (Frame.right p k l :: c), cmp b.2 key < 0 := by
            intro b hbb
            simp only [ctxBefore, List.mem_append, List.mem_singleton] at hbb
            rcases hbb with hbb | hbb | rfl
            · exact hb b hbb
            · exact htot.lt_trans (hlk _ (Shape.mem_keys_of_mem_toList hbb)) hgt
            · exact hgt
          have ha' : ∀ a ∈ ctxAfter (Frame.right p k l :: c), cmp key a.2 < 0 := by
            simpa [ctxAfter] using ha
          obtain ⟨e1, e2, e3, e4, e5⟩ := ihr (Frame.right p k l :: c) har hb' ha'
          exact ⟨e1, e2, e3, e4, fun _ => e5 hr⟩

theorem insertKey_append_lt {cmp : K → K → Int} (htot : TotalOrder cmp) (new : Nat × K) :
    ∀ (P rest : List (Nat × K)), (∀ b ∈ P, cmp b.2 new.2 < 0) →
      insertKey cmp new (P ++ rest) = P ++ insertKey cmp new rest := by
  intro P
  induction P with
  | nil => intro rest _; rfl
  | cons b P ih =>
    intro rest hP
    have hb : cmp b.2 new.2 < 0 := hP b (by simp)
    have h1 := htot.antisymm new.2 b.2
    have h2 := htot.antisymm b.2 new.2
    have hz : ¬ cmp new.2 b.2 = 0 := by omega
    have hlt : ¬ cmp new.2 b.2 < 0 := by omega
    have := ih rest (fun x hx => hP x (by simp [hx]))
    show insertKey cmp new (b :: (P ++ rest)) = b :: (P ++ insertKey cmp new rest)
    simp only [insertKey, hz, hlt, if_false, this]

theorem insertKey_of_forall_gt {cmp : K → K → Int} (new : Nat × K) (A : List (Nat × K))
    (hA : ∀ a ∈ A, cmp new.2 a.2 < 0) : insertKey cmp new A = new :: A := by
  cases A with
  | nil => rfl
  | cons a A =>
    have ha := hA a (by simp)
    have hz : ¬ cmp new.2 a.2 = 0 := by omega
    simp [insertKey, hz, ha]


theorem Rep_key (nodes : List (ScapegoatTreeNode K)) (s : Shape K) :
    ∀ par, Rep nodes par s →
      ∀ pk ∈ s.toList, ∃ n, readNode nodes pk.1 = some n ∧ n.key = pk.2 := by
  induction s with
  | nil => intro par _ pk hpk; simp at hpk
  | node l p k r ihl ihr =>
    intro par hrep pk hpk
    obtain ⟨h1, h2, h3⟩ := hrep
    simp only [Shape.toList_node, List.mem_append, List.mem_cons] at hpk
    rcases hpk with hpk | rfl | hpk
    · exact ihl _ h2 pk hpk
    · exact ⟨_, h1, rfl⟩
    · exact ihr _ h3 pk hpk

theorem buildShape_fuel : ∀ (f1 f2 : Nat) (l : List (Nat × K)), l.length ≤ f1 → l.length ≤ f2 →
    buildShape f1 l = buildShape f2 l := by
  intro f1
  induction f1 with
  | zero =>
    intro f2 l h1 _
    have : l = [] := List.length_eq_zero.mp (by omega)
    simp [this, buildShape_nil]
  | succ f ih =>
    intro f2 l h1 h2
    cases f2 with
    | zero =>
      have : l = [] := List.length_eq_zero.mp (by omega)
      simp [this, buildShape_nil]
    | succ g =>
      simp only [buildShape]
      cases hm : l[l.length / 2]? with
      | none => rfl
      | some pk =>
        have hlt : l.length / 2 < l.length := (List.getElem?_eq_some.mp hm).1
        simp only
        rw [ih g (l.take (l.length / 2)) (by simp; omega) (by simp; omega),
          ih g (l.drop (l.length / 2 + 1)) (by simp; omega) (by simp; omega)]

theorem buildShape_eq_balanced (f : Nat) (l : List (Nat × K)) (h : l.length ≤ f) :
    buildShape f l = balanced l :=
  buildShape_fuel _ _ _ h (Nat.le_refl _)

theorem mem_ctxPtrs_left (q p : Nat) (k : K) (sib : Shape K) (c : List (Frame K)) :
    q ∈ ctxPtrs (Frame.left p k sib :: c) ↔ q = p ∨ q ∈ sib.ptrs ∨ q ∈ ctxPtrs c := by
  simp only [ctxPtrs, ctxBefore, ctxAfter, Shape.ptrs, List.map_append, List.mem_append,
    List.map_cons, List.mem_cons, List.cons_append]
  tauto

theorem mem_ctxPtrs_right (q p : Nat) (k : K) (sib : Shape K) (c : List (Frame K)) :
    q ∈ ctxPtrs (Frame.right p k sib :: c) ↔ q = p ∨ q ∈ sib.ptrs ∨ q ∈ ctxPtrs c := by
  simp only [ctxPtrs, ctxBefore, ctxAfter, Shape.ptrs, List.map_append, List.mem_append,
    List.map_cons, List.mem_cons, List.map_nil, List.mem_singleton, List.not_mem_nil, or_false]
  tauto

theorem RepCtx_congr (nodes nodes' : List (ScapegoatTreeNode K)) :
    ∀ (c : List (Frame K)) (hole : Option Nat),
      (∀ q ∈ ctxPtrs c, readNode nodes' q = readNode nodes q) →
      RepCtx nodes c hole → RepCtx nodes' c hole := by
  intro c
  induction c with
  | nil => intro hole _ _; trivial
  | cons f c ih =>
    intro hole hag h
    cases f with
    | left p k sib =>
      obtain ⟨h1, h2, h3⟩ := h
      refine ⟨?_, ?_, ih _ ?_ h3⟩
      · rw [hag p ((mem_ctxPtrs_left _ _ _ _ _).mpr (Or.inl rfl)), h1]
      · apply Rep_congr nodes _ _ _ _ h2
        intro q hq
        exact hag q ((mem_ctxPtrs_left _ _ _ _ _).mpr (Or.inr (Or.inl hq)))
      · intro q hq
        exact hag q ((mem_ctxPtrs_left _ _ _ _ _).mpr (Or.inr (Or.inr hq)))
    | right p k sib =>
      obtain ⟨h1, h2, h3⟩ := h
      refine ⟨?_, ?_, ih _ ?_ h3⟩
      · rw [hag p ((mem_ctxPtrs_right _ _ _ _ _).mpr (Or.inl rfl)), h1]
      · apply Rep_congr nodes _ _ _ _ h2
        intro q hq
        exact hag q ((mem_ctxPtrs_right _ _ _ _ _).mpr (Or.inr (Or.inl hq)))
      · intro q hq
        exact hag q ((mem_ctxPtrs_right _ _ _ _ _).mpr (Or.inr (Or.inr hq)))

/-- Distinct addresses in a plugged tree: the subtree and the path are each
duplicate-free and share no address. -/
theorem plug_nodup {c : List (Frame K)} {s : Shape K} (h : (plug c s).ptrs.Nodup) :
    s.ptrs.Nodup ∧ (ctxPtrs c).Nodup ∧ (∀ q, q ∈ s.ptrs → q ∉ ctxPtrs c) := by
  have e : (plug c s).ptrs = (ctxBefore c).map Prod.fst ++ (s.ptrs ++ (ctxAfter c).map Prod.fst) := by
    simp [Shape.ptrs, plug_toList]
  rw [e] at h
  have h1 := List.nodup_append.mp h
  have h2 := List.nodup_append.mp h1.2.1
  refine ⟨h2.1, ?_, ?_⟩
  · simp only [ctxPtrs, List.map_append]
    refine List.nodup_append.mpr ⟨h1.1, h2.2.1, ?_⟩
    intro q hq1 hq2
    exact h1.2.2 hq1 (List.mem_append_right _ hq2)
  · intro q hq hc
    simp only [ctxPtrs, List.map_append, List.mem_append] at hc
    rcases hc with hc | hc
    · exact h1.2.2 hc (List.mem_append_left _ hq)
    · exact h2.2.2 hq hc

theorem ctxPtrs_nodup_left {p : Nat} {k : K} {sib : Shape K} {c : List (Frame K)}
    (h : (ctxPtrs (Frame.left p k sib :: c)).Nodup) :
    p ∉ sib.ptrs ∧ p ∉ ctxPtrs c ∧ (∀ q ∈ sib.ptrs, q ∉ ctxPtrs c) ∧
      sib.ptrs.Nodup ∧ (ctxPtrs c).Nodup := by
  have e : ctxPtrs (Frame.left p k sib :: c) =
      (ctxBefore c).map Prod.fst ++ (p :: (sib.ptrs ++ (ctxAfter c).map Prod.fst)) := by
    simp [ctxPtrs, ctxBefore, ctxAfter, Shape.ptrs]
  rw [e] at h
  have h1 := List.nodup_append.mp h
  have h2 := List.nodup_cons.mp h1.2.1
  have h3 := List.nodup_append.mp h2.2
  refine ⟨fun hp => h2.1 (List.mem_append_left _ hp), ?_, ?_, h3.1, ?_⟩
  · intro hp
    simp only [ctxPtrs, List.map_append, List.mem_append] at hp
    rcases hp with hp | hp
    · exact h1.2.2 hp (by simp)
    · exact h2.1 (List.mem_append_right _ hp)
  · intro q hq hc
    simp only [ctxPtrs, List.map_append, List.mem_append] at hc
    rcases hc with hc | hc
    · exact h1.2.2 hc (by simp [hq])
    · exact h3.2.2 hq hc
  · simp only [ctxPtrs, List.map_append]
    refine List.nodup_append.mpr ⟨h1.1, h3.2.1, ?_⟩
    intro q hq1 hq2
    exact h1.2.2 hq1 (by simp [hq2])

theorem ctxPtrs_nodup_right {p : Nat} {k : K} {sib : Shape K} {c : List (Frame K)}
    (h : (ctxPtrs (Frame.right p k sib :: c)).Nodup) :
    p ∉ sib.ptrs ∧ p ∉ ctxPtrs c ∧ (∀ q ∈ sib.ptrs, q ∉ ctxPtrs c) ∧
      sib.ptrs.Nodup ∧ (ctxPtrs c).Nodup := by
  have e : ctxPtrs (Frame.right p k sib :: c) =
      (ctxBefore c).map Prod.fst ++ ((sib.ptrs ++ [p]) ++ (ctxAfter c).map Prod.fst) := by
    simp [ctxPtrs, ctxBefore, ctxAfter, Shape.ptrs]
  rw [e] at h
  have h1 := List.nodup_append.mp h
  have h2 := List.nodup_append.mp h1.2.1
  have h3 := List.nodup_append.mp h2.1
  refine ⟨fun hp => h3.2.2 hp (by simp), ?_, ?_, h3.1, ?_⟩
  · intro hp
    simp only [ctxPtrs, List.map_append, List.mem_append] at hp
    rcases hp with hp | hp
    · exact h1.2.2 hp (by simp)
    · exact h2.2.2 (by simp) hp
  · intro q hq hc
    simp only [ctxPtrs, List.map_append, List.mem_append] at hc
    rcases hc with hc | hc
    · exact h1.2.2 hc (by simp [hq])
    · exact h2.2.2 (by simp [hq]) hc
  · simp only [ctxPtrs, List.map_append]
    refine List.nodup_append.mpr ⟨h1.1, h2.2.1, ?_⟩
    intro q hq1 hq2
    exact h1.2.2 hq1 (by simp [hq2])


theorem Shape.root_mem_ptrs {s : Shape K} {p : Nat} (h : s.root = some p) : p ∈ s.ptrs := by
  obtain ⟨l, k, r, rfl⟩ := Shape.eq_node_of_root h
  simp

/-- Re-attachment: pointing the parent's child link (on the side the old subtree
root `x` occupied) at the new subtree root `y` gives the path with the new hole. -/
theorem RepCtx_relink {nodes nodes2 : List (ScapegoatTreeNode K)} {f : Frame K}
    {c : List (Frame K)} {x y : Nat}
    (hctx : RepCtx nodes (f :: c) (some x)) (hnd : (ctxPtrs (f :: c)).Nodup)
    (hx : x ∉ ctxPtrs (f :: c))
    (hag : ∀ q ∈ ctxPtrs (f :: c), readNode nodes2 q = readNode nodes q) :
    ∃ wl nodes3,
      (readNode nodes f.ptr).map (fun pn => decide (pn.left = some x)) = some wl ∧
      (if wl = true then setLeft nodes2 f.ptr (some y) else setRight nodes2 f.ptr (some y))
        = some nodes3 ∧
      RepCtx nodes3 (f :: c) (some y) ∧
      (∀ q, q ≠ f.ptr → readNode nodes3 q = readNode nodes2 q) := by
  cases f with
  | left p k sib =>
    obtain ⟨h1, h2, h3⟩ := hctx
    obtain ⟨n1, n2, n3, -, -⟩ := ctxPtrs_nodup_left hnd
    have hp2 : readNode nodes2 p = _ :=
      (hag p ((mem_ctxPtrs_left _ _ _ _ _).mpr (Or.inl rfl))).trans h1
    refine ⟨true, _, ?_, ?_, ⟨readNode_set_self hp2 _, ?_, ?_⟩, ?_⟩
    · simp [Frame.ptr, h1]
    · simp only [Frame.ptr, if_true]
      exact setLeft_eq hp2 (some y)
    · apply Rep_congr nodes _ _ _ _ h2
      intro q hq
      rw [readNode_set_ne _ (by rintro rfl; exact n1 hq)]
      exact hag q ((mem_ctxPtrs_left _ _ _ _ _).mpr (Or.inr (Or.inl hq)))
    · apply RepCtx_congr nodes _ _ _ _ h3
      intro q hq
      rw [readNode_set_ne _ (by rintro rfl; exact n2 hq)]
      exact hag q ((mem_ctxPtrs_left _ _ _ _ _).mpr (Or.inr (Or.inr hq)))
    · intro q hq
      exact readNode_set_ne _ (Ne.symm hq) _
  | right p k sib =>
    obtain ⟨h1, h2, h3⟩ := hctx
    obtain ⟨n1, n2, n3, -, -⟩ := ctxPtrs_nodup_right hnd
    have hp2 : readNode nodes2 p = _ :=
      (hag p ((mem_ctxPtrs_right _ _ _ _ _).mpr (Or.inl rfl))).trans h1
    have hsx : sib.root ≠ some x := by
      intro hs
      exact hx ((mem_ctxPtrs_right _ _ _ _ _).mpr (Or.inr (Or.inl (Shape.root_mem_ptrs hs))))
    refine ⟨false, _, ?_, ?_, ⟨readNode_set_self hp2 _, ?_, ?_⟩, ?_⟩
    · simp [Frame.ptr, h1, hsx]
    · simp only [Frame.ptr, Bool.false_eq_true, if_false]
      exact setRight_eq hp2 (some y)
    · apply Rep_congr nodes _ _ _ _ h2
      intro q hq
      rw [readNode_set_ne _ (by rintro rfl; exact n1 hq)]
      exact hag q ((mem_ctxPtrs_right _ _ _ _ _).mpr (Or.inr (Or.inl hq)))
    · apply RepCtx_congr nodes _ _ _ _ h3
      intro q hq
      rw [readNode_set_ne _ (by rintro rfl; exact n2 hq)]
      exact hag q ((mem_ctxPtrs_right _ _ _ _ _).mpr (Or.inr (Or.inr hq)))
    · intro q hq
      exact readNode_set_ne _ (Ne.symm hq) _

theorem plug_size (c : List (Frame K)) (s : Shape K) :
    (plug c s).size = (ctxPtrs c).length + s.size := by
  rw [← Shape.length_toList, plug_toList]
  simp [ctxPtrs]
  omega

theorem ctxPtrs_length_ge (c : List (Frame K)) : c.length ≤ (ctxPtrs c).length := by
  induction c with
  | nil => simp
  | cons f c ih =>
    cases f <;> simp [ctxPtrs, ctxBefore, ctxAfter] at ih ⊢ <;> omega

theorem Frame.ptr_mem_ctxPtrs (f : Frame K) (c : List (Frame K)) : f.ptr ∈ ctxPtrs (f :: c) := by
  cases f with
  | left p k sib => exact (mem_ctxPtrs_left _ _ _ _ _).mpr (Or.inl rfl)
  | right p k sib => exact (mem_ctxPtrs_right _ _ _ _ _).mpr (Or.inl rfl)


/-- The scratch buffer request on a tree whose buffer has its recorded capacity:
either a buffer of sufficient length is returned, or the allocation failed and
the buffer is gone. -/
theorem GetOrAllocateNodePtrCache_cases (t : ScapegoatTree K) (req : Nat) (ok : Bool)
    (hsome : ∀ c, t.node_ptr_cache = some c → c.length = t.node_ptr_cache_size)
    (hnone : t.node_ptr_cache = none → t.node_ptr_cache_size = 0)
    (hpos : 0 < req) (hle : req ≤ t.tree_size) :
    ∃ t1 res, GetOrAllocateNodePtrCache t req ok = (t1, res) ∧
      t1.nodes = t.nodes ∧ t1.root = t.root ∧ t1.comparator = t.comparator ∧
      t1.tree_size = t.tree_size ∧ t1.node_ptr_cache = res ∧
      (match res with
       | some sorted => req ≤ sorted.length ∧ t1.node_ptr_cache_size = sorted.length
       | none => ok = false ∧ t1.node_ptr_cache_size = 0) := by
  unfold GetOrAllocateNodePtrCache
  by_cases h1 : req ≤ t.node_ptr_cache_size
  · rw [if_pos h1]
    refine ⟨t, t.node_ptr_cache, rfl, rfl, rfl, rfl, rfl, rfl, ?_⟩
    cases hc : t.node_ptr_cache with
    | none => have := hnone hc; omega
    | some sorted =>
      have := hsome _ hc
      simp only
      omega
  · rw [if_neg h1, if_neg (by omega)]
    cases ok with
    | true =>
      refine ⟨_, _, rfl, rfl, rfl, rfl, rfl, rfl, ?_⟩
      simp only [List.length_replicate, and_true]
      exact hle
    | false => exact ⟨_, _, rfl, rfl, rfl, rfl, rfl, rfl, rfl, rfl⟩


/-- What `RebuildSubtree` does on a well-formed tree: on success the subtree is
replaced by the balanced shape on the same nodes, the nodes outside the subtree
other than its parent are untouched, and the scratch buffer holds the
flattened subtree; on failure nothing is relinked. -/
theorem RebuildSubtree_full {t : ScapegoatTree K} {c : List (Frame K)} {l r : Shape K}
    {x : Nat} {k : K} (hinv : Inv t (plug c (Shape.node l x k r))) (fuel : Nat)
    (hfuel : (Shape.node l x k r).size < fuel) (ok : Bool) :
    ∃ ret t', RebuildSubtree fuel t x (Shape.node l x k r).size ok = some (ret, t') ∧
      t'.comparator = t.comparator ∧ t'.tree_size = t.tree_size ∧
      ((ret = 1 ∧ Inv t' (plug c (balanced (Shape.node l x k r).toList)) ∧
          (∀ q, q ∉ (Shape.node l x k r).ptrs → ctxParent c ≠ some q →
            readNode t'.nodes q = readNode t.nodes q) ∧
          (∃ buf, t'.node_ptr_cache = some buf ∧
            buf.take (Shape.node l x k r).size = (Shape.node l x k r).ptrs.map some ∧
            (Shape.node l x k r).size ≤ t'.node_ptr_cache_size)) ∨
       (ret = 0 ∧ ok = false ∧ t'.nodes = t.nodes ∧ t'.root = t.root ∧
          Inv t' (plug c (Shape.node l x k r)))) := by
  generalize hs : Shape.node l x k r = s at hinv hfuel ⊢
  have hsroot : s.root = some x := by rw [← hs]; rfl
  obtain ⟨hctx, hreps⟩ := (Rep_plug _ _ _).mp hinv.rep
  have hx : readNode t.nodes x
      = some { parent := ctxParent c, left := l.root, right := r.root, key := k } := by
    rw [← hs] at hreps; exact hreps.1
  obtain ⟨hnds, hndc, hdisj⟩ := plug_nodup hinv.nodup
  have hspos : 0 < s.size := by rw [← hs]; simp
  have hsle : s.size ≤ t.tree_size := by
    have := hinv.size_le
    rw [plug_size] at this
    omega
  obtain ⟨t1, res, hG, hn1, hr1, hc1, hts1, hcache1, hres⟩ :=
    GetOrAllocateNodePtrCache_cases t s.size ok hinv.cache_some hinv.cache_none hspos hsle
  cases res with
  | none =>
    -- the buffer could not be grown: nothing is relinked
    obtain ⟨hok, hcs⟩ := hres
    refine ⟨0, t1, ?_, hc1, hts1, Or.inr ⟨rfl, hok, hn1, hr1, ?_⟩⟩
    · simp only [RebuildSubtree, hx, Option.bind_eq_bind, Option.some_bind, hG]
      cases c with
      | nil => rfl
      | cons f c =>
        have hf : ∃ pn, readNode t.nodes f.ptr = some pn := by
          cases f with
          | left p kp sib => exact ⟨_, hctx.1⟩
          | right p kp sib => exact ⟨_, hctx.1⟩
        obtain ⟨pn, hpn⟩ := hf
        simp [ctxParent, hpn]
    · exact {
        root_eq := hr1.trans hinv.root_eq
        rep := hn1 ▸ hinv.rep
        nodup := hinv.nodup
        asc := hc1 ▸ hinv.asc
        size_le := hts1 ▸ hinv.size_le
        cache_some := fun c0 h0 => by rw [hcache1] at h0; cases h0
        cache_none := fun _ => hcs }
  | some sorted =>
    obtain ⟨hlen, hcs⟩ := hres
    -- flatten
    have hT := TraverseNodesInOrder_zero t.nodes s (ctxParent c) fuel sorted hreps
      (by have := s.levels_le_size; omega) hlen
    rw [hsroot] at hT
    -- rebuild
    have htake : (s.ptrs.map some ++ sorted.drop s.size).take s.toList.length
        = s.toList.map (fun pk => some pk.1) := by
      rw [Shape.length_toList, List.take_left']
      · simp [Shape.ptrs]
      · simp
    obtain ⟨nodes1, new_root, par0, hB, hroot', hrep', hF1⟩ :=
      BuildTreeFromSortedNodes_spec fuel t.nodes (s.ptrs.map some ++ sorted.drop s.size)
        s.toList (by simpa using hspos) (by simp; omega) htake hnds
        (Rep_key t.nodes s _ hreps)
    rw [Shape.length_toList] at hB
    rw [buildShape_eq_balanced _ _ (by simp; omega)] at hroot' hrep'
    have hptrs' : (balanced s.toList).ptrs = s.ptrs :=
      (Shape.ptrs_eq_of_toList (balanced_toList _)).trans rfl
    obtain ⟨nodes2, hP, hrep2, hF2, -⟩ :=
      Rep_setParent hrep' hroot' (by rw [hptrs']; exact hnds) (ctxParent c)
    have hnew : new_root ∈ s.ptrs := hptrs' ▸ Shape.root_mem_ptrs hroot'
    have hag : ∀ q ∈ ctxPtrs c, readNode nodes2 q = readNode t.nodes q := by
      intro q hq
      have hqs : q ∉ s.ptrs := fun h => hdisj q h hq
      rw [hF2 q (by rintro rfl; exact hqs hnew), hF1 q hqs]
    have hlist : (plug c (balanced s.toList)).toList = (plug c s).toList :=
      plug_toList_congr c (balanced_toList _)
    have hinv' : ∀ (t' : ScapegoatTree K), t'.root = (plug c (balanced s.toList)).root →
        Rep t'.nodes none (plug c (balanced s.toList)) → t'.comparator = t.comparator →
        t'.tree_size = t.tree_size →
        t'.node_ptr_cache = some (s.ptrs.map some ++ sorted.drop s.size) →
        t'.node_ptr_cache_size = sorted.length →
        Inv t' (plug c (balanced s.toList)) := by
      intro t' h1 h2 h3 h4 h5 h6
      exact {
        root_eq := h1
        rep := h2
        nodup := by
          have := hinv.nodup
          simpa only [Shape.ptrs, hlist] using this
        asc := by
          have := hinv.asc
          rw [h3]
          simpa only [Shape.keys, hlist] using this
        size_le := by
          rw [h4, Shape.size_eq_of_toList hlist]
          exact hinv.size_le
        cache_some := fun c0 h0 => by
          rw [h5] at h0
          cases h0
          rw [h6]
          simp; omega
        cache_none := fun h0 => by rw [h5] at h0; cases h0 }
    have htk : (s.ptrs.map some ++ sorted.drop s.size).take s.size = s.ptrs.map some := by
      apply List.take_left'
      simp
    have hcap : s.size ≤ t1.node_ptr_cache_size := by rw [hcs]; exact hlen
    have hout : ∀ q, q ∉ s.ptrs → readNode nodes2 q = readNode t.nodes q := by
      intro q hqs
      rw [hF2 q (by rintro rfl; exact hqs hnew), hF1 q hqs]
    cases c with
    | nil =>
      refine ⟨1, { t1 with node_ptr_cache := some (s.ptrs.map some ++ sorted.drop s.size),
                            nodes := nodes2, root := some new_root }, ?_, hc1, hts1,
        Or.inl ⟨rfl, hinv' _ ?_ ?_ hc1 hts1 rfl hcs, ?_, ⟨_, rfl, htk, hcap⟩⟩⟩
      · simp only [ctxParent] at hP
        simp only [RebuildSubtree, hx, Option.bind_eq_bind, Option.some_bind, hG, ctxParent,
          hn1, hT, hB, hP, Option.pure_def]
      · exact hroot'.symm
      · exact hrep2
      · intro q hqs _
        exact hout q hqs
    | cons f c =>
      have hxc : x ∉ ctxPtrs (f :: c) := hdisj x (Shape.root_mem_ptrs hsroot)
      rw [hsroot] at hctx
      obtain ⟨wl, nodes3, hwl, hset, hctx3, hF3⟩ :=
        RepCtx_relink (y := new_root) hctx hndc hxc hag
      have hfs : f.ptr ∉ s.ptrs := fun h => hdisj _ h (Frame.ptr_mem_ctxPtrs f c)
      refine ⟨1, { t1 with node_ptr_cache := some (s.ptrs.map some ++ sorted.drop s.size),
                            nodes := nodes3 }, ?_, hc1, hts1,
        Or.inl ⟨rfl, hinv' _ ?_ ?_ hc1 hts1 rfl hcs, ?_, ⟨_, rfl, htk, hcap⟩⟩⟩
      · simp only [ctxParent] at hP
        simp only [RebuildSubtree, hx, Option.bind_eq_bind, Option.some_bind, hG, ctxParent,
          hn1, hT, hB, hP, Option.pure_def, hwl]
        cases wl with
        | true => simp only [if_true] at hset; simp [hset]
        | false => simp only [Bool.false_eq_true, if_false] at hset; simp [hset]
      · show t1.root = _
        rw [hr1, hinv.root_eq]
        exact plug_root_cons f c _ _
      · apply (Rep_plug _ _ _).mpr
        rw [hroot']
        refine ⟨hctx3, ?_⟩
        apply Rep_congr nodes2 _ _ _ _ hrep2
        intro q hq
        apply hF3
        rintro rfl
        exact hfs (hptrs' ▸ hq)
      · intro q hqs hqp
        show readNode nodes3 q = readNode t.nodes q
        rw [hF3 q (by rintro rfl; exact hqp rfl), hout q hqs]

theorem RebuildSubtree_spec {t : ScapegoatTree K} {c : List (Frame K)} {l r : Shape K}
    {x : Nat} {k : K} (hinv : Inv t (plug c (Shape.node l x k r))) (fuel : Nat)
    (hfuel : (Shape.node l x k r).size < fuel) (ok : Bool) :
    ∃ ret t', RebuildSubtree fuel t x (Shape.node l x k r).size ok = some (ret, t') ∧
      t'.comparator = t.comparator ∧ t'.tree_size = t.tree_size ∧
      ((ret = 1 ∧ Inv t' (plug c (balanced (Shape.node l x k r).toList))) ∨
       (ret = 0 ∧ ok = false ∧ t'.nodes = t.nodes ∧ t'.root = t.root ∧
          Inv t' (plug c (Shape.node l x k r)))) := by
  obtain ⟨ret, t', h1, h2, h3, h4⟩ := RebuildSubtree_full hinv fuel hfuel ok
  refine ⟨ret, t', h1, h2, h3, ?_⟩
  rcases h4 with ⟨a, b, -⟩ | h
  · exact Or.inl ⟨a, b⟩
  · exact Or.inr h

theorem walk_unbalanced (c : List (Frame K)) (s : Shape K) (ls rs : Nat)
    (h : IsUnbalanced ls rs ≠ 0) : walk c s ls rs = plug c (balanced s.toList) := by
  cases c with
  | nil => simp [walk, h]
  | cons f c => cases f <;> simp [walk, h]

theorem walk_nil (s : Shape K) (ls rs : Nat) (h : ¬ IsUnbalanced ls rs ≠ 0) :
    walk [] s ls rs = s := by
  simp only [walk, h, if_false]

theorem walk_left (p : Nat) (k : K) (sib : Shape K) (c : List (Frame K)) (s : Shape K)
    (ls rs : Nat) (h : ¬ IsUnbalanced ls rs ≠ 0) :
    walk (Frame.left p k sib :: c) s ls rs
      = walk c (Shape.node s p k sib) (ls + rs + 1) sib.size := by
  simp only [walk, h, if_false]

theorem walk_right (p : Nat) (k : K) (sib : Shape K) (c : List (Frame K)) (s : Shape K)
    (ls rs : Nat) (h : ¬ IsUnbalanced ls rs ≠ 0) :
    walk (Frame.right p k sib :: c) s ls rs
      = walk c (Shape.node sib p k s) sib.size (ls + rs + 1) := by
  simp only [walk, h, if_false]

theorem walk_toList : ∀ (c : List (Frame K)) (s : Shape K) (ls rs : Nat),
    (walk c s ls rs).toList = (plug c s).toList := by
  intro c
  induction c with
  | nil =>
    intro s ls rs
    by_cases h : IsUnbalanced ls rs ≠ 0
    · rw [walk_unbalanced _ _ _ _ h]; exact plug_toList_congr _ (balanced_toList _)
    · rw [walk_nil _ _ _ h]; rfl
  | cons f c ih =>
    intro s ls rs
    by_cases h : IsUnbalanced ls rs ≠ 0
    · rw [walk_unbalanced _ _ _ _ h]; exact plug_toList_congr _ (balanced_toList _)
    · cases f with
      | left p k sib => rw [walk_left _ _ _ _ _ _ _ h, ih]; rfl
      | right p k sib => rw [walk_right _ _ _ _ _ _ _ h, ih]; rfl

theorem FindAndRebalanceRecursive_spec (ok : Bool) :
    ∀ (c : List (Frame K)) (t : ScapegoatTree K) (l r : Shape K) (x : Nat) (k : K) (fuel : Nat),
      Inv t (plug c (Shape.node l x k r)) →
      c.length + (plug c (Shape.node l x k r)).size + 2 ≤ fuel →
      ∃ ret t', FindAndRebalanceRecursive fuel t x l.size r.size ok = some (ret, t') ∧
        t'.comparator = t.comparator ∧ t'.tree_size = t.tree_size ∧
        ((ret = 1 ∧ Inv t' (walk c (Shape.node l x k r) l.size r.size)) ∨
         (ret = 0 ∧ ok = false ∧ t'.nodes = t.nodes ∧ t'.root = t.root ∧
            Inv t' (plug c (Shape.node l x k r)))) := by
  intro c
  induction c with
  | nil =>
    intro t l r x k fuel hinv hfuel
    cases fuel with
    | zero => omega
    | succ f =>
      have hsz : l.size + r.size + 1 = (Shape.node l x k r).size := by simp; omega
      simp only [FindAndRebalanceRecursive]
      by_cases hu : IsUnbalanced l.size r.size ≠ 0
      · rw [if_pos hu, walk_unbalanced _ _ _ _ hu, hsz]
        exact RebuildSubtree_spec hinv f (by simp [plug] at hfuel ⊢; omega) ok
      · rw [if_neg hu, walk_nil _ _ _ hu]
        have hx := hinv.rep.1
        refine ⟨1, t, ?_, rfl, rfl, Or.inl ⟨rfl, hinv⟩⟩
        simp [hx]
  | cons fr c ih =>
    intro t l r x k fuel hinv hfuel
    cases fuel with
    | zero => omega
    | succ f =>
      have hsz : l.size + r.size + 1 = (Shape.node l x k r).size := by simp; omega
      simp only [FindAndRebalanceRecursive]
      by_cases hu : IsUnbalanced l.size r.size ≠ 0
      · rw [if_pos hu, walk_unbalanced _ _ _ _ hu, hsz]
        refine RebuildSubtree_spec hinv f ?_ ok
        have := plug_size (fr :: c) (Shape.node l x k r)
        simp only [List.length_cons] at hfuel
        omega
      · rw [if_neg hu]
        obtain ⟨hctx, hreps⟩ := (Rep_plug _ _ _).mp hinv.rep
        have hx := hreps.1
        obtain ⟨hnds, hndc, hdisj⟩ := plug_nodup hinv.nodup
        have hxc : x ∉ ctxPtrs (fr :: c) := hdisj x (by simp)
        have hps := plug_size (fr :: c) (Shape.node l x k r)
        simp only [List.length_cons] at hfuel
        cases fr with
        | left p kp sib =>
          obtain ⟨h1, h2, h3⟩ := hctx
          have hsib := GetTreeSize_of_Rep t.nodes sib (some p) f h2 (by
            have := sib.levels_le_size
            have : sib.size ≤ (ctxPtrs (Frame.left p kp sib :: c)).length := by
              simp [ctxPtrs, ctxAfter]; omega
            omega)
          rw [walk_left _ _ _ _ _ _ _ hu]
          obtain ⟨ret, t', hF, hrest⟩ :=
            ih t (Shape.node l x k r) sib p kp f hinv (by
              have : plug c (Shape.node (Shape.node l x k r) p kp sib)
                = plug (Frame.left p kp sib :: c) (Shape.node l x k r) := rfl
              rw [this]; omega)
          refine ⟨ret, t', ?_, ?_⟩
          · rw [← hsz] at hF
            simp [hx, ctxParent, Frame.ptr, h1, hsib, hF]
          · rw [hsz]; exact hrest
        | right p kp sib =>
          obtain ⟨h1, h2, h3⟩ := hctx
          have hsib := GetTreeSize_of_Rep t.nodes sib (some p) f h2 (by
            have := sib.levels_le_size
            have : sib.size ≤ (ctxPtrs (Frame.right p kp sib :: c)).length := by
              simp [ctxPtrs, ctxBefore]; omega
            omega)
          have hsx : sib.root ≠ some x := by
            intro hs
            exact hxc ((mem_ctxPtrs_right _ _ _ _ _).mpr
              (Or.inr (Or.inl (Shape.root_mem_ptrs hs))))
          rw [walk_right _ _ _ _ _ _ _ hu]
          obtain ⟨ret, t', hF, hrest⟩ :=
            ih t sib (Shape.node l x k r) p kp f hinv (by
              have : plug c (Shape.node sib p kp (Shape.node l x k r))
                = plug (Frame.right p kp sib :: c) (Shape.node l x k r) := rfl
              rw [this]; omega)
          refine ⟨ret, t', ?_, ?_⟩
          · rw [← hsz] at hF
            simp [hx, ctxParent, Frame.ptr, h1, hsib, hF, hsx]
          · rw [hsz]; exact hrest


theorem readNode_append_lt (nodes : List (ScapegoatTreeNode K)) (n : ScapegoatTreeNode K)
    {q : Nat} (h : q < nodes.length) : readNode (nodes ++ [n]) q = readNode nodes q := by
  simp only [readNode]
  exact List.getElem?_append_left h

theorem readNode_append_length (nodes : List (ScapegoatTreeNode K)) (n : ScapegoatTreeNode K) :
    readNode (nodes ++ [n]) nodes.length = some n := by
  simp [readNode]

theorem plug_root_congr (c : List (Frame K)) {s s' : Shape K} (h : s.root = s'.root) :
    (plug c s).root = (plug c s').root := by
  cases c with
  | nil => exact h
  | cons f c => exact plug_root_cons f c s s'

theorem Ascending_insert_middle {cmp : K → K → Int}
    {B C : List (Nat × K)} {x : Nat × K}
    (h : Ascending cmp ((B ++ C).map Prod.snd))
    (hb : ∀ b ∈ B, cmp b.2 x.2 < 0) (hc : ∀ a ∈ C, cmp x.2 a.2 < 0) :
    Ascending cmp ((B ++ x :: C).map Prod.snd) := by
  simp only [Ascending, List.map_append, List.map_cons, List.pairwise_append,
    List.pairwise_cons, List.mem_map, List.mem_cons] at h ⊢
  obtain ⟨h1, h2, h3⟩ := h
  refine ⟨h1, ⟨?_, h2⟩, ?_⟩
  · rintro a ⟨y, hy, rfl⟩
    exact hc y hy
  · rintro a ⟨y, hy, rfl⟩ b hb'
    rcases hb' with rfl | ⟨z, hz, rfl⟩
    · exact hb y hy
    · exact h3 _ ⟨y, hy, rfl⟩ _ ⟨z, hz, rfl⟩

theorem Frame.fill_nil_root (fr : Frame K) : (fr.fill Shape.nil).root = some fr.ptr := by
  cases fr <;> rfl

theorem plug_cons_toList (fr : Frame K) (c : List (Frame K)) (s : Shape K) :
    (plug (fr :: c) s).toList = ctxBefore (fr :: c) ++ (s.toList ++ ctxAfter (fr :: c)) := by
  rw [plug_toList]; simp

/-- The invariant after a new node with a fresh address has been put into the
in-order sequence at a place that respects the key order. -/
theorem Inv_of_insert_middle {t : ScapegoatTree K}
    {S S' : Shape K} {B C : List (Nat × K)} {key : K} {nodes3 : List (ScapegoatTreeNode K)}
    (hinv : Inv t S) (hS : S.toList = B ++ C)
    (hS' : S'.toList = B ++ (t.nodes.length, key) :: C)
    (hb : ∀ b ∈ B, t.comparator b.2 key < 0) (hc : ∀ a ∈ C, t.comparator key a.2 < 0)
    (hroot : t.root = S'.root) (hrep : Rep nodes3 none S') :
    Inv { t with tree_size := t.tree_size + 1, nodes := nodes3 } S' := by
  have hlt := Rep_ptr_lt t.nodes S none hinv.rep
  exact {
    root_eq := hroot
    rep := hrep
    nodup := by
      have h1 := hinv.nodup
      have e1 : S.ptrs = B.map Prod.fst ++ C.map Prod.fst := by
        simp only [Shape.ptrs, hS, List.map_append]
      have e2 : S'.ptrs = B.map Prod.fst ++ t.nodes.length :: C.map Prod.fst := by
        simp only [Shape.ptrs, hS', List.map_append, List.map_cons]
      rw [e1] at h1
      rw [e2]
      refine List.nodup_middle.mpr (List.nodup_cons.mpr ⟨?_, h1⟩)
      intro hmem
      have := hlt t.nodes.length (by rw [e1]; exact hmem)
      omega
    asc := by
      have h1 := hinv.asc
      simp only [Shape.keys, hS, hS'] at h1 ⊢
      exact Ascending_insert_middle h1 hb hc
    size_le := by
      have h1 := hinv.size_le
      have h2 : S'.size = S.size + 1 := by
        rw [← Shape.length_toList, ← Shape.length_toList, hS, hS']
        simp; omega
      show S'.size ≤ t.tree_size + 1
      omega
    cache_some := hinv.cache_some
    cache_none := hinv.cache_none }

/-- Linking a freshly allocated leaf as the left child of the node that
`FindClosestNode` returned keeps the tree well formed. -/
theorem Inv_link_left {t : ScapegoatTree K} (htot : TotalOrder t.comparator)
    {c : List (Frame K)} {p : Nat} {k : K} {r : Shape K} {key : K}
    (hinv : Inv t (plug c (Shape.node Shape.nil p k r)))
    (hb : ∀ b ∈ ctxBefore c, t.comparator b.2 key < 0)
    (hkey : t.comparator key k < 0)
    (ha : ∀ a ∈ ctxAfter c, t.comparator key a.2 < 0) :
    ∃ nodes2 nodes3,
      setParent (t.nodes ++ [{ parent := none, left := none, right := none, key := key }])
        t.nodes.length (some p) = some nodes2 ∧
      setLeft nodes2 p (some t.nodes.length) = some nodes3 ∧
      Inv { t with tree_size := t.tree_size + 1, nodes := nodes3 }
        (plug (Frame.left p k r :: c) (Shape.node Shape.nil t.nodes.length key Shape.nil)) := by
  obtain ⟨hctx, hreps⟩ := (Rep_plug _ _ _).mp hinv.rep
  have hp := hreps.1
  have hr := hreps.2.2
  obtain ⟨hnds, hndc, hdisj⟩ := plug_nodup hinv.nodup
  have hlt := Rep_ptr_lt t.nodes _ none hinv.rep
  have hplt : p < t.nodes.length := readNode_lt hp
  have hpne : t.nodes.length ≠ p := by omega
  have hasc := hinv.asc
  -- the three writes
  have e0 := readNode_append_length t.nodes
    { parent := none, left := none, right := none, key := key }
  obtain ⟨nodes2, e1, hN2, hF2⟩ : ∃ nodes2,
      setParent (t.nodes ++ [{ parent := none, left := none, right := none, key := key }])
        t.nodes.length (some p) = some nodes2 ∧
      readNode nodes2 t.nodes.length = some ⟨some p, none, none, key⟩ ∧
      ∀ q, q < t.nodes.length → readNode nodes2 q = readNode t.nodes q :=
    ⟨_, setParent_eq e0 (some p), readNode_set_self e0 _, fun q hq => by
      rw [readNode_set_ne _ (by omega), readNode_append_lt _ _ hq]⟩
  have hp2 : readNode nodes2 p = _ := (hF2 p hplt).trans hp
  obtain ⟨nodes3, e2, hP3, hF3⟩ : ∃ nodes3, setLeft nodes2 p (some t.nodes.length) = some nodes3 ∧
      readNode nodes3 p = some { parent := ctxParent c, left := some t.nodes.length,
                                 right := r.root, key := k } ∧
      ∀ q, q ≠ p → readNode nodes3 q = readNode nodes2 q :=
    ⟨_, setLeft_eq hp2 (some t.nodes.length), readNode_set_self hp2 _,
      fun q hq => readNode_set_ne _ (Ne.symm hq) _⟩
  refine ⟨nodes2, nodes3, e1, e2, ?_⟩
  have hpr : p ∉ r.ptrs := by
    simp only [Shape.ptrs_node, Shape.ptrs_nil, List.nil_append] at hnds
    exact (List.nodup_cons.mp hnds).1
  have hpc : p ∉ ctxPtrs c := hdisj p (by simp)
  have hkr : ∀ a ∈ r.keys, t.comparator k a < 0 := by
    have h1 : Ascending t.comparator (Shape.node Shape.nil p k r).keys := by
      have := hasc
      simp only [Ascending, Shape.keys, plug_toList, List.map_append, List.pairwise_append] at this
      exact this.1.2.1
    exact (Ascending_node h1).2.2.2
  refine Inv_of_insert_middle hinv (B := ctxBefore c)
    (C := (p, k) :: r.toList ++ ctxAfter c) ?_ ?_ hb ?_ ?_ ?_
  · rw [plug_toList]; simp
  · rw [plug_cons_toList]; simp [ctxBefore, ctxAfter]
  · intro a haa
    simp only [List.cons_append, List.mem_cons, List.mem_append] at haa
    rcases haa with rfl | haa | haa
    · exact hkey
    · exact htot.lt_trans hkey (hkr _ (Shape.mem_keys_of_mem_toList haa))
    · exact ha a haa
  · rw [hinv.root_eq]
    exact plug_root_congr c rfl
  · apply (Rep_plug _ _ _).mpr
    refine ⟨⟨hP3, ?_, ?_⟩, ?_, trivial, trivial⟩
    · apply Rep_congr t.nodes _ _ _ _ hr
      intro q hq
      have hqp : q ≠ p := by rintro rfl; exact hpr hq
      have hql : q < t.nodes.length := Rep_ptr_lt _ _ _ hr q hq
      rw [hF3 q hqp, hF2 q hql]
    · apply RepCtx_congr t.nodes _ _ _ _ hctx
      intro q hq
      have hqp : q ≠ p := by rintro rfl; exact hpc hq
      have hql : q < t.nodes.length := by
        apply hlt
        simp only [Shape.ptrs, plug_toList, List.map_append, List.mem_append]
        simp only [ctxPtrs, List.map_append, List.mem_append] at hq
        tauto
      rw [hF3 q hqp, hF2 q hql]
    · show readNode nodes3 t.nodes.length = _
      rw [hF3 _ hpne, hN2]
      rfl

/-- Linking a freshly allocated leaf as the right child of the node that
`FindClosestNode` returned keeps the tree well formed. -/
theorem Inv_link_right {t : ScapegoatTree K} (htot : TotalOrder t.comparator)
    {c : List (Frame K)} {p : Nat} {k : K} {l : Shape K} {key : K}
    (hinv : Inv t (plug c (Shape.node l p k Shape.nil)))
    (hb : ∀ b ∈ ctxBefore c, t.comparator b.2 key < 0)
    (hkey : t.comparator k key < 0)
    (ha : ∀ a ∈ ctxAfter c, t.comparator key a.2 < 0) :
    ∃ nodes2 nodes3,
      setParent (t.nodes ++ [{ parent := none, left := none, right := none, key := key }])
        t.nodes.length (some p) = some nodes2 ∧
      setRight nodes2 p (some t.nodes.length) = some nodes3 ∧
      Inv { t with tree_size := t.tree_size + 1, nodes := nodes3 }
        (plug (Frame.right p k l :: c) (Shape.node Shape.nil t.nodes.length key Shape.nil)) := by
  obtain ⟨hctx, hreps⟩ := (Rep_plug _ _ _).mp hinv.rep
  have hp := hreps.1
  have hr := hreps.2.1
  obtain ⟨hnds, hndc, hdisj⟩ := plug_nodup hinv.nodup
  have hlt := Rep_ptr_lt t.nodes _ none hinv.rep
  have hplt : p < t.nodes.length := readNode_lt hp
  have hpne : t.nodes.length ≠ p := by omega
  have hasc := hinv.asc
  -- the three writes
  have e0 := readNode_append_length t.nodes
    { parent := none, left := none, right := none, key := key }
  obtain ⟨nodes2, e1, hN2, hF2⟩ : ∃ nodes2,
      setParent (t.nodes ++ [{ parent := none, left := none, right := none, key := key }])
        t.nodes.length (some p) = some nodes2 ∧
      readNode nodes2 t.nodes.length = some ⟨some p, none, none, key⟩ ∧
      ∀ q, q < t.nodes.length → readNode nodes2 q = readNode t.nodes q :=
    ⟨_, setParent_eq e0 (some p), readNode_set_self e0 _, fun q hq => by
      rw [readNode_set_ne _ (by omega), readNode_append_lt _ _ hq]⟩
  have hp2 : readNode nodes2 p = _ := (hF2 p hplt).trans hp
  obtain ⟨nodes3, e2, hP3, hF3⟩ : ∃ nodes3, setRight nodes2 p (some t.nodes.length) = some nodes3 ∧
      readNode nodes3 p = some { parent := ctxParent c, left := l.root,
                                 right := some t.nodes.length, key := k } ∧
      ∀ q, q ≠ p → readNode nodes3 q = readNode nodes2 q :=
    ⟨_, setRight_eq hp2 (some t.nodes.length), readNode_set_self hp2 _,
      fun q hq => readNode_set_ne _ (Ne.symm hq) _⟩
  refine ⟨nodes2, nodes3, e1, e2, ?_⟩
  have hpr : p ∉ l.ptrs := by
    simp only [Shape.ptrs_node, Shape.ptrs_nil] at hnds
    intro hp'
    exact (List.nodup_append.mp hnds).2.2 hp' (by simp)
  have hpc : p ∉ ctxPtrs c := hdisj p (by simp)
  have hkr : ∀ a ∈ l.keys, t.comparator a k < 0 := by
    have h1 : Ascending t.comparator (Shape.node l p k Shape.nil).keys := by
      have := hasc
      simp only [Ascending, Shape.keys, plug_toList, List.map_append, List.pairwise_append] at this
      exact this.1.2.1
    exact (Ascending_node h1).2.2.1
  refine Inv_of_insert_middle hinv (B := ctxBefore c ++ (l.toList ++ [(p, k)]))
    (C := ctxAfter c) ?_ ?_ ?_ ha ?_ ?_
  · rw [plug_toList]; simp
  · rw [plug_cons_toList]; simp [ctxBefore, ctxAfter]
  · intro b hbb
    simp only [List.mem_append, List.mem_singleton] at hbb
    rcases hbb with hbb | hbb | rfl
    · exact hb b hbb
    · exact htot.lt_trans (hkr _ (Shape.mem_keys_of_mem_toList hbb)) hkey
    · exact hkey
  · rw [hinv.root_eq]
    exact plug_root_congr c rfl
  · apply (Rep_plug _ _ _).mpr
    refine ⟨⟨hP3, ?_, ?_⟩, ?_, trivial, trivial⟩
    · apply Rep_congr t.nodes _ _ _ _ hr
      intro q hq
      have hqp : q ≠ p := by rintro rfl; exact hpr hq
      have hql : q < t.nodes.length := Rep_ptr_lt _ _ _ hr q hq
      rw [hF3 q hqp, hF2 q hql]
    · apply RepCtx_congr t.nodes _ _ _ _ hctx
      intro q hq
      have hqp : q ≠ p := by rintro rfl; exact hpc hq
      have hql : q < t.nodes.length := by
        apply hlt
        simp only [Shape.ptrs, plug_toList, List.map_append, List.mem_append]
        simp only [ctxPtrs, List.map_append, List.mem_append] at hq
        tauto
      rw [hF3 q hqp, hF2 q hql]
    · show readNode nodes3 t.nodes.length = _
      rw [hF3 _ hpne, hN2]
      rfl



theorem setLeft_length {nodes nodes' : List (ScapegoatTreeNode K)} {p : Nat} {v : Option Nat}
    (h : setLeft nodes p v = some nodes') : nodes'.length = nodes.length := by
  unfold setLeft at h
  split at h
  · cases h
  · cases h; simp

theorem setRight_length {nodes nodes' : List (ScapegoatTreeNode K)} {p : Nat} {v : Option Nat}
    (h : setRight nodes p v = some nodes') : nodes'.length = nodes.length := by
  unfold setRight at h
  split at h
  · cases h
  · cases h; simp

theorem setParent_length {nodes nodes' : List (ScapegoatTreeNode K)} {p : Nat} {v : Option Nat}
    (h : setParent nodes p v = some nodes') : nodes'.length = nodes.length := by
  unfold setParent at h
  split at h
  · cases h
  · cases h; simp

theorem BuildTreeFromSortedNodes_length : ∀ (fuel : Nat) (nodes : List (ScapegoatTreeNode K))
    (sorted : List (Option Nat)) (n : Nat) (nodes' : List (ScapegoatTreeNode K)) (root : Nat),
    BuildTreeFromSortedNodes fuel nodes sorted n = some (nodes', root) →
    nodes'.length = nodes.length := by
  intro fuel
  induction fuel with
  | zero => intro nodes sorted n nodes' root h; simp [BuildTreeFromSortedNodes] at h
  | succ f ih =>
    intro nodes sorted n nodes' root h
    simp only [BuildTreeFromSortedNodes] at h
    split at h
    · simp only [Option.bind_eq_bind, Option.bind_eq_some] at h
      obtain ⟨nodes1, h1, nodes2, h2, h⟩ := h
      have l1 := setLeft_length h1
      have l2 := setRight_length h2
      split at h
      · simp only [Option.pure_def, Option.some.injEq, Prod.mk.injEq] at h
        rw [← h.1]; omega
      · simp only [Option.bind_eq_bind, Option.bind_eq_some] at h
        obtain ⟨⟨nodes3, left⟩, h3, nodes4, h4, nodes5, h5, h⟩ := h
        dsimp only at h4 h5 h
        have l3 := ih _ _ _ _ _ h3
        have l4 := setParent_length h4
        have l5 := setLeft_length h5
        split at h
        · simp only [Option.pure_def, Option.some.injEq, Prod.mk.injEq] at h
          rw [← h.1]; omega
        · simp only [Option.bind_eq_bind, Option.bind_eq_some] at h
          obtain ⟨⟨nodes6, right⟩, h6, nodes7, h7, nodes8, h8, h⟩ := h
          dsimp only at h7 h8 h
          have l6 := ih _ _ _ _ _ h6
          have l7 := setParent_length h7
          have l8 := setRight_length h8
          simp only [Option.pure_def, Option.some.injEq, Prod.mk.injEq] at h
          rw [← h.1]; omega
    · cases h

theorem GetOrAllocateNodePtrCache_frame (t : ScapegoatTree K) (req : Nat) (ok : Bool) :
    (GetOrAllocateNodePtrCache t req ok).1.nodes = t.nodes ∧
    (GetOrAllocateNodePtrCache t req ok).1.root = t.root ∧
    (GetOrAllocateNodePtrCache t req ok).1.comparator = t.comparator ∧
    (GetOrAllocateNodePtrCache t req ok).1.tree_size = t.tree_size := by
  unfold GetOrAllocateNodePtrCache
  split
  · exact ⟨rfl, rfl, rfl, rfl⟩
  · split
    · exact ⟨rfl, rfl, rfl, rfl⟩
    · cases ok <;> exact ⟨rfl, rfl, rfl, rfl⟩

/-- What `RebuildSubtree` leaves alone: a call that returns `0` changes neither
the node store nor the root; a call that returns keeps the number of nodes,
the comparator and `tree_size`, and returns `0` or `1`. -/
theorem RebuildSubtree_frame {fuel : Nat} {t t' : ScapegoatTree K} {node sz ret : Nat}
    {ok : Bool} (h : RebuildSubtree fuel t node sz ok = some (ret, t')) :
    (ret = 0 ∨ ret = 1) ∧ (ret = 0 → t'.nodes = t.nodes ∧ t'.root = t.root) ∧
    t'.nodes.length = t.nodes.length ∧ t'.comparator = t.comparator ∧
    t'.tree_size = t.tree_size := by
  obtain ⟨g1, g2, g3, g4⟩ := GetOrAllocateNodePtrCache_frame t sz ok
  unfold RebuildSubtree at h
  simp only [Option.bind_eq_bind, Option.bind_eq_some] at h
  obtain ⟨n, hn, h⟩ := h
  split at h
  · -- the node is the root of the whole tree
    simp only [Option.bind_eq_some] at h
    obtain ⟨wl, -, h⟩ := h
    rename_i hpar
    rw [hpar] at h
    split at h
    · rename_i t1 heq
      rw [heq] at g1 g2 g3 g4
      simp only [Option.pure_def, Option.some.injEq, Prod.mk.injEq] at h
      obtain ⟨rfl, rfl⟩ := h
      exact ⟨Or.inl rfl, fun _ => ⟨g1, g2⟩, by rw [g1], g3, g4⟩
    · rename_i t1 sorted heq
      rw [heq] at g1 g2 g3 g4
      simp only [Option.bind_eq_bind, Option.bind_eq_some, Option.pure_def, Option.some.injEq,
        Prod.mk.injEq] at h
      obtain ⟨⟨sorted1, cnt⟩, hT, ⟨nodes1, new_root⟩, hB, nodes2, hP, rfl, rfl⟩ := h
      dsimp only at hB hP
      have l1 := BuildTreeFromSortedNodes_length _ _ _ _ _ _ hB
      have l2 := setParent_length hP
      refine ⟨Or.inr rfl, fun h0 => by omega, ?_, g3, g4⟩
      show nodes2.length = _
      rw [l2, l1, g1]
  · -- the node has a parent
    simp only [Option.bind_eq_some] at h
    obtain ⟨wl, -, h⟩ := h
    rename_i pp hpar
    rw [hpar] at h
    split at h
    · rename_i t1 heq
      rw [heq] at g1 g2 g3 g4
      simp only [Option.pure_def, Option.some.injEq, Prod.mk.injEq] at h
      obtain ⟨rfl, rfl⟩ := h
      exact ⟨Or.inl rfl, fun _ => ⟨g1, g2⟩, by rw [g1], g3, g4⟩
    · rename_i t1 sorted heq
      rw [heq] at g1 g2 g3 g4
      simp only [Option.bind_eq_bind, Option.bind_eq_some] at h
      obtain ⟨⟨sorted1, cnt⟩, hT, ⟨nodes1, new_root⟩, hB, nodes2, hP, h⟩ := h
      dsimp only at hB hP h
      have l1 := BuildTreeFromSortedNodes_length _ _ _ _ _ _ hB
      have l2 := setParent_length hP
      split at h
      · simp only [Option.bind_eq_some, Option.pure_def, Option.some.injEq,
          Prod.mk.injEq] at h
        obtain ⟨nodes3, h3, rfl, rfl⟩ := h
        have l3 := setLeft_length h3
        refine ⟨Or.inr rfl, fun h0 => by omega, ?_, g3, g4⟩
        show nodes3.length = _
        rw [l3, l2, l1, g1]
      · simp only [Option.bind_eq_some, Option.pure_def, Option.some.injEq,
          Prod.mk.injEq] at h
        obtain ⟨nodes3, h3, rfl, rfl⟩ := h
        have l3 := setRight_length h3
        refine ⟨Or.inr rfl, fun h0 => by omega, ?_, g3, g4⟩
        show nodes3.length = _
        rw [l3, l2, l1, g1]

theorem FindAndRebalanceRecursive_frame : ∀ (fuel : Nat) (t t' : ScapegoatTree K)
    (node ls rs ret : Nat) (ok : Bool),
    FindAndRebalanceRecursive fuel t node ls rs ok = some (ret, t') →
    (ret = 0 ∨ ret = 1) ∧ (ret = 0 → t'.nodes = t.nodes ∧ t'.root = t.root) ∧
    t'.nodes.length = t.nodes.length ∧ t'.comparator = t.comparator ∧
    t'.tree_size = t.tree_size := by
  intro fuel
  induction fuel with
  | zero => intro t t' node ls rs ret ok h; simp [FindAndRebalanceRecursive] at h
  | succ f ih =>
    intro t t' node ls rs ret ok h
    simp only [FindAndRebalanceRecursive] at h
    split at h
    · exact RebuildSubtree_frame h
    · simp only [Option.bind_eq_bind, Option.bind_eq_some] at h
      obtain ⟨n, hn, h⟩ := h
      split at h
      · simp only [Option.pure_def, Option.some.injEq, Prod.mk.injEq] at h
        obtain ⟨rfl, rfl⟩ := h
        exact ⟨Or.inr rfl, fun h0 => by omega, rfl, rfl, rfl⟩
      · simp only [Option.bind_eq_bind, Option.bind_eq_some] at h
        obtain ⟨pn, hpn, h⟩ := h
        split at h
        · simp only [Option.bind_eq_bind, Option.bind_eq_some] at h
          obtain ⟨sz, hsz, h⟩ := h
          exact ih _ _ _ _ _ _ _ h
        · simp only [Option.bind_eq_bind, Option.bind_eq_some] at h
          obtain ⟨sz, hsz, h⟩ := h
          exact ih _ _ _ _ _ _ _ h

theorem insertKey_length_le (cmp : K → K → Int) (new : Nat × K) (l : List (Nat × K)) :
    (insertKey cmp new l).length ≤ l.length + 1 := by
  induction l with
  | nil => simp [insertKey]
  | cons a l ih =>
    simp only [insertKey]
    split
    · simp
    · split
      · simp
      · simp; omega

theorem ScapegoatInsert_spec {t : ScapegoatTree K} {S : Shape K}
    (htot : TotalOrder t.comparator) (hinv : Inv t S) (key : K) (fuel : Nat)
    (hfuel : 2 * S.size + 4 ≤ fuel) (nok cok : Bool) :
    ∃ ret t' S', ScapegoatInsert fuel t key nok cok = some (ret, t') ∧ Inv t' S' ∧
      t'.comparator = t.comparator ∧
      (ret = 0 ∨ ret = 1) ∧
      (ret = 1 → S' = insertShape t.comparator S key t.nodes.length) ∧
      (S'.toList = insertKey t.comparator (t.nodes.length, key) S.toList ∨
        (nok = false ∧ ret = 0 ∧ S' = S)) ∧
      (nok = true → cok = true → ret = 1) ∧
      (nok = true → t.tree_size = S.size → t'.tree_size = S'.size) ∧
      (t.nodes.length = S.size → t'.nodes.length = S'.size) := by
  cases S with
  | nil =>
    have hroot : t.root = none := hinv.root_eq
    cases nok with
    | false =>
      refine ⟨0, t, Shape.nil, ?_, hinv, rfl, Or.inl rfl, by simp, Or.inr ⟨rfl, rfl, rfl⟩,
        by simp, by simp, fun h => h⟩
      simp [ScapegoatInsert, hroot, AllocateNewNode]
    | true =>
      refine ⟨1, { t with nodes := t.nodes ++ [⟨none, none, none, key⟩],
                          root := some t.nodes.length, tree_size := 1 },
        Shape.node Shape.nil t.nodes.length key Shape.nil, ?_, ?_, rfl, Or.inr rfl, ?_,
        Or.inl ?_, by simp, by simp, fun h => ?_⟩
      · simp [ScapegoatInsert, hroot, AllocateNewNode]
      · exact {
          root_eq := rfl
          rep := ⟨readNode_append_length _ _, trivial, trivial⟩
          nodup := by simp
          asc := by simp [Ascending]
          size_le := by simp
          cache_some := hinv.cache_some
          cache_none := hinv.cache_none }
      · intro _; simp [insertShape, descend]
      · simp [insertKey]
      · simp only [Shape.size_nil] at h
        simp [h]
  | node L P KP R =>
    generalize hS : Shape.node L P KP R = S at hinv hfuel ⊢
    have hSne : S ≠ Shape.nil := by rw [← hS]; simp
    have hSroot : S.root = some P := by rw [← hS]; rfl
    have hroot : t.root = some P := by rw [hinv.root_eq, hSroot]
    obtain ⟨hplug, hb, ha, hasc', hstop⟩ :=
      descend_spec htot key S [] hinv.asc (by simp [ctxBefore]) (by simp [ctxAfter])
    obtain ⟨l, p, k, r, hd2, hreason⟩ := hstop hSne
    generalize hd1 : (descend t.comparator key [] S).1 = c at hplug hb ha
    rw [hd2] at hplug hasc'
    have hdesc : descend t.comparator key [] S = (c, Shape.node l p k r) := Prod.ext hd1 hd2
    have hplug' : plug c (Shape.node l p k r) = S := hplug
    have hfind : FindClosestNode fuel t (some P) key = some (some p) := by
      have := FindClosestNode_of_Rep t key S [] none fuel hinv.rep
        (by have := S.levels_le_size; omega)
      rw [hSroot, hd2] at this
      exact this
    have hinvp : Inv t (plug c (Shape.node l p k r)) := by rw [hplug']; exact hinv
    obtain ⟨hctx, hreps⟩ := (Rep_plug _ _ _).mp hinvp.rep
    have hp := hreps.1
    have hlist : S.toList = ctxBefore c ++ ((Shape.node l p k r).toList ++ ctxAfter c) := by
      rw [← hplug', plug_toList]; simp
    obtain ⟨-, -, hlk, hkr⟩ := Ascending_node hasc'
    have hsize : S.size = (ctxPtrs c).length + (Shape.node l p k r).size := by
      rw [← hplug', plug_size]
    have hcl := ctxPtrs_length_ge c
    by_cases hz : t.comparator key k = 0
    · -- the key is already stored
      have hcomp : ScapegoatInsert fuel t key nok cok = some (1, t) := by
        simp [ScapegoatInsert, hroot, hfind, hp, hz]
      have hins : insertShape t.comparator S key t.nodes.length = S := by
        simp [insertShape, hdesc, hz]
      refine ⟨1, t, S, hcomp, hinv, rfl, Or.inr rfl, fun _ => hins.symm, Or.inl ?_,
        fun _ _ => rfl, fun _ h => h, fun h => h⟩
      rw [hlist, insertKey_append_lt htot _ _ _ hb]
      simp only [Shape.toList_node, List.append_assoc]
      rw [insertKey_append_lt htot _ _ _ (by
        intro b hbl
        exact htot.lt_of_lt_of_le (hlk _ (Shape.mem_keys_of_mem_toList hbl))
          (le_of_eq (htot.eq_symm hz)))]
      simp [insertKey, hz]
    · cases nok with
      | false =>
        -- the node allocation fails: only the count has changed
        have hcomp : ScapegoatInsert fuel t key false cok
            = some (0, { t with tree_size := t.tree_size + 1 }) := by
          simp [ScapegoatInsert, hroot, hfind, hp, hz, AllocateNewNode]
        refine ⟨0, { t with tree_size := t.tree_size + 1 }, S, hcomp, ?_,
          rfl, Or.inl rfl, by simp, Or.inr ⟨rfl, rfl, rfl⟩, by simp, by simp, fun h => h⟩
        exact {
          root_eq := hinv.root_eq
          rep := hinv.rep
          nodup := hinv.nodup
          asc := hinv.asc
          size_le := Nat.le_succ_of_le hinv.size_le
          cache_some := hinv.cache_some
          cache_none := hinv.cache_none }
      | true =>
        by_cases hlt : t.comparator key k < 0
        · -- new left child
          have hl : l = Shape.nil := by
            rcases hreason with h | h | h
            · exact absurd h hz
            · exact h.2
            · omega
          subst hl
          obtain ⟨nodes2, nodes3, e1, e2, hinv3⟩ := Inv_link_left htot hinvp hb hlt ha
          have hcomp : ScapegoatInsert fuel t key true cok
              = FindAndRebalanceRecursive fuel
                  { t with tree_size := t.tree_size + 1, nodes := nodes3 }
                  t.nodes.length 0 0 cok := by
            simp [ScapegoatInsert, hroot, hfind, hp, hz, hlt, AllocateNewNode, e1, e2]
          have hsz3 : (plug (Frame.left p k r :: c)
              (Shape.node Shape.nil t.nodes.length key Shape.nil)).size = S.size + 1 := by
            rw [plug_size, hsize]
            simp [ctxPtrs, ctxBefore, ctxAfter]; omega
          have hcl3 := ctxPtrs_length_ge (Frame.left p k r :: c)
          have hps3 := plug_size (Frame.left p k r :: c)
            (Shape.node Shape.nil t.nodes.length key Shape.nil)
          obtain ⟨ret, t', hF, hcmp, hts, hcases⟩ :=
            FindAndRebalanceRecursive_spec cok (Frame.left p k r :: c) _ Shape.nil Shape.nil
              t.nodes.length key fuel hinv3 (by
                simp only [Shape.size_node, Shape.size_nil] at hps3
                omega)
          have hwl : (walk (Frame.left p k r :: c)
              (Shape.node Shape.nil t.nodes.length key Shape.nil) 0 0).toList
              = insertKey t.comparator (t.nodes.length, key) S.toList := by
            rw [walk_toList, plug_cons_toList, hlist, insertKey_append_lt htot _ _ _ hb,
              insertKey_of_forall_gt]
            · simp [ctxBefore, ctxAfter]
            · intro a haa
              simp only [Shape.toList_node, Shape.toList_nil, List.nil_append, List.cons_append,
                List.mem_cons, List.mem_append] at haa
              rcases haa with rfl | haa | haa
              · exact hlt
              · exact htot.lt_trans hlt (hkr _ (Shape.mem_keys_of_mem_toList haa))
              · exact ha a haa
          have hins : insertShape t.comparator S key t.nodes.length
              = walk (Frame.left p k r :: c)
                  (Shape.node Shape.nil t.nodes.length key Shape.nil) 0 0 := by
            simp [insertShape, hdesc, hz, hlt]
          simp only [Shape.size_nil] at hF
          have hlen3 : nodes3.length = t.nodes.length + 1 := by
            rw [setLeft_length e2, setParent_length e1]; simp
          have hlen' : t'.nodes.length = t.nodes.length + 1 := by
            rw [(FindAndRebalanceRecursive_frame _ _ _ _ _ _ _ _ hF).2.2.1]
            exact hlen3
          rw [← hcomp] at hF
          have hwsz := Shape.size_eq_of_toList (walk_toList (Frame.left p k r :: c)
            (Shape.node Shape.nil t.nodes.length key Shape.nil) 0 0)
          rcases hcases with ⟨hr1, hinv'⟩ | ⟨hr0, hcok, -, -, hinv'⟩
          · refine ⟨ret, t', walk (Frame.left p k r :: c)
                (Shape.node Shape.nil t.nodes.length key Shape.nil) 0 0,
              hF, hinv', hcmp, Or.inr hr1, fun _ => hins.symm, Or.inl hwl,
              fun _ _ => hr1, fun _ h => ?_, fun h => ?_⟩
            · rw [hwsz, hsz3, hts]
              show t.tree_size + 1 = _
              omega
            · rw [hwsz, hsz3, hlen']
              omega
          · refine ⟨ret, t', plug (Frame.left p k r :: c)
                (Shape.node Shape.nil t.nodes.length key Shape.nil),
              hF, hinv', hcmp, Or.inl hr0, fun h => by omega, Or.inl ?_,
              fun _ h => (by rw [hcok] at h; cases h), fun _ h => ?_, fun h => ?_⟩
            · rw [← hwl, walk_toList]
            · rw [hsz3, hts]
              show t.tree_size + 1 = _
              omega
            · rw [hsz3, hlen']
              omega
        · -- new right child
          have hgt : t.comparator k key < 0 := by
            have := htot.antisymm k key
            omega
          have hr : r = Shape.nil := by
            rcases hreason with h | h | h
            · exact absurd h hz
            · exact absurd h.1 hlt
            · exact h.2
          subst hr
          obtain ⟨nodes2, nodes3, e1, e2, hinv3⟩ := Inv_link_right htot hinvp hb hgt ha
          have hcomp : ScapegoatInsert fuel t key true cok
              = FindAndRebalanceRecursive fuel
                  { t with tree_size := t.tree_size + 1, nodes := nodes3 }
                  t.nodes.length 0 0 cok := by
            simp [ScapegoatInsert, hroot, hfind, hp, hz, hlt, AllocateNewNode, e1, e2]
          have hsz3 : (plug (Frame.right p k l :: c)
              (Shape.node Shape.nil t.nodes.length key Shape.nil)).size = S.size + 1 := by
            rw [plug_size, hsize]
            simp [ctxPtrs, ctxBefore, ctxAfter]; omega
          have hcl3 := ctxPtrs_length_ge (Frame.right p k l :: c)
          have hps3 := plug_size (Frame.right p k l :: c)
            (Shape.node Shape.nil t.nodes.length key Shape.nil)
          obtain ⟨ret, t', hF, hcmp, hts, hcases⟩ :=
            FindAndRebalanceRecursive_spec cok (Frame.right p k l :: c) _ Shape.nil Shape.nil
              t.nodes.length key fuel hinv3 (by
                simp only [Shape.size_node, Shape.size_nil] at hps3
                omega)
          have hb' : ∀ b ∈ ctxBefore (Frame.right p k l :: c), t.comparator b.2 key < 0 := by
            intro b hbb
            simp only [ctxBefore, List.mem_append, List.mem_singleton] at hbb
            rcases hbb with hbb | hbb | rfl
            · exact hb b hbb
            · exact htot.lt_trans (hlk _ (Shape.mem_keys_of_mem_toList hbb)) hgt
            · exact hgt
          have hwl : (walk (Frame.right p k l :: c)
              (Shape.node Shape.nil t.nodes.length key Shape.nil) 0 0).toList
              = insertKey t.comparator (t.nodes.length, key) S.toList := by
            have e : S.toList = ctxBefore (Frame.right p k l :: c)
                ++ ctxAfter (Frame.right p k l :: c) := by
              rw [hlist]; simp [ctxBefore, ctxAfter]
            rw [walk_toList, plug_cons_toList, e, insertKey_append_lt htot _ _ _ hb',
              insertKey_of_forall_gt]
            · simp
            · simpa [ctxAfter] using ha
          have hins : insertShape t.comparator S key t.nodes.length
              = walk (Frame.right p k l :: c)
                  (Shape.node Shape.nil t.nodes.length key Shape.nil) 0 0 := by
            simp [insertShape, hdesc, hz, hlt]
          simp only [Shape.size_nil] at hF
          have hlen3 : nodes3.length = t.nodes.length + 1 := by
            rw [setRight_length e2, setParent_length e1]; simp
          have hlen' : t'.nodes.length = t.nodes.length + 1 := by
            rw [(FindAndRebalanceRecursive_frame _ _ _ _ _ _ _ _ hF).2.2.1]
            exact hlen3
          rw [← hcomp] at hF
          have hwsz := Shape.size_eq_of_toList (walk_toList (Frame.right p k l :: c)
            (Shape.node Shape.nil t.nodes.length key Shape.nil) 0 0)
          rcases hcases with ⟨hr1, hinv'⟩ | ⟨hr0, hcok, -, -, hinv'⟩
          · refine ⟨ret, t', walk (Frame.right p k l :: c)
                (Shape.node Shape.nil t.nodes.length key Shape.nil) 0 0,
              hF, hinv', hcmp, Or.inr hr1, fun _ => hins.symm, Or.inl hwl,
              fun _ _ => hr1, fun _ h => ?_, fun h => ?_⟩
            · rw [hwsz, hsz3, hts]
              show t.tree_size + 1 = _
              omega
            · rw [hwsz, hsz3, hlen']
              omega
          · refine ⟨ret, t', plug (Frame.right p k l :: c)
                (Shape.node Shape.nil t.nodes.length key Shape.nil),
              hF, hinv', hcmp, Or.inl hr0, fun h => by omega, Or.inl ?_,
              fun _ h => (by rw [hcok] at h; cases h), fun _ h => ?_, fun h => ?_⟩
            · rw [← hwl, walk_toList]
            · rw [hsz3, hts]
              show t.tree_size + 1 = _
              omega
            · rw [hsz3, hlen']
              omega


theorem IntComparator_total : TotalOrder IntComparator where
  antisymm := by
    intro a b
    simp only [IntComparator]
    split_ifs <;> omega
  trans := by
    intro a b c
    simp only [IntComparator]
    split_ifs <;> omega

theorem CreateScapegoatTree_inv (cmp : K → K → Int) :
    ∃ t0, CreateScapegoatTree cmp true = some t0 ∧ Inv t0 Shape.nil ∧ t0.comparator = cmp ∧
      t0.tree_size = 0 ∧ t0.nodes = [] := by
  refine ⟨_, rfl, ?_, rfl, rfl, rfl⟩
  exact {
    root_eq := rfl
    rep := trivial
    nodup := by simp
    asc := by simp [Ascending]
    size_le := by simp
    cache_some := by intro c h; cases h
    cache_none := fun _ => rfl }

theorem keysOf_of_valid (nodes : List (ScapegoatTreeNode K)) :
    ∀ (l : List (Nat × K)), (∀ pk ∈ l, ∃ n, readNode nodes pk.1 = some n ∧ n.key = pk.2) →
      keysOf nodes (l.map (fun pk => some pk.1)) = some (l.map Prod.snd) := by
  intro l
  induction l with
  | nil => intro _; rfl
  | cons a l ih =>
    intro h
    obtain ⟨n, hn, hk⟩ := h a (by simp)
    have := ih (fun pk hpk => h pk (by simp [hpk]))
    simp [keysOf, hn, this, hk]

theorem inorderKeys_of_Inv {t : ScapegoatTree K} {S : Shape K} (hinv : Inv t S) (fuel : Nat)
    (hfuel : S.levels < fuel) : inorderKeys fuel t = some S.keys := by
  have hT := TraverseNodesInOrder_zero t.nodes S none fuel (List.replicate t.tree_size none)
    hinv.rep hfuel (by simpa using hinv.size_le)
  rw [← hinv.root_eq] at hT
  simp only [inorderKeys, hT]
  have : (S.ptrs.map some ++ List.drop S.size (List.replicate t.tree_size none)).take S.size
      = S.toList.map (fun pk => some pk.1) := by
    rw [List.take_left']
    · simp [Shape.ptrs]
    · simp
  rw [this]
  exact keysOf_of_valid _ _ (Rep_key _ _ _ hinv.rep)

theorem Ordered_of_Ascending {cmp : K → K → Int} (htot : TotalOrder cmp) (s : Shape K) :
    Ascending cmp s.keys → s.Ordered cmp := by
  induction s with
  | nil => intro _; trivial
  | node l p k r ihl ihr =>
    intro h
    obtain ⟨hal, har, hlk, hkr⟩ := Ascending_node h
    exact ⟨hlk, fun b hb => (htot.antisymm k b).mp (hkr b hb), ihl hal, ihr har⟩

theorem treeLevels_of_Rep (nodes : List (ScapegoatTreeNode K)) (s : Shape K) :
    ∀ (par : Option Nat) (fuel : Nat), Rep nodes par s → s.levels < fuel →
      treeLevels fuel nodes s.root = some s.levels := by
  induction s with
  | nil =>
    intro par fuel _ hf
    cases fuel with
    | zero => omega
    | succ f => simp [treeLevels]
  | node l p k r ihl ihr =>
    intro par fuel hrep hf
    cases fuel with
    | zero => omega
    | succ f =>
      obtain ⟨h1, h2, h3⟩ := hrep
      simp only [Shape.levels_node] at hf
      have hl := ihl (some p) f h2 (by omega)
      have hr := ihr (some p) f h3 (by omega)
      simp [treeLevels, h1, hl, hr]


theorem TotalOrder.eq_trans {cmp : K → K → Int} (h : TotalOrder cmp) {a b c : K}
    (hab : cmp a b = 0) (hbc : cmp b c = 0) : cmp a c = 0 := by
  have h1 := h.trans a b c (by omega) (by omega)
  have h2 := h.trans c b a (by rw [h.eq_symm hbc]) (by rw [h.eq_symm hab])
  have h3 := h.antisymm a c
  omega

/-- Looking a key up after a sorted insertion: an equal element already listed
wins, otherwise the inserted one is found if it is equal. -/
theorem find?_insertKey {cmp : K → K → Int} (htot : TotalOrder cmp) (k : K) (new : Nat × K) :
    ∀ (l : List (Nat × K)), Ascending cmp (l.map Prod.snd) →
      ((insertKey cmp new l).map Prod.snd).find? (fun a => decide (cmp k a = 0))
        = ((l.map Prod.snd).find? (fun a => decide (cmp k a = 0))).or
            (if cmp k new.2 = 0 then some new.2 else none) := by
  intro l
  induction l with
  | nil =>
    intro _
    by_cases hk : cmp k new.2 = 0 <;> simp [insertKey, hk]
  | cons a rest ih =>
    intro hasc
    simp only [Ascending, List.map_cons, List.pairwise_cons] at hasc
    obtain ⟨ha, hrest⟩ := hasc
    simp only [insertKey]
    by_cases hz : cmp new.2 a.2 = 0
    · rw [if_pos hz]
      by_cases hk : cmp k new.2 = 0
      · have : cmp k a.2 = 0 := htot.eq_trans hk hz
        simp [this]
      · simp [hk]
    · rw [if_neg hz]
      by_cases hlt : cmp new.2 a.2 < 0
      · rw [if_pos hlt]
        by_cases hk : cmp k new.2 = 0
        · have hka : cmp k a.2 < 0 := htot.lt_of_le_of_lt (le_of_eq hk) hlt
          have hnone : ((a :: rest).map Prod.snd).find? (fun a => decide (cmp k a = 0)) = none := by
            apply find?_eq_none_of_forall
            intro x hx
            simp only [List.map_cons, List.mem_cons] at hx
            simp only [decide_eq_false_iff_not]
            rcases hx with rfl | hx
            · omega
            · have := htot.lt_trans hka (ha x hx)
              omega
          rw [hnone]
          simp [hk]
        · simp [hk]
      · rw [if_neg hlt]
        have := ih hrest
        simp only [List.map_cons, List.find?_cons]
        by_cases hka : cmp k a.2 = 0
        · simp [hka]
        · simp only [hka, decide_False]
          exact this


/-- Any run of insertions from a well-formed tree returns and ends in a
well-formed tree; when every call returned `1` the final tree is the one of
the pure model and a lookup finds the first equal key of the run. -/
theorem insertMany_spec : ∀ (ops : List (K × Bool × Bool)) (t : ScapegoatTree K) (S : Shape K)
    (fuel : Nat), TotalOrder t.comparator → Inv t S → 2 * (S.size + ops.length) + 4 ≤ fuel →
    ∃ rets t' S', insertMany fuel t ops = some (rets, t') ∧ Inv t' S' ∧
      t'.comparator = t.comparator ∧ S'.size ≤ S.size + ops.length ∧
      rets.length = ops.length ∧
      ((∀ r ∈ rets, r = 1) → ∀ k,
        S'.keys.find? (fun a => decide (t.comparator k a = 0))
          = (S.keys.find? (fun a => decide (t.comparator k a = 0))).or
              ((ops.map (fun op => op.1)).find? (fun a => decide (t.comparator k a = 0)))) ∧
      ((∀ r ∈ rets, r = 1) → t.nodes.length = S.size →
        S' = insertShapes t.comparator S (ops.map (fun op => op.1))) ∧
      ((∀ op ∈ ops, op.2.1 = true ∧ op.2.2 = true) → ∀ r ∈ rets, r = 1) ∧
      ((∀ op ∈ ops, op.2.1 = true) → t.tree_size = S.size → t'.tree_size = S'.size) := by
  intro ops
  induction ops with
  | nil =>
    intro t S fuel _ hinv _
    refine ⟨[], t, S, rfl, hinv, rfl, by simp, rfl, ?_, ?_, ?_, ?_⟩
    · intro _ k; simp
    · intro _ _; rfl
    · intro _ r hr; simp at hr
    · intro _ h; exact h
  | cons op ops ih =>
    intro t S fuel htot hinv hfuel
    obtain ⟨key, nok, cok⟩ := op
    simp only [List.length_cons] at hfuel
    obtain ⟨ret, t1, S1, h1, hinv1, hc1, -, hshape1, hl1, hok1, hts1, hlen1⟩ :=
      ScapegoatInsert_spec htot hinv key fuel (by omega) nok cok
    have hsz : S1.size ≤ S.size + 1 := by
      rcases hl1 with h | ⟨-, -, h⟩
      · rw [← Shape.length_toList, h, ← Shape.length_toList]
        exact insertKey_length_le _ _ _
      · rw [h]; omega
    obtain ⟨rets, t', S', h2, hinv', hc', hsz', hlen, hfind, hshape, hok, hts⟩ :=
      ih t1 S1 fuel (by rw [hc1]; exact htot) hinv1 (by omega)
    refine ⟨ret :: rets, t', S', ?_, hinv', by rw [hc', hc1],
      by simp only [List.length_cons]; omega, by simp [hlen], ?_, ?_, ?_, ?_⟩
    · simp [insertMany, h1, h2]
    · intro hall k
      have hret : ret = 1 := hall ret (by simp)
      have hl1' : S1.toList = insertKey t.comparator (t.nodes.length, key) S.toList := by
        rcases hl1 with h | ⟨-, h0, -⟩
        · exact h
        · omega
      have := hfind (fun r hr => hall r (by simp [hr])) k
      rw [hc1] at this
      rw [this]
      have hk1 : S1.keys = (insertKey t.comparator (t.nodes.length, key) S.toList).map Prod.snd := by
        rw [Shape.keys, hl1']
      rw [hk1, find?_insertKey htot k _ _ hinv.asc]
      simp only [List.map_cons, List.find?_cons]
      show (((S.keys).find? _).or _).or _ = _
      generalize S.keys.find? (fun a => decide (t.comparator k a = 0)) = A
      generalize (ops.map (fun op => op.1)).find? (fun a => decide (t.comparator k a = 0)) = B
      by_cases hk : t.comparator k key = 0
      · cases A <;> simp [hk]
      · cases A <;> simp [hk]
    · intro hall hlen0
      have hret : ret = 1 := hall ret (by simp)
      have e1 := hshape1 hret
      have := hshape (fun r hr => hall r (by simp [hr])) (hlen1 hlen0)
      rw [this, hc1, e1, hlen0]
      rfl
    · intro hall r hr
      simp only [List.mem_cons] at hr
      have hop := hall (key, nok, cok) (by simp)
      rcases hr with rfl | hr
      · exact hok1 hop.1 hop.2
      · exact hok (fun op hop => hall op (by simp [hop])) r hr
    · intro hall hts0
      have hop := hall (key, nok, cok) (by simp)
      exact hts (fun op hop => hall op (by simp [hop])) (hts1 hop hts0)


theorem ScapegoatSearch_of_Inv {t : ScapegoatTree K} {S : Shape K}
    (htot : TotalOrder t.comparator) (hinv : Inv t S) (key : K) (fuel : Nat)
    (hfuel : S.levels < fuel) :
    ScapegoatSearch fuel t key
      = some (S.keys.find? (fun a => decide (t.comparator key a = 0))) := by
  unfold ScapegoatSearch
  rw [hinv.root_eq]
  exact SearchTreeRecursive_of_Rep t htot key S none fuel hinv.rep hinv.asc hfuel

/-- In an ascending key list, a lookup with a listed key finds that very key. -/
theorem find?_self_of_Ascending {cmp : K → K → Int} (htot : TotalOrder cmp) (key : K) :
    ∀ (l : List K), Ascending cmp l → key ∈ l →
      l.find? (fun a => decide (cmp key a = 0)) = some key := by
  intro l
  induction l with
  | nil => intro _ h; simp at h
  | cons a rest ih =>
    intro hasc hmem
    simp only [Ascending, List.pairwise_cons] at hasc
    obtain ⟨ha, hrest⟩ := hasc
    simp only [List.mem_cons] at hmem
    rcases hmem with rfl | hmem
    · simp [htot.refl]
    · have h1 := ha key hmem
      have h2 := htot.antisymm a key
      have h3 : ¬ cmp key a = 0 := by omega
      simp only [List.find?_cons, h3, decide_False]
      exact ih hrest hmem

theorem mem_insertKey_of_forall_ne {cmp : K → K → Int} (new : Nat × K) :
    ∀ (l : List (Nat × K)), (∀ a ∈ l, cmp new.2 a.2 ≠ 0) → new ∈ insertKey cmp new l := by
  intro l
  induction l with
  | nil => intro _; simp [insertKey]
  | cons a rest ih =>
    intro h
    have ha := h a (by simp)
    simp only [insertKey, ha, if_false]
    split
    · simp
    · simp [ih (fun x hx => h x (by simp [hx]))]

/-- Inserting a key that compares equal to a stored key returns `1` and leaves
the whole tree state as it was. -/
theorem ScapegoatInsert_dup {t : ScapegoatTree K} {S : Shape K}
    (htot : TotalOrder t.comparator) (hinv : Inv t S) (key stored : K)
    (hstored : stored ∈ S.keys) (heq : t.comparator key stored = 0) (fuel : Nat)
    (hfuel : S.levels < fuel) (nok cok : Bool) :
    ScapegoatInsert fuel t key nok cok = some (1, t) := by
  have hSne : S ≠ Shape.nil := by rintro rfl; simp at hstored
  obtain ⟨P, hSroot⟩ : ∃ P, S.root = some P := by
    cases S with
    | nil => exact absurd rfl hSne
    | node l p k r => exact ⟨p, rfl⟩
  have hroot : t.root = some P := by rw [hinv.root_eq, hSroot]
  obtain ⟨hplug, hb, ha, hasc', hstop⟩ :=
    descend_spec htot key S [] hinv.asc (by simp [ctxBefore]) (by simp [ctxAfter])
  obtain ⟨l, p, k, r, hd2, hreason⟩ := hstop hSne
  generalize hd1 : (descend t.comparator key [] S).1 = c at hplug hb ha
  rw [hd2] at hplug hasc'
  have hplug' : plug c (Shape.node l p k r) = S := hplug
  have hfind : FindClosestNode fuel t (some P) key = some (some p) := by
    have := FindClosestNode_of_Rep t key S [] none fuel hinv.rep hfuel
    rw [hSroot, hd2] at this
    exact this
  have hinvp : Inv t (plug c (Shape.node l p k r)) := by rw [hplug']; exact hinv
  obtain ⟨hctx, hreps⟩ := (Rep_plug _ _ _).mp hinvp.rep
  have hp := hreps.1
  obtain ⟨-, -, hlk, hkr⟩ := Ascending_node hasc'
  have hz : t.comparator key k = 0 := by
    by_contra hz
    -- no stored key can then compare equal to `key`
    have hkeys : S.keys = (ctxBefore c).map Prod.snd ++ (l.keys ++ k :: r.keys)
        ++ (ctxAfter c).map Prod.snd := by
      rw [← hplug', Shape.keys, plug_toList]; simp [Shape.keys]
    rw [hkeys] at hstored
    simp only [List.mem_append, List.mem_map, List.mem_cons] at hstored
    have hlt_ne : ∀ x, t.comparator x key < 0 → t.comparator key x ≠ 0 := by
      intro x hx
      have := htot.antisymm x key
      omega
    rcases hstored with (⟨b, hb', rfl⟩ | hmid) | ⟨a, ha', rfl⟩
    · exact hlt_ne _ (hb b hb') heq
    · rcases hreason with h | ⟨hlt, hl⟩ | ⟨hgt, hr⟩
      · exact hz h
      · subst hl
        rcases hmid with hmid | rfl | hmid
        · simp at hmid
        · omega
        · have := htot.lt_trans hlt (hkr _ hmid)
          omega
      · subst hr
        have hkk : t.comparator k key < 0 := (htot.antisymm k key).mpr hgt
        rcases hmid with hmid | rfl | hmid
        · exact hlt_ne _ (htot.lt_trans (hlk _ hmid) hkk) heq
        · omega
        · simp at hmid
    · have := ha a ha'
      omega
  simp [ScapegoatInsert, hroot, hfind, hp, hz]


theorem firstComparator_total : TotalOrder firstComparator where
  antisymm := fun a b => IntComparator_total.antisymm a.1 b.1
  trans := fun a b c => IntComparator_total.trans a.1 b.1 c.1

theorem tree5_inv : Inv tree5 (Shape.node Shape.nil 0 5 Shape.nil) where
  root_eq := rfl
  rep := ⟨rfl, trivial, trivial⟩
  nodup := by decide
  asc := by simp [Ascending]
  size_le := by decide
  cache_some := by intro c h; cases h
  cache_none := fun _ => rfl

theorem chain3_inv : Inv chain3 chain3Shape where
  root_eq := rfl
  rep := ⟨rfl, trivial, rfl, trivial, rfl, trivial, trivial⟩
  nodup := by decide
  asc := by
    simp only [Ascending, chain3Shape, Shape.keys_node, Shape.keys_nil, List.nil_append]
    decide
  size_le := by decide
  cache_some := by intro c h; cases h
  cache_none := fun _ => rfl

/-! ### The claims -/

/-- C1 (BST ordering).  For every comparator that is a total order and every
finite sequence of `ScapegoatInsert` calls on a tree made by
`CreateScapegoatTree` (whatever the allocation outcomes of the calls, rebuilds
included), every call returns, and the resulting tree holds a shape `S` whose
in-order walk `TraverseNodesInOrder` lists the stored keys `S.keys` in strictly
ascending comparator order; in `S` every node's left subtree holds only smaller
keys and its right subtree only larger keys. -/
theorem C1_bst_ordering (cmp : K → K → Int) (htot : TotalOrder cmp)
    (ops : List (K × Bool × Bool)) (fuel : Nat) (hfuel : 2 * ops.length + 4 ≤ fuel) :
    ∃ t0 rets t S, CreateScapegoatTree cmp true = some t0 ∧
      insertMany fuel t0 ops = some (rets, t) ∧
      t.root = S.root ∧ Rep t.nodes none S ∧
      inorderKeys fuel t = some S.keys ∧ Ascending cmp S.keys ∧ S.Ordered cmp := by
  obtain ⟨t0, h0, hinv0, hc0, -, -⟩ := CreateScapegoatTree_inv cmp
  obtain ⟨rets, t, S, hrun, hinv, hc, hsz, -⟩ :=
    insertMany_spec ops t0 Shape.nil fuel (by rw [hc0]; exact htot) hinv0
      (by simp only [Shape.size_nil]; omega)
  have hasc : Ascending cmp S.keys := by
    have := hinv.asc
    rwa [hc, hc0] at this
  refine ⟨t0, rets, t, S, h0, hrun, hinv.root_eq, hinv.rep, ?_, hasc,
    Ordered_of_Ascending htot S hasc⟩
  apply inorderKeys_of_Inv hinv
  have := S.levels_le_size
  simp only [Shape.size_nil] at hsz
  omega

/-- Witness of C1: the keys `0, 1, 2, 3` inserted in order (the fourth insert
rebuilds the tree at the root). -/
theorem C1_bst_ordering_witness :
    TotalOrder IntComparator ∧ 2 * (allOk [(0 : Int), 1, 2, 3]).length + 4 ≤ 12 ∧
    ∃ t0 rets t S, CreateScapegoatTree IntComparator true = some t0 ∧
      insertMany 12 t0 (allOk [(0 : Int), 1, 2, 3]) = some (rets, t) ∧
      t.root = S.root ∧ Rep t.nodes none S ∧
      inorderKeys 12 t = some S.keys ∧ Ascending IntComparator S.keys ∧
      S.Ordered IntComparator :=
  ⟨IntComparator_total, by decide,
    C1_bst_ordering IntComparator IntComparator_total (allOk [(0 : Int), 1, 2, 3]) 12
      (by decide)⟩


/-- After a run of insertions on a new tree in which every call returned `1`,
a search returns the first key of the run that compares equal to the one
searched for, and `NULL` if there is none. -/
theorem ScapegoatSearch_insertMany (cmp : K → K → Int) (htot : TotalOrder cmp)
    (ops : List (K × Bool × Bool)) (fuel : Nat) (hfuel : 2 * ops.length + 4 ≤ fuel) :
    ∃ t0 rets t, CreateScapegoatTree cmp true = some t0 ∧
      insertMany fuel t0 ops = some (rets, t) ∧
      ((∀ op ∈ ops, op.2.1 = true ∧ op.2.2 = true) → ∀ r ∈ rets, r = 1) ∧
      ((∀ r ∈ rets, r = 1) → ∀ key, ScapegoatSearch fuel t key
        = some ((ops.map (fun op => op.1)).find? (fun a => decide (cmp key a = 0)))) := by
  obtain ⟨t0, h0, hinv0, hc0, -, -⟩ := CreateScapegoatTree_inv cmp
  obtain ⟨rets, t, S, hrun, hinv, hc, hsz, -, hfind, -, hok, -⟩ :=
    insertMany_spec ops t0 Shape.nil fuel (by rw [hc0]; exact htot) hinv0
      (by simp only [Shape.size_nil]; omega)
  refine ⟨t0, rets, t, h0, hrun, hok, ?_⟩
  intro hall key
  have hlev : S.levels < fuel := by
    have := S.levels_le_size
    simp only [Shape.size_nil] at hsz
    omega
  rw [ScapegoatSearch_of_Inv (by rw [hc, hc0]; exact htot) hinv key fuel hlev, hc, hc0]
  have := hfind hall key
  rw [hc0] at this
  rw [this]
  simp

/-- C2 (search completeness).  For every total-order comparator and every
sequence of `ScapegoatInsert` calls on a new tree that all returned `1`,
`ScapegoatSearch(tree, k)` returns a stored key that compares equal to `k` (one of
the inserted keys) for every `k` that was inserted, and returns `NULL` for every
`k` that compares unequal to all inserted keys. -/
theorem C2_search_completeness (cmp : K → K → Int) (htot : TotalOrder cmp)
    (ops : List (K × Bool × Bool)) (fuel : Nat) (hfuel : 2 * ops.length + 4 ≤ fuel) :
    ∃ t0 rets t, CreateScapegoatTree cmp true = some t0 ∧
      insertMany fuel t0 ops = some (rets, t) ∧
      ((∀ r ∈ rets, r = 1) →
        (∀ k ∈ ops.map (fun op => op.1), ∃ stored ∈ ops.map (fun op => op.1),
          ScapegoatSearch fuel t k = some (some stored) ∧ cmp k stored = 0) ∧
        (∀ k, (∀ k' ∈ ops.map (fun op => op.1), cmp k k' ≠ 0) →
          ScapegoatSearch fuel t k = some none)) := by
  obtain ⟨t0, rets, t, h0, hrun, -, hsearch⟩ :=
    ScapegoatSearch_insertMany cmp htot ops fuel hfuel
  refine ⟨t0, rets, t, h0, hrun, fun hall => ⟨?_, ?_⟩⟩
  · intro k hk
    rw [hsearch hall k]
    cases hf : (ops.map (fun op => op.1)).find? (fun a => decide (cmp k a = 0)) with
    | none =>
      rw [List.find?_eq_none] at hf
      have := hf k hk
      simp [htot.refl] at this
    | some stored =>
      refine ⟨stored, List.mem_of_find?_eq_some hf, rfl, ?_⟩
      simpa using List.find?_some hf
  · intro k hk
    rw [hsearch hall k]
    congr 1
    apply find?_eq_none_of_forall
    intro a ha
    simp [hk a ha]

/-- Witness of C2: the keys `0, 1, 2, 3` inserted in order with every allocation
succeeding; all four calls return `1`, so each inserted key is found and the
absent key `7` is not. -/
theorem C2_search_completeness_witness :
    ∃ t0 t, CreateScapegoatTree IntComparator true = some t0 ∧
      insertMany 12 t0 (allOk [(0 : Int), 1, 2, 3]) = some ([1, 1, 1, 1], t) ∧
      (∀ k ∈ [(0 : Int), 1, 2, 3], ∃ stored ∈ [(0 : Int), 1, 2, 3],
          ScapegoatSearch 12 t k = some (some stored) ∧ IntComparator k stored = 0) ∧
      ScapegoatSearch 12 t 7 = some none := by
  obtain ⟨t0, rets, t, h0, hrun, hsearch⟩ :=
    C2_search_completeness IntComparator IntComparator_total (allOk [(0 : Int), 1, 2, 3]) 12
      (by decide)
  have e0 : t0 = emptyTree := by
    have : CreateScapegoatTree IntComparator true = some emptyTree := rfl
    rw [this] at h0
    exact (Option.some.inj h0).symm
  subst e0
  have hrets : rets = [1, 1, 1, 1] := by
    have h1 : (insertMany 12 emptyTree (allOk [(0 : Int), 1, 2, 3])).map Prod.fst
        = some [1, 1, 1, 1] := by decide
    rw [hrun] at h1
    exact Option.some.inj h1
  subst hrets
  obtain ⟨hfound, habsent⟩ := hsearch (by decide)
  exact ⟨emptyTree, t, rfl, hrun, hfound, habsent 7 (by decide)⟩


/-- C3 (no duplicates).  For every well-formed non-empty tree and every key
that compares equal to a key already stored, `ScapegoatInsert` returns `1` and
is a no-op: the whole tree state (`tree_size`, the root, every node and every
link, the scratch buffer) is returned unchanged, whatever the allocator would
have answered; so no second node with an equivalent key is created. -/
theorem C3_duplicate_insert_is_noop {t : ScapegoatTree K} {S : Shape K}
    (htot : TotalOrder t.comparator) (hinv : Inv t S) (key stored : K)
    (hstored : stored ∈ S.keys) (heq : t.comparator key stored = 0) (fuel : Nat)
    (hfuel : S.levels < fuel) (node_alloc_ok cache_alloc_ok : Bool) :
    ScapegoatInsert fuel t key node_alloc_ok cache_alloc_ok = some (1, t) :=
  ScapegoatInsert_dup htot hinv key stored hstored heq fuel hfuel node_alloc_ok cache_alloc_ok

/-- Witness of C3: inserting `5` into the tree that holds `5`; and the run
`5, 5, 5` from the empty tree ends in that one-node tree with `tree_size = 1`. -/
theorem C3_duplicate_insert_is_noop_witness :
    TotalOrder tree5.comparator ∧ Inv tree5 (Shape.node Shape.nil 0 5 Shape.nil) ∧
    (5 : Int) ∈ (Shape.node Shape.nil 0 (5 : Int) Shape.nil).keys ∧
    tree5.comparator 5 5 = 0 ∧
    (Shape.node Shape.nil 0 (5 : Int) Shape.nil).levels < 2 ∧
    ScapegoatInsert 2 tree5 5 true true = some (1, tree5) ∧
    insertMany 4 emptyTree (allOk [(5 : Int), 5, 5]) = some ([1, 1, 1], tree5) ∧
    tree5.tree_size = 1 ∧ tree5.nodes.length = 1 :=
  ⟨IntComparator_total, tree5_inv, by simp, by decide, by decide,
    C3_duplicate_insert_is_noop IntComparator_total tree5_inv 5 5 (by simp) (by decide) 2
      (by decide) true true,
    rfl, rfl, rfl⟩

/-- C4 (count accuracy), failing input.  On the one-node tree `tree5`, a call
`ScapegoatInsert(tree, 7)` whose node allocation fails returns `0` and leaves
`tree_size = 2` although only one node is reachable from the root
(`GetTreeSize(root) = 1`): the count is incremented before the allocation. -/
theorem C4_count_after_failed_allocation :
    ∃ t', ScapegoatInsert 4 tree5 7 false true = some (0, t') ∧
      t'.tree_size = 2 ∧ GetTreeSize 4 t'.nodes t'.root = some 1 ∧
      t'.nodes = tree5.nodes ∧ t'.root = tree5.root :=
  ⟨_, rfl, rfl, rfl, rfl, rfl⟩

/-! ### Balance after an insert -/

theorem Shape.BalancedTowards_of_not_mem (x : Nat) (s : Shape K) (h : x ∉ s.ptrs) :
    s.BalancedTowards x := by
  induction s with
  | nil => trivial
  | node l p k r ihl ihr =>
    simp only [Shape.ptrs_node, List.mem_append, List.mem_cons, not_or] at h
    exact ⟨fun hx => by simp [h] at hx, ihl h.1, ihr h.2.2⟩

theorem Shape.BalancedTowards_of_Balanced (x : Nat) (s : Shape K) (h : s.Balanced) :
    s.BalancedTowards x := by
  induction s with
  | nil => trivial
  | node l p k r ihl ihr => exact ⟨fun _ => h.1, ihl h.2.1, ihr h.2.2⟩

theorem buildShape_Balanced : ∀ (fuel : Nat) (l : List (Nat × K)), l.length ≤ fuel →
    l.length < 2 ^ 32 → (buildShape fuel l).Balanced := by
  intro fuel
  induction fuel with
  | zero => intro l _ _; simp [buildShape, Shape.Balanced]
  | succ f ih =>
    intro l hl hb
    cases hm : l[l.length / 2]? with
    | none => simp [buildShape, hm, Shape.Balanced]
    | some pk =>
      have hlt : l.length / 2 < l.length := (List.getElem?_eq_some.mp hm).1
      simp only [buildShape, hm]
      have h1 : (l.take (l.length / 2)).length ≤ f := by simp; omega
      have h2 : (l.drop (l.length / 2 + 1)).length ≤ f := by simp; omega
      have b1 : (l.take (l.length / 2)).length < 2 ^ 32 :=
        Nat.lt_of_le_of_lt (by simp) hb
      have b2 : (l.drop (l.length / 2 + 1)).length < 2 ^ 32 :=
        Nat.lt_of_le_of_lt (by simp) hb
      refine ⟨?_, ih _ h1 b1, ih _ h2 b2⟩
      have s1 : (buildShape f (l.take (l.length / 2))).size = l.length / 2 := by
        rw [← Shape.length_toList, buildShape_toList _ _ h1]; simp; omega
      have s2 : (buildShape f (l.drop (l.length / 2 + 1))).size
          = l.length - (l.length / 2 + 1) := by
        rw [← Shape.length_toList, buildShape_toList _ _ h2]; simp
      rw [s1, s2]
      apply IsUnbalanced_eq_zero_of_half
      · omega
      · omega
      · exact Nat.lt_of_le_of_lt (by omega) hb

/-- Every node of a rebuilt subtree passes the balance test (the number of nodes
being below `2^32`). -/
theorem balanced_Balanced (l : List (Nat × K)) (hb : l.length < 2 ^ 32) :
    (balanced l).Balanced :=
  buildShape_Balanced _ _ (Nat.le_refl _) hb

/-- What the upward walk does: either no node on the path fails the balance
test and the tree is returned as it is, or the subtree at the first failing
node is replaced by the balanced shape on the same nodes. -/
theorem walk_cases (x : Nat) : ∀ (c : List (Frame K)) (l : Shape K) (p : Nat) (k : K)
    (r : Shape K), x ∈ (Shape.node l p k r).ptrs → (plug c (Shape.node l p k r)).ptrs.Nodup →
    (Shape.node l p k r).BalancedBelowRoot x →
    (walk c (Shape.node l p k r) l.size r.size = plug c (Shape.node l p k r) ∧
      (plug c (Shape.node l p k r)).BalancedTowards x) ∨
    (∃ c1 c2, c = c1 ++ c2 ∧
      walk c (Shape.node l p k r) l.size r.size
        = plug c2 (balanced (plug c1 (Shape.node l p k r)).toList) ∧
      (plug c1 (Shape.node l p k r)).rootUnbalanced ∧
      (plug c1 (Shape.node l p k r)).BalancedBelowRoot x ∧
      x ∈ (plug c1 (Shape.node l p k r)).ptrs) := by
  intro c
  induction c with
  | nil =>
    intro l p k r hx hnd hbelow
    by_cases hu : IsUnbalanced l.size r.size ≠ 0
    · exact Or.inr ⟨[], [], rfl, walk_unbalanced _ _ _ _ hu, hu, hbelow, hx⟩
    · refine Or.inl ⟨walk_nil _ _ _ hu, ?_⟩
      exact ⟨fun _ => by simpa using hu, hbelow.1, hbelow.2⟩
  | cons f c ih =>
    intro l p k r hx hnd hbelow
    by_cases hu : IsUnbalanced l.size r.size ≠ 0
    · exact Or.inr ⟨[], f :: c, rfl, walk_unbalanced _ _ _ _ hu, hu, hbelow, hx⟩
    · have hroot0 : IsUnbalanced l.size r.size = 0 := by simpa using hu
      have hsz : l.size + r.size + 1 = (Shape.node l p k r).size := by simp; omega
      obtain ⟨-, hndc, hdisj⟩ := plug_nodup hnd
      have hxc : x ∉ ctxPtrs (f :: c) := hdisj x hx
      have hself : (Shape.node l p k r).BalancedTowards x :=
        ⟨fun _ => hroot0, hbelow.1, hbelow.2⟩
      cases f with
      | left q kq sib =>
        have hxs : x ∉ sib.ptrs := fun h =>
          hxc ((mem_ctxPtrs_left _ _ _ _ _).mpr (Or.inr (Or.inl h)))
        rw [walk_left _ _ _ _ _ _ _ hu, hsz]
        rcases ih (Shape.node l p k r) q kq sib
            (by rw [Shape.ptrs_node]; exact List.mem_append_left _ hx) hnd
            ⟨hself, Shape.BalancedTowards_of_not_mem x sib hxs⟩ with h | ⟨c1, c2, e, h1, h2, h3, h4⟩
        · exact Or.inl h
        · exact Or.inr ⟨Frame.left q kq sib :: c1, c2, by rw [e]; rfl, h1, h2, h3, h4⟩
      | right q kq sib =>
        have hxs : x ∉ sib.ptrs := fun h =>
          hxc ((mem_ctxPtrs_right _ _ _ _ _).mpr (Or.inr (Or.inl h)))
        rw [walk_right _ _ _ _ _ _ _ hu, hsz]
        rcases ih sib q kq (Shape.node l p k r)
            (by rw [Shape.ptrs_node]; exact List.mem_append_right _ (List.mem_cons_of_mem _ hx)) hnd
            ⟨Shape.BalancedTowards_of_not_mem x sib hxs, hself⟩ with h | ⟨c1, c2, e, h1, h2, h3, h4⟩
        · exact Or.inl h
        · exact Or.inr ⟨Frame.right q kq sib :: c1, c2, by rw [e]; rfl, h1, h2, h3, h4⟩

theorem plug_append (c1 c2 : List (Frame K)) (s : Shape K) :
    plug (c1 ++ c2) s = plug c2 (plug c1 s) := by
  induction c1 generalizing s with
  | nil => rfl
  | cons f c1 ih => exact ih (f.fill s)

theorem mem_plug_ptrs {x : Nat} (c : List (Frame K)) {s : Shape K} (h : x ∈ s.ptrs) :
    x ∈ (plug c s).ptrs := by
  simp only [Shape.ptrs, plug_toList, List.map_append, List.mem_append]
  exact Or.inl (Or.inr h)

/-- The linked shape of a well-formed tree has no address twice. -/
theorem linkShape_nodup {t : ScapegoatTree K} {S : Shape K}
    (htot : TotalOrder t.comparator) (hinv : Inv t S) (key : K) :
    (linkShape t.comparator S key t.nodes.length).ptrs.Nodup := by
  cases S with
  | nil => simp [linkShape, descend]
  | node L P KP R =>
    generalize hS : Shape.node L P KP R = S at hinv ⊢
    have hSne : S ≠ Shape.nil := by rw [← hS]; simp
    obtain ⟨hplug, hb, ha, -, hstop⟩ :=
      descend_spec htot key S [] hinv.asc (by simp [ctxBefore]) (by simp [ctxAfter])
    obtain ⟨l, p, k, r, hd2, hreason⟩ := hstop hSne
    generalize hd1 : (descend t.comparator key [] S).1 = c at hplug hb ha
    rw [hd2] at hplug
    have hdesc : descend t.comparator key [] S = (c, Shape.node l p k r) := Prod.ext hd1 hd2
    have hplug' : plug c (Shape.node l p k r) = S := hplug
    have hinvp : Inv t (plug c (Shape.node l p k r)) := by rw [hplug']; exact hinv
    by_cases hz : t.comparator key k = 0
    · have e : linkShape t.comparator S key t.nodes.length = S := by
        simp [linkShape, hdesc, hz]
      rw [e]; exact hinv.nodup
    · by_cases hlt : t.comparator key k < 0
      · have hl : l = Shape.nil := by
          rcases hreason with h | h | h
          · exact absurd h hz
          · exact h.2
          · omega
        subst hl
        obtain ⟨nodes2, nodes3, -, -, hinv3⟩ := Inv_link_left htot hinvp hb hlt ha
        have e : linkShape t.comparator S key t.nodes.length
            = plug (Frame.left p k r :: c) (Shape.node Shape.nil t.nodes.length key Shape.nil) := by
          simp [linkShape, hdesc, hz, hlt]
        rw [e]; exact hinv3.nodup
      · have hr : r = Shape.nil := by
          rcases hreason with h | h | h
          · exact absurd h hz
          · exact absurd h.1 hlt
          · exact h.2
        subst hr
        have hgt : t.comparator k key < 0 := by
          have := htot.antisymm k key
          have h2 := htot.antisymm key k
          omega
        obtain ⟨nodes2, nodes3, -, -, hinv3⟩ := Inv_link_right htot hinvp hb hgt ha
        have e : linkShape t.comparator S key t.nodes.length
            = plug (Frame.right p k l :: c) (Shape.node Shape.nil t.nodes.length key Shape.nil) := by
          simp [linkShape, hdesc, hz, hlt]
        rw [e]; exact hinv3.nodup

/-- What a successful insertion does to the shape, in terms of the balance test. -/
theorem insertShape_cases (cmp : K → K → Int) (S : Shape K) (key : K) (x : Nat)
    (hnd : (linkShape cmp S key x).ptrs.Nodup)
    (hsz : (linkShape cmp S key x).size < 2 ^ 32) :
    (insertShape cmp S key x = S ∧ linkShape cmp S key x = S) ∨
    (insertShape cmp S key x = linkShape cmp S key x ∧
      x ∈ (linkShape cmp S key x).ptrs ∧ (linkShape cmp S key x).BalancedTowards x) ∨
    (∃ c U, linkShape cmp S key x = plug c U ∧
      insertShape cmp S key x = plug c (balanced U.toList) ∧
      x ∈ U.ptrs ∧ U.rootUnbalanced ∧ U.BalancedBelowRoot x ∧
      (balanced U.toList).Balanced) := by
  have hleaf : x ∈ (Shape.node Shape.nil x key Shape.nil).ptrs := by simp
  have hbelow : (Shape.node Shape.nil x key Shape.nil).BalancedBelowRoot x := ⟨trivial, trivial⟩
  have key_step : ∀ c : List (Frame K),
      (plug c (Shape.node Shape.nil x key Shape.nil)).ptrs.Nodup →
      (plug c (Shape.node Shape.nil x key Shape.nil)).size < 2 ^ 32 →
      (walk c (Shape.node Shape.nil x key Shape.nil) 0 0
          = plug c (Shape.node Shape.nil x key Shape.nil) ∧
        x ∈ (plug c (Shape.node Shape.nil x key Shape.nil)).ptrs ∧
        (plug c (Shape.node Shape.nil x key Shape.nil)).BalancedTowards x) ∨
      (∃ c' U, plug c (Shape.node Shape.nil x key Shape.nil) = plug c' U ∧
        walk c (Shape.node Shape.nil x key Shape.nil) 0 0 = plug c' (balanced U.toList) ∧
        x ∈ U.ptrs ∧ U.rootUnbalanced ∧ U.BalancedBelowRoot x ∧
        (balanced U.toList).Balanced) := by
    intro c hc hcs
    rcases walk_cases x c Shape.nil x key Shape.nil hleaf hc hbelow with
      ⟨h1, h2⟩ | ⟨c1, c2, e, h1, h2, h3, h4⟩
    · exact Or.inl ⟨h1, mem_plug_ptrs c hleaf, h2⟩
    · refine Or.inr ⟨c2, plug c1 (Shape.node Shape.nil x key Shape.nil),
        by rw [e, plug_append], h1, h4, h2, h3, balanced_Balanced _ ?_⟩
      rw [e, plug_append, plug_size] at hcs
      rw [Shape.length_toList]
      exact Nat.lt_of_le_of_lt (Nat.le_add_left _ _) hcs
  cases hd : descend cmp key [] S with
  | mk c s =>
    cases s with
    | nil =>
      have e1 : linkShape cmp S key x = Shape.node Shape.nil x key Shape.nil := by
        simp [linkShape, hd]
      have e2 : insertShape cmp S key x = Shape.node Shape.nil x key Shape.nil := by
        simp [insertShape, hd]
      rw [e1, e2]
      rw [e1] at hnd hsz
      exact Or.inr (key_step [] hnd hsz)
    | node l p k r =>
      by_cases hz : cmp key k = 0
      · exact Or.inl ⟨by simp [insertShape, hd, hz], by simp [linkShape, hd, hz]⟩
      · by_cases hlt : cmp key k < 0
        · have e1 : linkShape cmp S key x
              = plug (Frame.left p k r :: c) (Shape.node Shape.nil x key Shape.nil) := by
            simp [linkShape, hd, hz, hlt]
          have e2 : insertShape cmp S key x
              = walk (Frame.left p k r :: c) (Shape.node Shape.nil x key Shape.nil) 0 0 := by
            simp [insertShape, hd, hz, hlt]
          rw [e1, e2]
          rw [e1] at hnd hsz
          exact Or.inr (key_step _ hnd hsz)
        · have e1 : linkShape cmp S key x
              = plug (Frame.right p k l :: c) (Shape.node Shape.nil x key Shape.nil) := by
            simp [linkShape, hd, hz, hlt]
          have e2 : insertShape cmp S key x
              = walk (Frame.right p k l :: c) (Shape.node Shape.nil x key Shape.nil) 0 0 := by
            simp [insertShape, hd, hz, hlt]
          rw [e1, e2]
          rw [e1] at hnd hsz
          exact Or.inr (key_step _ hnd hsz)

/-- Linking a new leaf adds at most one node. -/
theorem linkShape_size_le {cmp : K → K → Int} (htot : TotalOrder cmp) (S : Shape K)
    (hasc : Ascending cmp S.keys) (key : K) (x : Nat) :
    (linkShape cmp S key x).size ≤ S.size + 1 := by
  obtain ⟨hplug, -, -, -, -⟩ :=
    descend_spec htot key S [] hasc (by simp [ctxBefore]) (by simp [ctxAfter])
  have hplug' : plug (descend cmp key [] S).1 (descend cmp key [] S).2 = S := hplug
  cases hd : descend cmp key [] S with
  | mk c s =>
    rw [hd] at hplug'
    simp only at hplug'
    cases s with
    | nil =>
      have e1 : linkShape cmp S key x = Shape.node Shape.nil x key Shape.nil := by
        simp [linkShape, hd]
      rw [e1]; simp
    | node l p k r =>
      have hS := congrArg Shape.size hplug'
      rw [plug_size] at hS
      by_cases hz : cmp key k = 0
      · have e1 : linkShape cmp S key x = S := by simp [linkShape, hd, hz]
        rw [e1]; omega
      · by_cases hlt : cmp key k < 0
        · have e1 : linkShape cmp S key x
              = plug (Frame.left p k r :: c) (Shape.node Shape.nil x key Shape.nil) := by
            simp [linkShape, hd, hz, hlt]
          rw [e1]
          show (plug c (Shape.node (Shape.node Shape.nil x key Shape.nil) p k r)).size ≤ _
          rw [plug_size]
          simp only [Shape.size_node, Shape.size_nil] at hS ⊢
          omega
        · have e1 : linkShape cmp S key x
              = plug (Frame.right p k l :: c) (Shape.node Shape.nil x key Shape.nil) := by
            simp [linkShape, hd, hz, hlt]
          rw [e1]
          show (plug c (Shape.node l p k (Shape.node Shape.nil x key Shape.nil))).size ≤ _
          rw [plug_size]
          simp only [Shape.size_node, Shape.size_nil] at hS ⊢
          omega

/-- C5 (counterexample).  Eleven successful inserts after which the root (key
`12`, address `2`) has a left subtree of 2 nodes and a right subtree of 8 nodes:
`IsUnbalanced(2, 8)` is `1`, as `8 / 11 > 7 / 10`.  The last insert rebuilt the
subtree at the first unbalanced ancestor of the new node only. -/
theorem C5_balance_bound_counterexample :
    ∃ t n, insertMany 26 emptyTree
        (allOk [(4 : Int), 16, 12, 8, 27, 24, 47, 56, 25, 54, 59])
        = some ([1, 1, 1, 1, 1, 1, 1, 1, 1, 1, 1], t) ∧
      t.root = some 2 ∧ readNode t.nodes 2 = some n ∧
      GetTreeSize 26 t.nodes n.left = some 2 ∧
      GetTreeSize 26 t.nodes n.right = some 8 ∧
      IsUnbalanced 2 8 = 1 ∧ ¬ (10 * max 2 8 ≤ 7 * (2 + 8 + 1)) :=
  ⟨_, _, rfl, rfl, rfl, rfl, rfl, rfl, by decide⟩

/-- C5 (amended: balance after an insert).  On a well-formed tree whose node
count plus one fits an `int`, after a `ScapegoatInsert` that returns `1` the tree
is well formed and one of three things holds, where the linked shape is the plain
binary-search-tree insertion of the key as a new leaf: the key was already stored
and the shape is unchanged; or the shape is the linked shape and every node on
the path from the root to the new node passes `IsUnbalanced`; or the linked shape
has a subtree `U` containing the new node whose root fails `IsUnbalanced` while
every node below it on the path to the new node passes, and the tree is the
linked shape with `U` replaced by the rebuilt subtree, every node of which passes
`IsUnbalanced`.  Nodes above the rebuilt subtree are not tested.  As long as the
`int` sum `L + R + 1` does not overflow (`L + R + 1 ≤ INT_MAX = 2^31 - 1`),
`IsUnbalanced(L, R) = 0` is the bound `max(L, R) / (L + R + 1) ≤ 7/10`; when the
sum of two `int` sizes overflows, `IsUnbalanced` returns `0` whatever the sizes
are. -/
theorem C5_balance_after_insert {t t' : ScapegoatTree K} {S : Shape K}
    (htot : TotalOrder t.comparator) (hinv : Inv t S) (hint : S.size + 1 < 2 ^ 31)
    (key : K) (fuel : Nat)
    (hfuel : 2 * S.size + 4 ≤ fuel) (node_alloc_ok cache_alloc_ok : Bool)
    (hrun : ScapegoatInsert fuel t key node_alloc_ok cache_alloc_ok = some (1, t')) :
    (∃ S', Inv t' S' ∧
      ((S' = S ∧ linkShape t.comparator S key t.nodes.length = S) ∨
       (S' = linkShape t.comparator S key t.nodes.length ∧
         t.nodes.length ∈ S'.ptrs ∧ S'.BalancedTowards t.nodes.length) ∨
       (∃ c U, linkShape t.comparator S key t.nodes.length = plug c U ∧
         S' = plug c (balanced U.toList) ∧ t.nodes.length ∈ U.ptrs ∧ U.rootUnbalanced ∧
         U.BalancedBelowRoot t.nodes.length ∧ (balanced U.toList).Balanced))) ∧
    (∀ L R : Nat, L + R + 1 < 2 ^ 31 →
      (IsUnbalanced L R = 0 ↔ 10 * max L R ≤ 7 * (L + R + 1))) ∧
    (∀ L R : Nat, L < 2 ^ 31 → R < 2 ^ 31 → 2 ^ 31 ≤ L + R + 1 → IsUnbalanced L R = 0) := by
  obtain ⟨ret, t1, S1, h1, hinv1, -, -, hshape, -, -, -, -⟩ :=
    ScapegoatInsert_spec htot hinv key fuel hfuel node_alloc_ok cache_alloc_ok
  rw [hrun] at h1
  have e := Option.some.inj h1
  have e1 : 1 = ret := congrArg Prod.fst e
  have e2 : t' = t1 := congrArg Prod.snd e
  subst e1
  subst e2
  have hS1 := hshape rfl
  have hsz : (linkShape t.comparator S key t.nodes.length).size < 2 ^ 32 := by
    have h1 := linkShape_size_le htot S hinv.asc key t.nodes.length
    have h2 : (2 : Nat) ^ 31 ≤ 2 ^ 32 := Nat.pow_le_pow_right (by norm_num) (by norm_num)
    omega
  refine ⟨⟨S1, hinv1, ?_⟩, IsUnbalanced_iff, ?_⟩
  · rw [hS1]
    rcases insertShape_cases t.comparator S key t.nodes.length (linkShape_nodup htot hinv key)
      hsz with ⟨a, b⟩ | ⟨a, b, c⟩ | ⟨c, U, a, b, d⟩
    · exact Or.inl ⟨a, b⟩
    · exact Or.inr (Or.inl ⟨a, by rw [a]; exact b, by rw [a]; exact c⟩)
    · exact Or.inr (Or.inr ⟨c, U, a, b, d⟩)
  · intro L R hL hR hsum
    refine IsUnbalanced_of_overflow L R hsum ?_
    norm_num at hL hR ⊢
    omega

/-- Witness of C5 (amended): on the chain `0, 1, 2`, inserting `3` with both
allocations succeeding returns `1`. -/
theorem C5_balance_after_insert_witness :
    ∃ t', TotalOrder chain3.comparator ∧ Inv chain3 chain3Shape ∧
      chain3Shape.size + 1 < 2 ^ 31 ∧ 2 * chain3Shape.size + 4 ≤ 10 ∧
      ScapegoatInsert 10 chain3 3 true true = some (1, t') ∧
      ∃ S', Inv t' S' ∧
        ((S' = chain3Shape ∧ linkShape chain3.comparator chain3Shape 3 chain3.nodes.length
            = chain3Shape) ∨
         (S' = linkShape chain3.comparator chain3Shape 3 chain3.nodes.length ∧
           chain3.nodes.length ∈ S'.ptrs ∧ S'.BalancedTowards chain3.nodes.length) ∨
         (∃ c U, linkShape chain3.comparator chain3Shape 3 chain3.nodes.length = plug c U ∧
           S' = plug c (balanced U.toList) ∧ chain3.nodes.length ∈ U.ptrs ∧
           U.rootUnbalanced ∧ U.BalancedBelowRoot chain3.nodes.length ∧
           (balanced U.toList).Balanced)) :=
  ⟨_, IntComparator_total, chain3_inv, by decide, by decide, rfl,
    (C5_balance_after_insert IntComparator_total chain3_inv (by decide) 3 10 (by decide)
      true true rfl).1⟩

/-- C6 (first key wins).  For every total-order comparator and every sequence of
`ScapegoatInsert` calls on a new tree that all returned `1`, `ScapegoatSearch`
with any key returns the first key of the sequence that compares equal to it
(and `NULL` if there is none): among several key references that compare equal,
the one inserted first is stored, and neither a later equal insert nor a
rebuild replaces it.  A run whose allocations all succeed returns `1`
throughout. -/
theorem C6_first_key_wins (cmp : K → K → Int) (htot : TotalOrder cmp)
    (ops : List (K × Bool × Bool)) (fuel : Nat) (hfuel : 2 * ops.length + 4 ≤ fuel) :
    ∃ t0 rets t, CreateScapegoatTree cmp true = some t0 ∧
      insertMany fuel t0 ops = some (rets, t) ∧
      ((∀ op ∈ ops, op.2.1 = true ∧ op.2.2 = true) → ∀ r ∈ rets, r = 1) ∧
      ((∀ r ∈ rets, r = 1) → ∀ key, ScapegoatSearch fuel t key
        = some ((ops.map (fun op => op.1)).find? (fun a => decide (cmp key a = 0)))) :=
  ScapegoatSearch_insertMany cmp htot ops fuel hfuel

/-- Witness of C6: pairs compared on their first component.  `(1, 10)` is inserted
before `(1, 11)` and `(1, 12)`, with a rebuild in between; a search with `(1, 99)`
returns `(1, 10)`. -/
theorem C6_first_key_wins_witness :
    ∃ t0 rets t, CreateScapegoatTree firstComparator true = some t0 ∧
      insertMany 16 t0 (allOk [(1, 10), (1, 11), (2, 20), (3, 30), (4, 40), (1, 12)])
        = some (rets, t) ∧
      ScapegoatSearch 16 t (1, 99) = some (some (1, 10)) := by
  obtain ⟨t0, rets, t, h0, hrun, hok, hsearch⟩ :=
    C6_first_key_wins firstComparator firstComparator_total
      (allOk [(1, 10), (1, 11), (2, 20), (3, 30), (4, 40), (1, 12)]) 16 (by decide)
  refine ⟨t0, rets, t, h0, hrun, ?_⟩
  rw [hsearch (hok (by decide)) (1, 99)]
  decide


/-- A run of insertions on a new tree whose allocations all succeed: every call
returns `1` and the final tree holds the shape computed by the pure model. -/
theorem insertMany_allOk (cmp : K → K → Int) (htot : TotalOrder cmp) (ks : List K)
    (fuel : Nat) (hfuel : 2 * ks.length + 4 ≤ fuel) :
    ∃ t0 t, CreateScapegoatTree cmp true = some t0 ∧
      insertMany fuel t0 (allOk ks) = some (List.replicate ks.length 1, t) ∧
      Inv t (insertShapes cmp Shape.nil ks) ∧ t.comparator = cmp ∧
      t.tree_size = (insertShapes cmp Shape.nil ks).size ∧
      (insertShapes cmp Shape.nil ks).size ≤ ks.length := by
  obtain ⟨t0, h0, hinv0, hc0, hts0, hn0⟩ := CreateScapegoatTree_inv cmp
  obtain ⟨rets, t, S, hrun, hinv, hc, hsz, hlen, -, hshape, hok, hts⟩ :=
    insertMany_spec (allOk ks) t0 Shape.nil fuel (by rw [hc0]; exact htot) hinv0
      (by simp only [Shape.size_nil, allOk, List.length_map]; omega)
  have hall : ∀ op ∈ allOk ks, op.2.1 = true ∧ op.2.2 = true := by
    intro op hop
    simp only [allOk, List.mem_map] at hop
    obtain ⟨k, -, rfl⟩ := hop
    exact ⟨rfl, rfl⟩
  have hones := hok hall
  have hrets : rets = List.replicate ks.length 1 := by
    rw [List.eq_replicate_iff]
    refine ⟨?_, hones⟩
    rw [hlen]; simp [allOk]
  have hS : S = insertShapes cmp Shape.nil ks := by
    have := hshape hones (by rw [hn0]; rfl)
    rw [this, hc0]
    congr 1
    simp only [allOk, List.map_map]
    exact List.map_id _
  subst hS
  refine ⟨t0, t, h0, by rw [hrun, hrets], hinv, by rw [hc, hc0], ?_, ?_⟩
  · exact hts (fun op hop => (hall op hop).1) (by rw [hts0]; rfl)
  · simpa [allOk] using hsz

/-- C7 (scenario A).  Inserting the integer keys `0, 1, ..., 9` in ascending
order into an empty tree (integer comparator, balance factor `0.7`): every
insert returns `1`, all ten keys are found by `ScapegoatSearch`, and the tree
has five levels, that is a height of four edges. -/
theorem C7_scenario_A (fuel : Nat) (hfuel : 24 ≤ fuel) :
    ∃ t, CreateScapegoatTree IntComparator true = some emptyTree ∧
      insertMany fuel emptyTree (allOk [(0 : Int), 1, 2, 3, 4, 5, 6, 7, 8, 9])
        = some ([1, 1, 1, 1, 1, 1, 1, 1, 1, 1], t) ∧
      (∀ k ∈ [(0 : Int), 1, 2, 3, 4, 5, 6, 7, 8, 9],
        ScapegoatSearch fuel t k = some (some k)) ∧
      treeLevels fuel t.nodes t.root = some 5 ∧ 5 - 1 ≤ 4 := by
  obtain ⟨t0, t, h0, hrun, hinv, hc, -, hsz⟩ :=
    insertMany_allOk IntComparator IntComparator_total
      [(0 : Int), 1, 2, 3, 4, 5, 6, 7, 8, 9] fuel (by simpa using hfuel)
  have e0 : t0 = emptyTree := (Option.some.inj h0).symm
  subst e0
  have hlev : (insertShapes IntComparator Shape.nil
      [(0 : Int), 1, 2, 3, 4, 5, 6, 7, 8, 9]).levels = 5 := by decide
  refine ⟨t, rfl, hrun, ?_, ?_, by decide⟩
  · intro k hk
    rw [ScapegoatSearch_of_Inv (by rw [hc]; exact IntComparator_total) hinv k fuel
      (by rw [hlev]; omega), hc]
    congr 1
    revert k
    decide
  · have := treeLevels_of_Rep t.nodes _ none fuel hinv.rep (by rw [hlev]; omega)
    rw [← hinv.root_eq, hlev] at this
    exact this

/-- Witness of C7 with the fuel `24`: the same facts by running the model. -/
theorem C7_scenario_A_witness :
    ∃ t, insertMany 24 emptyTree (allOk [(0 : Int), 1, 2, 3, 4, 5, 6, 7, 8, 9])
        = some ([1, 1, 1, 1, 1, 1, 1, 1, 1, 1], t) ∧
      (∀ k ∈ [(0 : Int), 1, 2, 3, 4, 5, 6, 7, 8, 9],
        ScapegoatSearch 24 t k = some (some k)) ∧
      treeLevels 24 t.nodes t.root = some 5 := by
  obtain ⟨t, -, h1, h2, h3, -⟩ := C7_scenario_A 24 (by decide)
  exact ⟨t, h1, h2, h3⟩


/-! ### Relabelling the keys by a map that respects the comparators -/

section Relabel
variable {K K' : Type} (f : K → K')

@[simp] theorem Shape.size_mapKeys (s : Shape K) : (s.mapKeys f).size = s.size := by
  induction s with
  | nil => rfl
  | node l p k r ihl ihr => simp [Shape.mapKeys, ihl, ihr]

@[simp] theorem Shape.levels_mapKeys (s : Shape K) : (s.mapKeys f).levels = s.levels := by
  induction s with
  | nil => rfl
  | node l p k r ihl ihr => simp [Shape.mapKeys, ihl, ihr]

@[simp] theorem Shape.root_mapKeys (s : Shape K) : (s.mapKeys f).root = s.root := by
  cases s <;> rfl

theorem Shape.toList_mapKeys (s : Shape K) :
    (s.mapKeys f).toList = s.toList.map (fun a => (a.1, f a.2)) := by
  induction s with
  | nil => rfl
  | node l p k r ihl ihr => simp [Shape.mapKeys, ihl, ihr]

theorem buildShape_mapKeys : ∀ (fuel : Nat) (l : List (Nat × K)),
    buildShape fuel (l.map (fun a => (a.1, f a.2))) = (buildShape fuel l).mapKeys f := by
  intro fuel
  induction fuel with
  | zero => intro l; rfl
  | succ n ih =>
    intro l
    simp only [buildShape, List.length_map, List.getElem?_map]
    cases hm : l[l.length / 2]? with
    | none => rfl
    | some pk =>
      simp only [Option.map_some', Shape.mapKeys, ← ih, List.map_take, List.map_drop]

theorem balanced_mapKeys (l : List (Nat × K)) :
    balanced (l.map (fun a => (a.1, f a.2))) = (balanced l).mapKeys f := by
  simp only [balanced, List.length_map, buildShape_mapKeys]

theorem plug_mapKeys : ∀ (c : List (Frame K)) (s : Shape K),
    plug (c.map (Frame.mapKeys f)) (s.mapKeys f) = (plug c s).mapKeys f := by
  intro c
  induction c with
  | nil => intro s; rfl
  | cons fr c ih =>
    intro s
    cases fr with
    | left p k sib => exact ih (Shape.node s p k sib)
    | right p k sib => exact ih (Shape.node sib p k s)

theorem walk_mapKeys : ∀ (c : List (Frame K)) (s : Shape K) (ls rs : Nat),
    walk (c.map (Frame.mapKeys f)) (s.mapKeys f) ls rs = (walk c s ls rs).mapKeys f := by
  intro c
  induction c with
  | nil =>
    intro s ls rs
    by_cases h : IsUnbalanced ls rs ≠ 0
    · rw [walk_unbalanced _ _ _ _ h, walk_unbalanced _ _ _ _ h, Shape.toList_mapKeys,
        balanced_mapKeys, plug_mapKeys]
    · rw [List.map_nil, walk_nil _ _ _ h, walk_nil _ _ _ h]
  | cons fr c ih =>
    intro s ls rs
    by_cases h : IsUnbalanced ls rs ≠ 0
    · rw [walk_unbalanced _ _ _ _ h, walk_unbalanced _ _ _ _ h, Shape.toList_mapKeys,
        balanced_mapKeys, plug_mapKeys]
    · cases fr with
      | left p k sib =>
        rw [walk_left _ _ _ _ _ _ _ h, List.map_cons]
        show walk _ _ ls rs = _
        rw [Frame.mapKeys, walk_left _ _ _ _ _ _ _ h, Shape.size_mapKeys]
        exact ih (Shape.node s p k sib) _ _
      | right p k sib =>
        rw [walk_right _ _ _ _ _ _ _ h, List.map_cons]
        show walk _ _ ls rs = _
        rw [Frame.mapKeys, walk_right _ _ _ _ _ _ _ h, Shape.size_mapKeys]
        exact ih (Shape.node sib p k s) _ _

variable {cmp : K → K → Int} {cmp' : K' → K' → Int}

theorem descend_mapKeys (hf : ∀ a b, cmp' (f a) (f b) = cmp a b) (key : K) (s : Shape K) :
    ∀ (c : List (Frame K)),
      descend cmp' (f key) (c.map (Frame.mapKeys f)) (s.mapKeys f)
        = ((descend cmp key c s).1.map (Frame.mapKeys f), (descend cmp key c s).2.mapKeys f) := by
  induction s with
  | nil => intro c; rfl
  | node l p k r ihl ihr =>
    intro c
    simp only [Shape.mapKeys, descend_node_eq, hf, Shape.root_mapKeys]
    by_cases hz : cmp key k = 0
    · simp only [hz, if_true, Shape.mapKeys]
    · simp only [hz, if_false]
      by_cases hlt : cmp key k < 0
      · simp only [hlt, if_true]
        by_cases hl : l.root = none
        · simp only [hl, if_true, Shape.mapKeys]
        · simp only [hl, if_false]
          exact ihl (Frame.left p k r :: c)
      · simp only [hlt, if_false]
        by_cases hr : r.root = none
        · simp only [hr, if_true, Shape.mapKeys]
        · simp only [hr, if_false]
          exact ihr (Frame.right p k l :: c)

theorem insertShape_mapKeys (hf : ∀ a b, cmp' (f a) (f b) = cmp a b) (S : Shape K) (key : K)
    (x : Nat) :
    insertShape cmp' (S.mapKeys f) (f key) x = (insertShape cmp S key x).mapKeys f := by
  have hd := descend_mapKeys f hf key S []
  simp only [List.map_nil] at hd
  simp only [insertShape, hd]
  cases hds : descend cmp key [] S with
  | mk c s =>
    cases s with
    | nil => rfl
    | node l p k r =>
      simp only [Shape.mapKeys, hf]
      by_cases hz : cmp key k = 0
      · simp only [hz, if_true]
      · simp only [hz, if_false]
        by_cases hlt : cmp key k < 0
        · simp only [hlt, if_true]
          exact walk_mapKeys f (Frame.left p k r :: c) (Shape.node Shape.nil x key Shape.nil) 0 0
        · simp only [hlt, if_false]
          exact walk_mapKeys f (Frame.right p k l :: c) (Shape.node Shape.nil x key Shape.nil) 0 0

theorem insertShapes_mapKeys (hf : ∀ a b, cmp' (f a) (f b) = cmp a b) :
    ∀ (ks : List K) (S : Shape K),
      insertShapes cmp' (S.mapKeys f) (ks.map f) = (insertShapes cmp S ks).mapKeys f := by
  intro ks
  induction ks with
  | nil => intro S; rfl
  | cons k ks ih =>
    intro S
    simp only [List.map_cons, insertShapes, Shape.size_mapKeys]
    rw [insertShape_mapKeys f hf, ih]

end Relabel

theorem getD_lt_of_pairwise {ks : List Int} (hasc : ks.Pairwise (fun a b => a < b))
    {i j : Nat} (hij : i < j) (hj : j < ks.length) : ks.getD i 0 < ks.getD j 0 := by
  have hi : i < ks.length := by omega
  rw [List.getD_eq_getElem _ _ hi, List.getD_eq_getElem _ _ hj]
  exact List.pairwise_iff_getElem.mp hasc i j hi hj hij

theorem getD_le_of_pairwise {ks : List Int} (hasc : ks.Pairwise (fun a b => a < b))
    {i j : Nat} (hij : i ≤ j) (hj : j < ks.length) : ks.getD i 0 ≤ ks.getD j 0 := by
  rcases Nat.lt_or_eq_of_le hij with h | h
  · exact le_of_lt (getD_lt_of_pairwise hasc h hj)
  · rw [h]

theorem keyAt_lt {ks : List Int} (hasc : ks.Pairwise (fun a b => a < b)) (hne : 0 < ks.length)
    {a b : Int} (hab : a < b) : keyAt ks a < keyAt ks b := by
  have h0 := getD_le_of_pairwise hasc (Nat.zero_le (ks.length - 1)) (by omega)
  simp only [keyAt]
  by_cases ha0 : a < 0
  · rw [if_pos ha0]
    by_cases hb0 : b < 0
    · rw [if_pos hb0]; omega
    · rw [if_neg hb0]
      by_cases hbn : b < ks.length
      · rw [if_pos hbn]
        have := getD_le_of_pairwise hasc (Nat.zero_le b.toNat) (by omega)
        omega
      · rw [if_neg hbn]; omega
  · rw [if_neg ha0]
    have hb0 : ¬ b < 0 := by omega
    rw [if_neg hb0]
    by_cases han : a < ks.length
    · rw [if_pos han]
      by_cases hbn : b < ks.length
      · rw [if_pos hbn]
        exact getD_lt_of_pairwise hasc (by omega) (by omega)
      · rw [if_neg hbn]
        have := getD_le_of_pairwise hasc (by omega : a.toNat ≤ ks.length - 1) (by omega)
        omega
    · rw [if_neg han]
      have hbn : ¬ b < ks.length := by omega
      rw [if_neg hbn]; omega

theorem IntComparator_keyAt {ks : List Int} (hasc : ks.Pairwise (fun a b => a < b))
    (hne : 0 < ks.length) (a b : Int) :
    IntComparator (keyAt ks a) (keyAt ks b) = IntComparator a b := by
  simp only [IntComparator]
  rcases lt_trichotomy a b with h | h | h
  · have := keyAt_lt hasc hne h
    rw [if_pos this, if_pos h]
  · subst h; simp
  · have := keyAt_lt hasc hne h
    rw [if_neg (by omega), if_pos (by omega), if_neg (by omega), if_pos (by omega)]

theorem map_keyAt_range (ks : List Int) :
    ((List.range ks.length).map Int.ofNat).map (keyAt ks) = ks := by
  apply List.ext_getElem
  · simp
  · intro i h1 h2
    simp only [List.getElem_map, List.getElem_range, keyAt]
    have e : ¬ ((Int.ofNat i) < 0) := by simp
    have e2 : (Int.ofNat i) < (ks.length : Int) := by simp; exact h2
    rw [if_neg e, if_pos e2]
    simp [List.getElem?_eq_getElem h2]

theorem insertKey_length_of_forall_ne {cmp : K → K → Int} (new : Nat × K) :
    ∀ (l : List (Nat × K)), (∀ a ∈ l, cmp new.2 a.2 ≠ 0) →
      (insertKey cmp new l).length = l.length + 1 := by
  intro l
  induction l with
  | nil => intro _; simp [insertKey]
  | cons a rest ih =>
    intro h
    have ha := h a (by simp)
    simp only [insertKey, ha, if_false]
    split
    · simp
    · simp [ih (fun x hx => h x (by simp [hx]))]

/-- An insert that allocated its node and returns `0`: the scratch buffer
allocation is what failed, and the key is nevertheless in the tree: the
resulting tree is well formed, contains the new node with the key (at the
address the node was allocated at), and a following `ScapegoatSearch(tree, key)`
returns that very key. -/
theorem ScapegoatInsert_zero_keeps_key {t t' : ScapegoatTree K} {S : Shape K}
    (htot : TotalOrder t.comparator) (hinv : Inv t S) (key : K) (fuel : Nat)
    (hfuel : 2 * S.size + 4 ≤ fuel) (cache_alloc_ok : Bool)
    (hrun : ScapegoatInsert fuel t key true cache_alloc_ok = some (0, t')) :
    cache_alloc_ok = false ∧
    ScapegoatSearch fuel t' key = some (some key) ∧
    ∃ S', Inv t' S' ∧ (t.nodes.length, key) ∈ S'.toList ∧ S'.size = S.size + 1 := by
  obtain ⟨ret, t1, S1, h1, hinv1, hc1, -, -, hl1, hok1, -, -⟩ :=
    ScapegoatInsert_spec htot hinv key fuel hfuel true cache_alloc_ok
  rw [hrun] at h1
  obtain ⟨rfl, rfl⟩ : 0 = ret ∧ t' = t1 := by
    have := Option.some.inj h1
    exact ⟨congrArg Prod.fst this, congrArg Prod.snd this⟩
  have hcok : cache_alloc_ok = false := by
    cases cache_alloc_ok with
    | false => rfl
    | true => have := hok1 rfl rfl; omega
  have hl : S1.toList = insertKey t.comparator (t.nodes.length, key) S.toList := by
    rcases hl1 with h | ⟨h, -, -⟩
    · exact h
    · cases h
  -- the key was not stored before, or the call would have returned `1`
  have hnew : ∀ a ∈ S.toList, t.comparator key a.2 ≠ 0 := by
    intro a ha heq
    have := ScapegoatInsert_dup htot hinv key a.2 (Shape.mem_keys_of_mem_toList ha) heq fuel
      (by have := S.levels_le_size; omega) true cache_alloc_ok
    rw [hrun] at this
    have := congrArg Prod.fst (Option.some.inj this)
    simp at this
  have hmem : (t.nodes.length, key) ∈ S1.toList := by
    rw [hl]; exact mem_insertKey_of_forall_ne _ _ hnew
  have hsize : S1.size = S.size + 1 := by
    rw [← Shape.length_toList, hl, ← Shape.length_toList]
    exact insertKey_length_of_forall_ne _ _ hnew
  refine ⟨hcok, ?_, S1, hinv1, hmem, hsize⟩
  rw [ScapegoatSearch_of_Inv (by rw [hc1]; exact htot) hinv1 key fuel
    (by have := S1.levels_le_size; omega), hc1]
  congr 1
  exact find?_self_of_Ascending htot key _ (hc1 ▸ hinv1.asc) (Shape.mem_keys_of_mem_toList hmem)

/-- C10 (reconstruction is atomic on failure).  If `RebuildSubtree` returns `0`
then the node store (the `parent`, `left`, `right` and `key` fields of every
node) and the tree's root are exactly as before the call; the only other value
it returns is `1`, and on a well-formed tree (with the subtree's true size and
enough fuel) a call that returns `1` has relinked in full: the tree is well
formed again and holds the balanced subtree in place of the old one. -/
theorem C10_rebuild_atomic_on_failure {fuel : Nat} {t t' : ScapegoatTree K}
    {node node_size ret : Nat} {cache_alloc_ok : Bool}
    (h : RebuildSubtree fuel t node node_size cache_alloc_ok = some (ret, t')) :
    (ret = 0 ∨ ret = 1) ∧
    (ret = 0 → t'.nodes = t.nodes ∧ t'.root = t.root) ∧
    (ret = 1 → ∀ (c : List (Frame K)) (l r : Shape K) (k : K),
      Inv t (plug c (Shape.node l node k r)) → node_size = (Shape.node l node k r).size →
      node_size < fuel → Inv t' (plug c (balanced (Shape.node l node k r).toList))) := by
  obtain ⟨h1, h2, -, -, -⟩ := RebuildSubtree_frame h
  refine ⟨h1, h2, ?_⟩
  intro hret c l r k hinv hsz hfuel
  subst hsz
  obtain ⟨ret2, t2, hR, -, -, hcases⟩ := RebuildSubtree_spec hinv fuel hfuel cache_alloc_ok
  rw [h] at hR
  have e := Option.some.inj hR
  have e1 : ret = ret2 := congrArg Prod.fst e
  have e2 : t' = t2 := congrArg Prod.snd e
  subst e1 e2
  rcases hcases with ⟨-, hinv'⟩ | ⟨h0, -⟩
  · exact hinv'
  · omega

/-- Witness of C10: rebuilding `chain3` at its root when the scratch buffer
cannot be allocated returns `0` and changes neither the nodes nor the root. -/
theorem C10_rebuild_atomic_on_failure_witness :
    ∃ t', RebuildSubtree 5 chain3 0 3 false = some (0, t') ∧
      t'.nodes = chain3.nodes ∧ t'.root = chain3.root :=
  ⟨_, rfl, ((C10_rebuild_atomic_on_failure
    (rfl : RebuildSubtree 5 chain3 0 3 false = some (0, _))).2.1 rfl)⟩

/-! ### The rebuilt subtree -/

theorem buildShape_size (fuel : Nat) (l : List (Nat × K)) (h : l.length ≤ fuel) :
    (buildShape fuel l).size = l.length := by
  rw [← Shape.length_toList, buildShape_toList _ _ h]

theorem buildShape_MedianSplit : ∀ (fuel : Nat) (l : List (Nat × K)), l.length ≤ fuel →
    (buildShape fuel l).MedianSplit ∧ (buildShape fuel l).HalvesDifferByOne := by
  intro fuel
  induction fuel with
  | zero => intro l _; exact ⟨trivial, trivial⟩
  | succ f ih =>
    intro l hl
    cases hm : l[l.length / 2]? with
    | none =>
      simp only [buildShape, hm]
      exact ⟨trivial, trivial⟩
    | some pk =>
      have hlt : l.length / 2 < l.length := (List.getElem?_eq_some.mp hm).1
      have h1 : (l.take (l.length / 2)).length ≤ f := by simp; omega
      have h2 : (l.drop (l.length / 2 + 1)).length ≤ f := by simp; omega
      have s1 : (buildShape f (l.take (l.length / 2))).size = l.length / 2 := by
        rw [buildShape_size _ _ h1]; simp; omega
      have s2 : (buildShape f (l.drop (l.length / 2 + 1))).size
          = l.length - (l.length / 2 + 1) := by
        rw [buildShape_size _ _ h2]; simp
      simp only [buildShape, hm]
      refine ⟨⟨?_, ?_, (ih _ h1).1, (ih _ h2).1⟩, ⟨?_, ?_, (ih _ h1).2, (ih _ h2).2⟩⟩
      · simp only [Shape.size_node, s1, s2]; omega
      · simp only [Shape.size_node, s1, s2]; omega
      · rw [s1, s2]; omega
      · rw [s1, s2]; omega

theorem buildShape_root (fuel : Nat) (l : List (Nat × K)) (hpos : 0 < l.length)
    (h : l.length ≤ fuel) :
    (buildShape fuel l).root = (l[l.length / 2]?).map Prod.fst := by
  cases fuel with
  | zero => omega
  | succ f =>
    cases hm : l[l.length / 2]? with
    | none =>
      have := List.getElem?_eq_none_iff.mp hm
      omega
    | some pk => simp [buildShape, hm]

/-- C11 (perfectly balanced rebuild).  For every array holding `n ≥ 1` distinct
allocated nodes (the list `l` gives their addresses and keys),
`BuildTreeFromSortedNodes` returns, its result is the element at index `n / 2`
of the array, and the store then holds a tree on exactly these nodes, in the
order of the array, in which every subtree of `m` nodes has `m / 2` nodes on
the left and `m - m / 2 - 1` on the right, so that at every node the two sizes
differ by at most one. -/
theorem C11_perfectly_balanced_rebuild (fuel : Nat) (nodes : List (ScapegoatTreeNode K))
    (sorted : List (Option Nat)) (l : List (Nat × K))
    (hpos : 0 < l.length) (hfuel : l.length ≤ fuel)
    (hsorted : sorted.take l.length = l.map (fun pk => some pk.1))
    (hnd : (l.map Prod.fst).Nodup)
    (hvalid : ∀ pk ∈ l, ∃ n, readNode nodes pk.1 = some n ∧ n.key = pk.2) :
    ∃ nodes' root par S,
      BuildTreeFromSortedNodes fuel nodes sorted l.length = some (nodes', root) ∧
      sorted[l.length / 2]? = some (some root) ∧
      S.root = some root ∧ Rep nodes' par S ∧ S.toList = l ∧
      S.MedianSplit ∧ S.HalvesDifferByOne := by
  obtain ⟨nodes', root, par, hB, hroot, hrep, -⟩ :=
    BuildTreeFromSortedNodes_spec fuel nodes sorted l hpos hfuel hsorted hnd hvalid
  refine ⟨nodes', root, par, buildShape fuel l, hB, ?_, hroot, hrep,
    buildShape_toList _ _ hfuel, (buildShape_MedianSplit _ _ hfuel).1,
    (buildShape_MedianSplit _ _ hfuel).2⟩
  have hlt : l.length / 2 < l.length := by omega
  rw [buildShape_root fuel l hpos hfuel, List.getElem?_eq_getElem hlt] at hroot
  have e : sorted[l.length / 2]? = (sorted.take l.length)[l.length / 2]? := by
    rw [List.getElem?_take_of_lt hlt]
  rw [e, hsorted, List.getElem?_map, List.getElem?_eq_getElem hlt]
  simp only [Option.map_some'] at hroot ⊢
  rw [Option.some.inj hroot]

/-- Witness of C11: the three nodes of `chain3`, in the order `0, 1, 2`. -/
theorem C11_perfectly_balanced_rebuild_witness :
    ∃ nodes' root par S,
      BuildTreeFromSortedNodes 3 chain3.nodes [some 0, some 1, some 2] 3
        = some (nodes', root) ∧
      [some 0, some 1, some 2][3 / 2]? = some (some root) ∧
      S.root = some root ∧ Rep nodes' par S ∧ S.toList = [(0, (0 : Int)), (1, 1), (2, 2)] ∧
      S.MedianSplit ∧ S.HalvesDifferByOne :=
  C11_perfectly_balanced_rebuild 3 chain3.nodes [some 0, some 1, some 2]
    [(0, (0 : Int)), (1, 1), (2, 2)] (by decide) (by decide) rfl (by decide)
    (by
      intro pk hpk
      simp only [List.mem_cons, List.mem_singleton, List.not_mem_nil, or_false] at hpk
      rcases hpk with rfl | rfl | rfl
      · exact ⟨_, rfl, rfl⟩
      · exact ⟨_, rfl, rfl⟩
      · exact ⟨_, rfl, rfl⟩)

/-! ### Content and frame of a rebuild -/

theorem mem_ptrs_iff {s : Shape K} {q : Nat} : q ∈ s.ptrs ↔ ∃ k, (q, k) ∈ s.toList := by
  simp [Shape.ptrs]

/-- Two stores that hold shapes with the same in-order node list agree on the
key of every node of the list. -/
theorem Rep_key_agree {nodes nodes' : List (ScapegoatTreeNode K)} {s s' : Shape K}
    {par par' : Option Nat} (h : Rep nodes par s) (h' : Rep nodes' par' s')
    (hl : s'.toList = s.toList) {q : Nat} (hq : q ∈ s.ptrs) {n : ScapegoatTreeNode K}
    (hn : readNode nodes q = some n) :
    ∃ n', readNode nodes' q = some n' ∧ n'.key = n.key := by
  obtain ⟨k, hk⟩ := mem_ptrs_iff.mp hq
  obtain ⟨n0, h0, hk0⟩ := Rep_key nodes s par h (q, k) hk
  obtain ⟨n1, h1, hk1⟩ := Rep_key nodes' s' par' h' (q, k) (by rw [hl]; exact hk)
  rw [hn] at h0
  cases h0
  exact ⟨n1, h1, by rw [hk1, hk0]⟩

theorem ctxParent_mem_ctxPtrs {c : List (Frame K)} {q : Nat} (h : ctxParent c = some q) :
    q ∈ ctxPtrs c := by
  cases c with
  | nil => cases h
  | cons f c =>
    simp only [ctxParent, Option.some.injEq] at h
    rw [← h]
    exact Frame.ptr_mem_ctxPtrs f c

theorem mem_plug_ptrs_iff {c : List (Frame K)} {s : Shape K} {q : Nat} :
    q ∈ (plug c s).ptrs ↔ q ∈ s.ptrs ∨ q ∈ ctxPtrs c := by
  simp only [Shape.ptrs, plug_toList, ctxPtrs, List.map_append, List.mem_append]
  tauto

/-- C12 (rebuild preserves content).  On a well-formed tree, a `RebuildSubtree`
call on a node of the tree (with the subtree's size) that returns `1` leaves a
well-formed tree in which the rebuilt subtree has the same in-order node
sequence (addresses with their keys) as the original subtree, and so has the
whole tree; flattening the rebuilt subtree with `TraverseNodesInOrder` gives
what flattening the original gave; the node store has as many nodes as before
and every node has the key it had; `tree_size` is unchanged. -/
theorem C12_rebuild_preserves_content {t t' : ScapegoatTree K} {c : List (Frame K)}
    {l r : Shape K} {x : Nat} {k : K} (hinv : Inv t (plug c (Shape.node l x k r)))
    (fuel : Nat) (hfuel : (Shape.node l x k r).size < fuel) (ok : Bool)
    (hrun : RebuildSubtree fuel t x (Shape.node l x k r).size ok = some (1, t')) :
    ∃ U, Inv t' (plug c U) ∧
      U.toList = (Shape.node l x k r).toList ∧
      (plug c U).toList = (plug c (Shape.node l x k r)).toList ∧
      (plug c U).keys = (plug c (Shape.node l x k r)).keys ∧
      (∀ buf : List (Option Nat), (Shape.node l x k r).size ≤ buf.length →
        TraverseNodesInOrder fuel t'.nodes U.root buf 0
          = TraverseNodesInOrder fuel t.nodes (some x) buf 0) ∧
      t'.nodes.length = t.nodes.length ∧
      (∀ q n, readNode t.nodes q = some n →
        ∃ n', readNode t'.nodes q = some n' ∧ n'.key = n.key) ∧
      t'.tree_size = t.tree_size := by
  obtain ⟨ret, t1, h1, -, hts, hcases⟩ := RebuildSubtree_full hinv fuel hfuel ok
  rw [hrun] at h1
  have e := Option.some.inj h1
  have e1 : 1 = ret := congrArg Prod.fst e
  have e2 : t' = t1 := congrArg Prod.snd e
  subst e1
  subst e2
  rcases hcases with ⟨-, hinv', hout, -⟩ | ⟨h0, -⟩
  swap
  · cases h0
  have hU : (balanced (Shape.node l x k r).toList).toList = (Shape.node l x k r).toList :=
    balanced_toList _
  have hlist := plug_toList_congr c hU
  obtain ⟨-, hrepU⟩ := (Rep_plug _ _ _).mp hinv'.rep
  obtain ⟨-, hreps⟩ := (Rep_plug _ _ _).mp hinv.rep
  have hlen := (RebuildSubtree_frame hrun).2.2.1
  refine ⟨balanced (Shape.node l x k r).toList, hinv', hU, hlist, ?_, ?_, hlen, ?_, hts⟩
  · simp only [Shape.keys, hlist]
  · intro buf hbuf
    have hsz : (balanced (Shape.node l x k r).toList).size = (Shape.node l x k r).size :=
      Shape.size_eq_of_toList hU
    have hp : (balanced (Shape.node l x k r).toList).ptrs = (Shape.node l x k r).ptrs :=
      Shape.ptrs_eq_of_toList hU
    have a := TraverseNodesInOrder_zero t'.nodes _ (ctxParent c) fuel buf hrepU
      (by have := (balanced (Shape.node l x k r).toList).levels_le_size; omega)
      (by rw [hsz]; exact hbuf)
    have b := TraverseNodesInOrder_zero t.nodes _ (ctxParent c) fuel buf hreps
      (by have := (Shape.node l x k r).levels_le_size; omega) hbuf
    rw [a, hp, hsz]
    exact b.symm
  · intro q n hq
    by_cases hmem : q ∈ (plug c (Shape.node l x k r)).ptrs
    · exact Rep_key_agree hinv.rep hinv'.rep hlist hmem hq
    · have hns : q ∉ (Shape.node l x k r).ptrs := fun h =>
        hmem (mem_plug_ptrs_iff.mpr (Or.inl h))
      have hnp : ctxParent c ≠ some q := fun h =>
        hmem (mem_plug_ptrs_iff.mpr (Or.inr (ctxParent_mem_ctxPtrs h)))
      exact ⟨n, by rw [hout q hns hnp]; exact hq, rfl⟩

/-- Witness of C12: rebuilding the chain `0, 1, 2` at its root. -/
theorem C12_rebuild_preserves_content_witness :
    ∃ t', RebuildSubtree 5 chain3 0 3 true = some (1, t') ∧
      ∃ U, Inv t' (plug [] U) ∧ U.toList = chain3Shape.toList ∧
        t'.nodes.length = chain3.nodes.length ∧ t'.tree_size = chain3.tree_size := by
  obtain ⟨U, a, b, -, -, -, d, -, e⟩ :=
    C12_rebuild_preserves_content (c := []) (l := Shape.nil) (x := 0) (k := (0 : Int))
      (r := Shape.node Shape.nil 1 1 (Shape.node Shape.nil 2 2 Shape.nil))
      (t := chain3) chain3_inv 5 (by decide) true rfl
  exact ⟨_, rfl, U, a, b, d, e⟩

/-- Two stores that hold the same shape below the same parent agree on every
node of the shape. -/
theorem Rep_readNode_agree (nodes nodes' : List (ScapegoatTreeNode K)) (s : Shape K) :
    ∀ par, Rep nodes par s → Rep nodes' par s →
      ∀ q ∈ s.ptrs, readNode nodes' q = readNode nodes q := by
  induction s with
  | nil => intro par _ _ q hq; simp at hq
  | node l p k r ihl ihr =>
    intro par h h' q hq
    obtain ⟨a1, a2, a3⟩ := h
    obtain ⟨b1, b2, b3⟩ := h'
    simp only [Shape.ptrs_node, List.mem_append, List.mem_cons] at hq
    rcases hq with hq | rfl | hq
    · exact ihl _ a2 b2 q hq
    · rw [a1, b1]
    · exact ihr _ a3 b3 q hq

theorem GetOrAllocateNodePtrCache_of_le (t : ScapegoatTree K) (req : Nat) (ok : Bool)
    (h : req ≤ t.node_ptr_cache_size) :
    GetOrAllocateNodePtrCache t req ok = (t, t.node_ptr_cache) := by
  simp only [GetOrAllocateNodePtrCache, h, if_true]

/-- With a scratch buffer that is large enough, `RebuildSubtree` does not
allocate, so its result does not depend on the allocation outcome. -/
theorem RebuildSubtree_of_le (fuel : Nat) (t : ScapegoatTree K) (node sz : Nat) (ok ok2 : Bool)
    (h : sz ≤ t.node_ptr_cache_size) :
    RebuildSubtree fuel t node sz ok = RebuildSubtree fuel t node sz ok2 := by
  simp only [RebuildSubtree, GetOrAllocateNodePtrCache_of_le t sz _ h]

theorem balanced_balanced (l : List (Nat × K)) : balanced (balanced l).toList = balanced l := by
  rw [balanced_toList]

/-- C13 (idempotent rebuild).  Flatten-then-build applied to its own result
gives the same shape (`balanced (balanced l).toList = balanced l`), and on the
heap: after a `RebuildSubtree` on a node of a well-formed tree has returned `1`,
a second `RebuildSubtree` on the new subtree root (with the same size, whatever
the allocator would answer) returns `1` and leaves the root pointer and every
node of the store exactly as the first call left them. -/
theorem C13_idempotent_rebuild {t t1 : ScapegoatTree K} {c : List (Frame K)}
    {l r : Shape K} {x : Nat} {k : K} (hinv : Inv t (plug c (Shape.node l x k r)))
    (fuel : Nat) (hfuel : (Shape.node l x k r).size < fuel) (ok ok2 : Bool)
    (hrun : RebuildSubtree fuel t x (Shape.node l x k r).size ok = some (1, t1)) :
    balanced (balanced (Shape.node l x k r).toList).toList
      = balanced (Shape.node l x k r).toList ∧
    ∃ y t2, (balanced (Shape.node l x k r).toList).root = some y ∧
      Inv t1 (plug c (balanced (Shape.node l x k r).toList)) ∧
      RebuildSubtree fuel t1 y (Shape.node l x k r).size ok2 = some (1, t2) ∧
      Inv t2 (plug c (balanced (Shape.node l x k r).toList)) ∧
      t2.nodes = t1.nodes ∧ t2.root = t1.root ∧ t2.tree_size = t1.tree_size := by
  refine ⟨balanced_balanced _, ?_⟩
  obtain ⟨ret, t1', h1, -, -, hcases⟩ := RebuildSubtree_full hinv fuel hfuel ok
  rw [hrun] at h1
  have e := Option.some.inj h1
  have e1 : 1 = ret := congrArg Prod.fst e
  have e2 : t1 = t1' := congrArg Prod.snd e
  subst e1
  subst e2
  rcases hcases with ⟨-, hinv1, -, -, -, -, hcap⟩ | ⟨h0, -⟩
  swap
  · cases h0
  have hU : (balanced (Shape.node l x k r).toList).toList = (Shape.node l x k r).toList :=
    balanced_toList _
  have hsz : (balanced (Shape.node l x k r).toList).size = (Shape.node l x k r).size :=
    Shape.size_eq_of_toList hU
  generalize hUdef : balanced (Shape.node l x k r).toList = U at hinv1 hU hsz ⊢
  have hUne : U.root ≠ none := by
    intro h
    rw [(Shape.root_eq_none_iff U).mp h] at hsz
    simp at hsz
    omega
  obtain ⟨y, hy⟩ := Option.ne_none_iff_exists'.mp hUne
  obtain ⟨l', k', r', hnode⟩ := Shape.eq_node_of_root hy
  subst hnode
  obtain ⟨ret2, t2, h2, -, hts2, hcases2⟩ :=
    RebuildSubtree_full hinv1 fuel (by rw [hsz]; exact hfuel) true
  rw [hsz, RebuildSubtree_of_le fuel t1 y _ true ok2 hcap] at h2
  rcases hcases2 with ⟨hr, hinv2, hout, -⟩ | ⟨-, hf, -⟩
  swap
  · cases hf
  subst hr
  have hbb : balanced (Shape.node l' y k' r').toList = Shape.node l' y k' r' := by
    rw [hU, hUdef]
  rw [hbb] at hinv2
  have hagree : ∀ q, readNode t2.nodes q = readNode t1.nodes q := by
    intro q
    by_cases hmem : q ∈ (plug c (Shape.node l' y k' r')).ptrs
    · exact Rep_readNode_agree _ _ _ none hinv1.rep hinv2.rep q hmem
    · exact hout q (fun h => hmem (mem_plug_ptrs_iff.mpr (Or.inl h)))
        (fun h => hmem (mem_plug_ptrs_iff.mpr (Or.inr (ctxParent_mem_ctxPtrs h))))
  refine ⟨y, t2, hy, hinv1, h2, hinv2, ?_, ?_, hts2⟩
  · apply List.ext_getElem?
    intro q
    exact hagree q
  · rw [hinv2.root_eq, hinv1.root_eq]

/-- Witness of C13: the chain `0, 1, 2` rebuilt at its root, then rebuilt again
at the new root `1` with the allocator failing. -/
theorem C13_idempotent_rebuild_witness :
    ∃ t1 t2, RebuildSubtree 5 chain3 0 3 true = some (1, t1) ∧ t1.root = some 1 ∧
      RebuildSubtree 5 t1 1 3 false = some (1, t2) ∧
      t2.nodes = t1.nodes ∧ t2.root = t1.root := by
  obtain ⟨-, y, t2, hy, -, h2, -, a, b, -⟩ :=
    C13_idempotent_rebuild (c := []) (l := Shape.nil) (x := 0) (k := (0 : Int))
      (r := Shape.node Shape.nil 1 1 (Shape.node Shape.nil 2 2 Shape.nil))
      (t := chain3) chain3_inv 5 (by decide) true false rfl
  have hy1 : y = 1 := by
    have : (balanced (Shape.node Shape.nil 0 (0 : Int)
        (Shape.node Shape.nil 1 1 (Shape.node Shape.nil 2 2 Shape.nil))).toList).root
        = some 1 := rfl
    rw [this] at hy
    exact (Option.some.inj hy).symm
  subst hy1
  exact ⟨_, t2, rfl, rfl, h2, a, b⟩

/-! ### Capacity of the scratch buffer -/

theorem GetOrAllocateNodePtrCache_size_mono (t : ScapegoatTree K) (req : Nat) (ok : Bool)
    (h : ok = true ∨ req ≤ t.node_ptr_cache_size ∨ t.tree_size < req) :
    t.node_ptr_cache_size ≤ (GetOrAllocateNodePtrCache t req ok).1.node_ptr_cache_size := by
  unfold GetOrAllocateNodePtrCache
  split
  · exact Nat.le_refl _
  · split
    · exact Nat.le_refl _
    · rename_i h1 h2
      cases ok with
      | true => simp only [if_true]; omega
      | false => rcases h with h | h | h
                 · cases h
                 · exact absurd h h1
                 · omega

theorem RebuildSubtree_cache_size {fuel : Nat} {t t' : ScapegoatTree K} {node sz ret : Nat}
    {ok : Bool} (h : RebuildSubtree fuel t node sz ok = some (ret, t')) :
    t'.node_ptr_cache_size = (GetOrAllocateNodePtrCache t sz ok).1.node_ptr_cache_size := by
  unfold RebuildSubtree at h
  simp only [Option.bind_eq_bind, Option.bind_eq_some] at h
  obtain ⟨n, hn, h⟩ := h
  split at h
  · simp only [Option.bind_eq_some] at h
    obtain ⟨wl, -, h⟩ := h
    rename_i hpar
    rw [hpar] at h
    split at h
    · rename_i t1 heq
      simp only [Option.pure_def, Option.some.injEq, Prod.mk.injEq] at h
      obtain ⟨rfl, rfl⟩ := h
      rw [heq]
    · rename_i t1 sorted heq
      simp only [Option.bind_eq_bind, Option.bind_eq_some, Option.pure_def, Option.some.injEq,
        Prod.mk.injEq] at h
      obtain ⟨⟨sorted1, cnt⟩, hT, ⟨nodes1, new_root⟩, hB, nodes2, hP, rfl, rfl⟩ := h
      rw [heq]
  · simp only [Option.bind_eq_some] at h
    obtain ⟨wl, -, h⟩ := h
    rename_i pp hpar
    rw [hpar] at h
    split at h
    · rename_i t1 heq
      simp only [Option.pure_def, Option.some.injEq, Prod.mk.injEq] at h
      obtain ⟨rfl, rfl⟩ := h
      rw [heq]
    · rename_i t1 sorted heq
      simp only [Option.bind_eq_bind, Option.bind_eq_some] at h
      obtain ⟨⟨sorted1, cnt⟩, hT, ⟨nodes1, new_root⟩, hB, nodes2, hP, h⟩ := h
      dsimp only at hB hP h
      split at h
      · simp only [Option.bind_eq_some, Option.pure_def, Option.some.injEq,
          Prod.mk.injEq] at h
        obtain ⟨nodes3, h3, rfl, rfl⟩ := h
        rw [heq]
      · simp only [Option.bind_eq_some, Option.pure_def, Option.some.injEq,
          Prod.mk.injEq] at h
        obtain ⟨nodes3, h3, rfl, rfl⟩ := h
        rw [heq]

theorem FindAndRebalanceRecursive_cache_mono : ∀ (fuel : Nat) (t t' : ScapegoatTree K)
    (node ls rs ret : Nat),
    FindAndRebalanceRecursive fuel t node ls rs true = some (ret, t') →
    t.node_ptr_cache_size ≤ t'.node_ptr_cache_size := by
  intro fuel
  induction fuel with
  | zero => intro t t' node ls rs ret h; simp [FindAndRebalanceRecursive] at h
  | succ f ih =>
    intro t t' node ls rs ret h
    simp only [FindAndRebalanceRecursive] at h
    split at h
    · rw [RebuildSubtree_cache_size h]
      exact GetOrAllocateNodePtrCache_size_mono _ _ _ (Or.inl rfl)
    · simp only [Option.bind_eq_bind, Option.bind_eq_some] at h
      obtain ⟨n, hn, h⟩ := h
      split at h
      · simp only [Option.pure_def, Option.some.injEq, Prod.mk.injEq] at h
        obtain ⟨rfl, rfl⟩ := h
        exact Nat.le_refl _
      · simp only [Option.bind_eq_bind, Option.bind_eq_some] at h
        obtain ⟨pn, hpn, h⟩ := h
        split at h
        · simp only [Option.bind_eq_bind, Option.bind_eq_some] at h
          obtain ⟨sz, hsz, h⟩ := h
          exact ih _ _ _ _ _ _ h
        · simp only [Option.bind_eq_bind, Option.bind_eq_some] at h
          obtain ⟨sz, hsz, h⟩ := h
          exact ih _ _ _ _ _ _ h

theorem ScapegoatInsert_cache_mono {fuel : Nat} {t t' : ScapegoatTree K} {key : K}
    {nok : Bool} {ret : Nat}
    (h : ScapegoatInsert fuel t key nok true = some (ret, t')) :
    t.node_ptr_cache_size ≤ t'.node_ptr_cache_size := by
  unfold ScapegoatInsert at h
  split at h
  · split at h
    · simp only [Option.some.injEq, Prod.mk.injEq] at h
      obtain ⟨rfl, rfl⟩ := h
      exact Nat.le_refl _
    · simp only [Option.some.injEq, Prod.mk.injEq] at h
      obtain ⟨rfl, rfl⟩ := h
      exact Nat.le_refl _
  · split at h
    · simp only [Option.bind_eq_bind, Option.bind_eq_some] at h
      obtain ⟨pn, hpn, h⟩ := h
      split at h
      · simp only [Option.pure_def, Option.some.injEq, Prod.mk.injEq] at h
        obtain ⟨rfl, rfl⟩ := h
        exact Nat.le_refl _
      · split at h
        · simp only [Option.pure_def, Option.some.injEq, Prod.mk.injEq] at h
          obtain ⟨rfl, rfl⟩ := h
          exact Nat.le_refl _
        · simp only [Option.bind_eq_bind, Option.bind_eq_some] at h
          obtain ⟨nodes2, h2, h⟩ := h
          split at h
          · simp only [Option.bind_eq_some] at h
            obtain ⟨nodes3, h3, h⟩ := h
            have := FindAndRebalanceRecursive_cache_mono _ _ _ _ _ _ _ h
            exact this
          · simp only [Option.bind_eq_some] at h
            obtain ⟨nodes3, h3, h⟩ := h
            have := FindAndRebalanceRecursive_cache_mono _ _ _ _ _ _ _ h
            exact this
    · cases h

/-- C14 (counterexample).  After the successful inserts of `2, 1, 4, 7, 6, 8`
the scratch buffer has capacity `6`; the insert of `3` needs a buffer of `7`
entries, and when that allocation fails the call returns `0` and leaves the
capacity `0`: the old buffer was freed before the new one was requested.  The
same step seen at `GetOrAllocateNodePtrCache`, on the state in which the insert
calls it (`tree_size` already `7`). -/
theorem C14_capacity_counterexample :
    ∃ t t', insertMany 20 emptyTree (allOk [(2 : Int), 1, 4, 7, 6, 8])
        = some ([1, 1, 1, 1, 1, 1], t) ∧
      t.node_ptr_cache_size = 6 ∧
      ScapegoatInsert 20 t 3 true false = some (0, t') ∧
      t'.node_ptr_cache_size = 0 ∧ t'.node_ptr_cache = none ∧
      (GetOrAllocateNodePtrCache { t with tree_size := 7 } 7 false).1.node_ptr_cache_size = 0 ∧
      ¬ (t.node_ptr_cache_size ≤ t'.node_ptr_cache_size) :=
  ⟨_, _, rfl, rfl, rfl, rfl, rfl, rfl, by decide⟩

/-- C14 (amended: capacity of the scratch buffer).  For every tree state and
every call of `GetOrAllocateNodePtrCache`: a request within the current capacity
returns the existing buffer and changes nothing; a request above `tree_size`
returns `NULL` and changes nothing; otherwise the old buffer is released and,
when the allocation succeeds, the new buffer has `tree_size` entries and the
capacity is `tree_size`, while a failed allocation returns `NULL` and leaves no
buffer and capacity `0`.  So the capacity after a call is at least the capacity
before it unless the allocation failed, and across a `ScapegoatInsert` whose
buffer allocation does not fail the capacity never decreases. -/
theorem C14_cache_capacity (t : ScapegoatTree K) (required_capacity : Nat) (alloc_ok : Bool) :
    (required_capacity ≤ t.node_ptr_cache_size →
      GetOrAllocateNodePtrCache t required_capacity alloc_ok = (t, t.node_ptr_cache)) ∧
    (t.node_ptr_cache_size < required_capacity → t.tree_size < required_capacity →
      GetOrAllocateNodePtrCache t required_capacity alloc_ok = (t, none)) ∧
    (t.node_ptr_cache_size < required_capacity → required_capacity ≤ t.tree_size →
      alloc_ok = true →
      (GetOrAllocateNodePtrCache t required_capacity alloc_ok).2
          = some (List.replicate t.tree_size none) ∧
        (GetOrAllocateNodePtrCache t required_capacity alloc_ok).1.node_ptr_cache
          = some (List.replicate t.tree_size none) ∧
        (GetOrAllocateNodePtrCache t required_capacity alloc_ok).1.node_ptr_cache_size
          = t.tree_size) ∧
    (t.node_ptr_cache_size < required_capacity → required_capacity ≤ t.tree_size →
      alloc_ok = false →
      (GetOrAllocateNodePtrCache t required_capacity alloc_ok).2 = none ∧
        (GetOrAllocateNodePtrCache t required_capacity alloc_ok).1.node_ptr_cache = none ∧
        (GetOrAllocateNodePtrCache t required_capacity alloc_ok).1.node_ptr_cache_size = 0) ∧
    (alloc_ok = true ∨ required_capacity ≤ t.node_ptr_cache_size ∨
        t.tree_size < required_capacity →
      t.node_ptr_cache_size
        ≤ (GetOrAllocateNodePtrCache t required_capacity alloc_ok).1.node_ptr_cache_size) ∧
    (∀ (fuel : Nat) (key : K) (node_alloc_ok : Bool) (ret : Nat) (t' : ScapegoatTree K),
      ScapegoatInsert fuel t key node_alloc_ok true = some (ret, t') →
      t.node_ptr_cache_size ≤ t'.node_ptr_cache_size) := by
  refine ⟨GetOrAllocateNodePtrCache_of_le t _ _, ?_, ?_, ?_,
    GetOrAllocateNodePtrCache_size_mono t _ _, fun _ _ _ _ _ h => ScapegoatInsert_cache_mono h⟩
  · intro h1 h2
    simp only [GetOrAllocateNodePtrCache, Nat.not_le.mpr h1, if_false, gt_iff_lt, h2, if_true]
  · intro h1 h2 h3
    subst h3
    simp [GetOrAllocateNodePtrCache, Nat.not_le.mpr h1, Nat.not_lt.mpr h2]
  · intro h1 h2 h3
    subst h3
    simp [GetOrAllocateNodePtrCache, Nat.not_le.mpr h1, Nat.not_lt.mpr h2]

/-- Witness of C14 (amended): on the chain `0, 1, 2` (no buffer yet, `tree_size`
3) a request for three entries with a successful allocation grows the buffer
to `tree_size`. -/
theorem C14_cache_capacity_witness :
    chain3.node_ptr_cache_size < 3 ∧ 3 ≤ chain3.tree_size ∧
    (GetOrAllocateNodePtrCache chain3 3 true).1.node_ptr_cache_size = chain3.tree_size :=
  ⟨by decide, by decide,
    ((C14_cache_capacity chain3 3 true).2.2.1 (by decide) (by decide) rfl).2.2⟩

/-! ### The upward walk, call by call -/

theorem FindAndRebalanceRecursive_unbalanced (f : Nat) (t : ScapegoatTree K) (x ls rs : Nat)
    (ok : Bool) (hu : IsUnbalanced ls rs ≠ 0) :
    FindAndRebalanceRecursive (f + 1) t x ls rs ok = RebuildSubtree f t x (ls + rs + 1) ok := by
  simp only [FindAndRebalanceRecursive, if_pos hu]

theorem FindAndRebalanceRecursive_root {t : ScapegoatTree K} {l r : Shape K} {x : Nat} {k : K}
    (hrep : Rep t.nodes none (Shape.node l x k r)) (f : Nat) (ls rs : Nat) (ok : Bool)
    (hu : ¬ IsUnbalanced ls rs ≠ 0) :
    FindAndRebalanceRecursive (f + 1) t x ls rs ok = some (1, t) := by
  have hx := hrep.1
  simp only [FindAndRebalanceRecursive, if_neg hu]
  simp [hx]

theorem FindAndRebalanceRecursive_left {t : ScapegoatTree K} {c : List (Frame K)}
    {l r sib : Shape K} {x p : Nat} {k kp : K}
    (hinv : Inv t (plug (Frame.left p kp sib :: c) (Shape.node l x k r))) (f : Nat)
    (hf : sib.size < f) (ls rs : Nat) (ok : Bool) (hu : ¬ IsUnbalanced ls rs ≠ 0) :
    FindAndRebalanceRecursive (f + 1) t x ls rs ok
      = FindAndRebalanceRecursive f t p (ls + rs + 1) sib.size ok := by
  obtain ⟨hctx, hreps⟩ := (Rep_plug _ _ _).mp hinv.rep
  have hx := hreps.1
  obtain ⟨h1, h2, h3⟩ := hctx
  have hsib := GetTreeSize_of_Rep t.nodes sib (some p) f h2 (by
    have := sib.levels_le_size
    omega)
  simp only [FindAndRebalanceRecursive, if_neg hu]
  simp [hx, ctxParent, Frame.ptr, h1, hsib]

theorem FindAndRebalanceRecursive_right {t : ScapegoatTree K} {c : List (Frame K)}
    {l r sib : Shape K} {x p : Nat} {k kp : K}
    (hinv : Inv t (plug (Frame.right p kp sib :: c) (Shape.node l x k r))) (f : Nat)
    (hf : sib.size < f) (ls rs : Nat) (ok : Bool) (hu : ¬ IsUnbalanced ls rs ≠ 0) :
    FindAndRebalanceRecursive (f + 1) t x ls rs ok
      = FindAndRebalanceRecursive f t p sib.size (ls + rs + 1) ok := by
  obtain ⟨hctx, hreps⟩ := (Rep_plug _ _ _).mp hinv.rep
  have hx := hreps.1
  obtain ⟨hnds, hndc, hdisj⟩ := plug_nodup hinv.nodup
  have hxc : x ∉ ctxPtrs (Frame.right p kp sib :: c) := hdisj x (by simp)
  obtain ⟨h1, h2, h3⟩ := hctx
  have hsib := GetTreeSize_of_Rep t.nodes sib (some p) f h2 (by
    have := sib.levels_le_size
    omega)
  have hsx : sib.root ≠ some x := by
    intro hs
    exact hxc ((mem_ctxPtrs_right _ _ _ _ _).mpr
      (Or.inr (Or.inl (Shape.root_mem_ptrs hs))))
  simp only [FindAndRebalanceRecursive, if_neg hu]
  simp [hx, ctxParent, Frame.ptr, h1, hsib, hsx]

theorem walkCalls_unbalanced (f : Nat) (t : ScapegoatTree K) (x ls rs : Nat)
    (hu : IsUnbalanced ls rs ≠ 0) :
    walkCalls (f + 1) t x ls rs = some [(x, ls, rs)] := by
  simp only [walkCalls, if_pos hu]

theorem walkCalls_root {t : ScapegoatTree K} {l r : Shape K} {x : Nat} {k : K}
    (hrep : Rep t.nodes none (Shape.node l x k r)) (f : Nat) (ls rs : Nat)
    (hu : ¬ IsUnbalanced ls rs ≠ 0) :
    walkCalls (f + 1) t x ls rs = some [(x, ls, rs)] := by
  have hx := hrep.1
  simp only [walkCalls, if_neg hu]
  simp [hx]

theorem walkCalls_left {t : ScapegoatTree K} {c : List (Frame K)}
    {l r sib : Shape K} {x p : Nat} {k kp : K}
    (hinv : Inv t (plug (Frame.left p kp sib :: c) (Shape.node l x k r))) (f : Nat)
    (hf : sib.size < f) (ls rs : Nat) (hu : ¬ IsUnbalanced ls rs ≠ 0) :
    walkCalls (f + 1) t x ls rs
      = (walkCalls f t p (ls + rs + 1) sib.size).map (fun rest => (x, ls, rs) :: rest) := by
  obtain ⟨hctx, hreps⟩ := (Rep_plug _ _ _).mp hinv.rep
  have hx := hreps.1
  obtain ⟨h1, h2, h3⟩ := hctx
  have hsib := GetTreeSize_of_Rep t.nodes sib (some p) f h2 (by
    have := sib.levels_le_size
    omega)
  simp only [walkCalls, if_neg hu]
  simp [hx, ctxParent, Frame.ptr, h1, hsib, Option.map_eq_bind]

theorem walkCalls_right {t : ScapegoatTree K} {c : List (Frame K)}
    {l r sib : Shape K} {x p : Nat} {k kp : K}
    (hinv : Inv t (plug (Frame.right p kp sib :: c) (Shape.node l x k r))) (f : Nat)
    (hf : sib.size < f) (ls rs : Nat) (hu : ¬ IsUnbalanced ls rs ≠ 0) :
    walkCalls (f + 1) t x ls rs
      = (walkCalls f t p sib.size (ls + rs + 1)).map (fun rest => (x, ls, rs) :: rest) := by
  obtain ⟨hctx, hreps⟩ := (Rep_plug _ _ _).mp hinv.rep
  have hx := hreps.1
  obtain ⟨hnds, hndc, hdisj⟩ := plug_nodup hinv.nodup
  have hxc : x ∉ ctxPtrs (Frame.right p kp sib :: c) := hdisj x (by simp)
  obtain ⟨h1, h2, h3⟩ := hctx
  have hsib := GetTreeSize_of_Rep t.nodes sib (some p) f h2 (by
    have := sib.levels_le_size
    omega)
  have hsx : sib.root ≠ some x := by
    intro hs
    exact hxc ((mem_ctxPtrs_right _ _ _ _ _).mpr
      (Or.inr (Or.inl (Shape.root_mem_ptrs hs))))
  simp only [walkCalls, if_neg hu]
  simp [hx, ctxParent, Frame.ptr, h1, hsib, hsx, Option.map_eq_bind]

/-- The result of `FindAndRebalanceRecursive` in terms of its calls: the last
call either rebuilds the subtree at its node, with the size `left + right + 1`,
or (the node is balanced and has no parent) returns `1` with the tree as it
is. -/
theorem FindAndRebalanceRecursive_of_walkCalls (ok : Bool) : ∀ (fuel : Nat)
    (t : ScapegoatTree K) (x ls rs : Nat) (calls : List (Nat × Nat × Nat)),
    walkCalls fuel t x ls rs = some calls →
    ∃ u a b, calls.getLast? = some (u, a, b) ∧ calls.length ≤ fuel ∧
      FindAndRebalanceRecursive fuel t x ls rs ok =
        if IsUnbalanced a b ≠ 0 then
          RebuildSubtree (fuel - calls.length) t u (a + b + 1) ok
        else some (1, t) := by
  intro fuel
  induction fuel with
  | zero => intro t x ls rs calls h; simp [walkCalls] at h
  | succ f ih =>
    intro t x ls rs calls h
    by_cases hu : IsUnbalanced ls rs ≠ 0
    · rw [walkCalls_unbalanced f t x ls rs hu] at h
      cases h
      refine ⟨x, ls, rs, rfl, by simp, ?_⟩
      rw [if_pos hu, FindAndRebalanceRecursive_unbalanced f t x ls rs ok hu]
      simp
    · simp only [walkCalls, if_neg hu, Option.bind_eq_bind, Option.bind_eq_some] at h
      obtain ⟨n, hn, h⟩ := h
      simp only [FindAndRebalanceRecursive, if_neg hu, Option.bind_eq_bind, hn,
        Option.some_bind]
      split at h
      · rename_i hpar
        simp only [Option.pure_def, Option.some.injEq] at h
        subst h
        refine ⟨x, ls, rs, rfl, by simp, ?_⟩
        rw [if_neg hu]
        rfl
      · rename_i parent hpar
        simp only [Option.bind_eq_bind, Option.bind_eq_some] at h
        obtain ⟨pn, hpn, h⟩ := h
        simp only [hpar, Option.bind_eq_bind, hpn, Option.some_bind]
        split at h
        · rename_i hleft
          simp only [Option.bind_eq_bind, Option.bind_eq_some, Option.pure_def,
            Option.some.injEq] at h
          obtain ⟨sz, hsz, rest, hrest, rfl⟩ := h
          obtain ⟨u, a, b, hlast, hlen, hres⟩ := ih t parent _ _ rest hrest
          have hne : rest ≠ [] := by
            intro e; rw [e] at hlast; cases hlast
          obtain ⟨y, ys, rfl⟩ := List.exists_cons_of_ne_nil hne
          refine ⟨u, a, b, by rw [List.getLast?_cons_cons]; exact hlast,
            by simp only [List.length_cons] at hlen ⊢; omega, ?_⟩
          simp only [if_pos hleft, hsz, Option.some_bind, hres, List.length_cons,
            Nat.add_sub_add_right]
        · rename_i hleft
          simp only [Option.bind_eq_bind, Option.bind_eq_some, Option.pure_def,
            Option.some.injEq] at h
          obtain ⟨sz, hsz, rest, hrest, rfl⟩ := h
          obtain ⟨u, a, b, hlast, hlen, hres⟩ := ih t parent _ _ rest hrest
          have hne : rest ≠ [] := by
            intro e; rw [e] at hlast; cases hlast
          obtain ⟨y, ys, rfl⟩ := List.exists_cons_of_ne_nil hne
          refine ⟨u, a, b, by rw [List.getLast?_cons_cons]; exact hlast,
            by simp only [List.length_cons] at hlen ⊢; omega, ?_⟩
          simp only [if_neg hleft, hsz, Option.some_bind, hres, List.length_cons,
            Nat.add_sub_add_right]

/-- The child sizes of the root of a stored shape, as `GetTreeSize` computes
them. -/
theorem true_sizes_of_Rep {nodes : List (ScapegoatTreeNode K)} {par : Option Nat}
    {l r : Shape K} {x : Nat} {k : K} (h : Rep nodes par (Shape.node l x k r)) (fuel0 : Nat)
    (hf : (Shape.node l x k r).size < fuel0) :
    ∃ n, readNode nodes x = some n ∧
      GetTreeSize fuel0 nodes n.left = some l.size ∧
      GetTreeSize fuel0 nodes n.right = some r.size := by
  obtain ⟨h1, h2, h3⟩ := h
  simp only [Shape.size_node] at hf
  refine ⟨_, h1, ?_, ?_⟩
  · exact GetTreeSize_of_Rep nodes l (some x) fuel0 h2 (by have := l.levels_le_size; omega)
  · exact GetTreeSize_of_Rep nodes r (some x) fuel0 h3 (by have := r.levels_le_size; omega)

/-- Every call of the upward walk on a well-formed tree is made on the root of
a subtree on the path to the root, with the sizes of its two subtrees. -/
theorem walkCalls_subtrees : ∀ (c : List (Frame K)) (t : ScapegoatTree K)
    (l r : Shape K) (x : Nat) (k : K) (fuel : Nat),
    Inv t (plug c (Shape.node l x k r)) →
    c.length + (plug c (Shape.node l x k r)).size + 2 ≤ fuel →
    ∃ calls, walkCalls fuel t x l.size r.size = some calls ∧ calls.length ≤ c.length + 1 ∧
      ∀ call ∈ calls, ∃ c1 c2 l1 k1 r1, c = c1 ++ c2 ∧
        plug c1 (Shape.node l x k r) = Shape.node l1 call.1 k1 r1 ∧
        call.2.1 = l1.size ∧ call.2.2 = r1.size := by
  intro c
  induction c with
  | nil =>
    intro t l r x k fuel hinv hfuel
    cases fuel with
    | zero => omega
    | succ f =>
      refine ⟨[(x, l.size, r.size)], ?_, by simp, ?_⟩
      · by_cases hu : IsUnbalanced l.size r.size ≠ 0
        · exact walkCalls_unbalanced f t x _ _ hu
        · exact walkCalls_root hinv.rep f _ _ hu
      · intro call hcall
        simp only [List.mem_singleton] at hcall
        subst hcall
        exact ⟨[], [], l, k, r, rfl, rfl, rfl, rfl⟩
  | cons fr c ih =>
    intro t l r x k fuel hinv hfuel
    cases fuel with
    | zero => omega
    | succ f =>
      have hps := plug_size (fr :: c) (Shape.node l x k r)
      have hsz : l.size + r.size + 1 = (Shape.node l x k r).size := by simp; omega
      simp only [List.length_cons] at hfuel
      have hhere : ∃ c1 c2 l1 k1 r1, fr :: c = c1 ++ c2 ∧
          plug c1 (Shape.node l x k r) = Shape.node l1 x k1 r1 ∧
          l.size = l1.size ∧ r.size = r1.size :=
        ⟨[], fr :: c, l, k, r, rfl, rfl, rfl, rfl⟩
      by_cases hu : IsUnbalanced l.size r.size ≠ 0
      · refine ⟨[(x, l.size, r.size)], walkCalls_unbalanced f t x _ _ hu, by simp, ?_⟩
        intro call hcall
        simp only [List.mem_singleton] at hcall
        subst hcall
        exact hhere
      · cases fr with
        | left p kp sib =>
          have hsib : sib.size < f := by
            have : sib.size ≤ (ctxPtrs (Frame.left p kp sib :: c)).length := by
              simp [ctxPtrs, ctxAfter]; omega
            omega
          obtain ⟨rest, hrest, hlen, hall⟩ :=
            ih t (Shape.node l x k r) sib p kp f hinv (by
              have : plug c (Shape.node (Shape.node l x k r) p kp sib)
                = plug (Frame.left p kp sib :: c) (Shape.node l x k r) := rfl
              rw [this]; omega)
          refine ⟨(x, l.size, r.size) :: rest, ?_, by simp; omega, ?_⟩
          · rw [walkCalls_left hinv f hsib _ _ hu, hsz, hrest]; rfl
          · intro call hcall
            rcases List.mem_cons.mp hcall with rfl | hcall
            · exact hhere
            · obtain ⟨c1, c2, l1, k1, r1, e, h1, h2, h3⟩ := hall call hcall
              exact ⟨Frame.left p kp sib :: c1, c2, l1, k1, r1, by rw [e]; rfl, h1, h2, h3⟩
        | right p kp sib =>
          have hsib : sib.size < f := by
            have : sib.size ≤ (ctxPtrs (Frame.right p kp sib :: c)).length := by
              simp [ctxPtrs, ctxBefore]; omega
            omega
          obtain ⟨rest, hrest, hlen, hall⟩ :=
            ih t sib (Shape.node l x k r) p kp f hinv (by
              have : plug c (Shape.node sib p kp (Shape.node l x k r))
                = plug (Frame.right p kp sib :: c) (Shape.node l x k r) := rfl
              rw [this]; omega)
          refine ⟨(x, l.size, r.size) :: rest, ?_, by simp; omega, ?_⟩
          · rw [walkCalls_right hinv f hsib _ _ hu, hsz, hrest]; rfl
          · intro call hcall
            rcases List.mem_cons.mp hcall with rfl | hcall
            · exact hhere
            · obtain ⟨c1, c2, l1, k1, r1, e, h1, h2, h3⟩ := hall call hcall
              exact ⟨Frame.right p kp sib :: c1, c2, l1, k1, r1, by rw [e]; rfl, h1, h2, h3⟩

/-- The outcome of the upward walk from the node `x0` on a well-formed tree, for
both outcomes of the buffer allocation at once: either every node on the way to
the root passes the balance test and the call returns `1` without touching the
tree, or the call is one `RebuildSubtree` call, on the first node on the way that
fails the test, with that node's subtree size. -/
theorem FindAndRebalanceRecursive_cases_all (x0 : Nat) : ∀ (c : List (Frame K))
    (t : ScapegoatTree K) (l r : Shape K) (x : Nat) (k : K) (fuel : Nat),
    Inv t (plug c (Shape.node l x k r)) →
    c.length + (plug c (Shape.node l x k r)).size + 2 ≤ fuel →
    x0 ∈ (Shape.node l x k r).ptrs → (Shape.node l x k r).BalancedBelowRoot x0 →
    ((plug c (Shape.node l x k r)).BalancedTowards x0 ∧
      ∀ ok, FindAndRebalanceRecursive fuel t x l.size r.size ok = some (1, t)) ∨
    (∃ c1 c2 u fuel', c = c1 ++ c2 ∧ (plug c1 (Shape.node l x k r)).root = some u ∧
      (plug c1 (Shape.node l x k r)).rootUnbalanced ∧
      (plug c1 (Shape.node l x k r)).BalancedBelowRoot x0 ∧
      x0 ∈ (plug c1 (Shape.node l x k r)).ptrs ∧
      (plug c1 (Shape.node l x k r)).size < fuel' ∧
      ∀ ok, FindAndRebalanceRecursive fuel t x l.size r.size ok
        = RebuildSubtree fuel' t u (plug c1 (Shape.node l x k r)).size ok) := by
  intro c
  induction c with
  | nil =>
    intro t l r x k fuel hinv hfuel hx0 hbelow
    cases fuel with
    | zero => omega
    | succ f =>
      have hsz : l.size + r.size + 1 = (Shape.node l x k r).size := by simp; omega
      by_cases hu : IsUnbalanced l.size r.size ≠ 0
      · refine Or.inr ⟨[], [], x, f, rfl, rfl, hu, hbelow, hx0, ?_, ?_⟩
        · simp only [plug, List.length_nil] at hfuel ⊢; omega
        · intro ok
          rw [FindAndRebalanceRecursive_unbalanced f t x _ _ ok hu, hsz]; rfl
      · refine Or.inl ⟨?_, fun ok => FindAndRebalanceRecursive_root hinv.rep f _ _ ok hu⟩
        exact ⟨fun _ => by simpa using hu, hbelow.1, hbelow.2⟩
  | cons fr c ih =>
    intro t l r x k fuel hinv hfuel hx0 hbelow
    cases fuel with
    | zero => omega
    | succ f =>
      have hsz : l.size + r.size + 1 = (Shape.node l x k r).size := by simp; omega
      have hps := plug_size (fr :: c) (Shape.node l x k r)
      simp only [List.length_cons] at hfuel
      by_cases hu : IsUnbalanced l.size r.size ≠ 0
      · refine Or.inr ⟨[], fr :: c, x, f, rfl, rfl, hu, hbelow, hx0, ?_, ?_⟩
        · simp only [plug]; omega
        · intro ok
          rw [FindAndRebalanceRecursive_unbalanced f t x _ _ ok hu, hsz]; rfl
      · have hroot0 : IsUnbalanced l.size r.size = 0 := by simpa using hu
        obtain ⟨-, hndc, hdisj⟩ := plug_nodup hinv.nodup
        have hxc : x0 ∉ ctxPtrs (fr :: c) := hdisj x0 hx0
        have hself : (Shape.node l x k r).BalancedTowards x0 :=
          ⟨fun _ => hroot0, hbelow.1, hbelow.2⟩
        cases fr with
        | left p kp sib =>
          have hsib : sib.size < f := by
            have : sib.size ≤ (ctxPtrs (Frame.left p kp sib :: c)).length := by
              simp [ctxPtrs, ctxAfter]; omega
            omega
          have hxs : x0 ∉ sib.ptrs := fun h =>
            hxc ((mem_ctxPtrs_left _ _ _ _ _).mpr (Or.inr (Or.inl h)))
          have hstep : ∀ ok, FindAndRebalanceRecursive (f + 1) t x l.size r.size ok
              = FindAndRebalanceRecursive f t p (Shape.node l x k r).size sib.size ok := by
            intro ok
            rw [FindAndRebalanceRecursive_left hinv f hsib _ _ ok hu, hsz]
          rcases ih t (Shape.node l x k r) sib p kp f hinv (by
              have : plug c (Shape.node (Shape.node l x k r) p kp sib)
                = plug (Frame.left p kp sib :: c) (Shape.node l x k r) := rfl
              rw [this]; omega)
            (by rw [Shape.ptrs_node]; exact List.mem_append_left _ hx0)
            ⟨hself, Shape.BalancedTowards_of_not_mem x0 sib hxs⟩ with
            ⟨h, h'⟩ | ⟨c1, c2, u, fuel', e, h1, h2, h3, h4, h5, h6⟩
          · exact Or.inl ⟨h, fun ok => by rw [hstep ok]; exact h' ok⟩
          · exact Or.inr ⟨Frame.left p kp sib :: c1, c2, u, fuel', by rw [e]; rfl,
              h1, h2, h3, h4, h5, fun ok => by rw [hstep ok]; exact h6 ok⟩
        | right p kp sib =>
          have hsib : sib.size < f := by
            have : sib.size ≤ (ctxPtrs (Frame.right p kp sib :: c)).length := by
              simp [ctxPtrs, ctxBefore]; omega
            omega
          have hxs : x0 ∉ sib.ptrs := fun h =>
            hxc ((mem_ctxPtrs_right _ _ _ _ _).mpr (Or.inr (Or.inl h)))
          have hstep : ∀ ok, FindAndRebalanceRecursive (f + 1) t x l.size r.size ok
              = FindAndRebalanceRecursive f t p sib.size (Shape.node l x k r).size ok := by
            intro ok
            rw [FindAndRebalanceRecursive_right hinv f hsib _ _ ok hu, hsz]
          rcases ih t sib (Shape.node l x k r) p kp f hinv (by
              have : plug c (Shape.node sib p kp (Shape.node l x k r))
                = plug (Frame.right p kp sib :: c) (Shape.node l x k r) := rfl
              rw [this]; omega)
            (by rw [Shape.ptrs_node]
                exact List.mem_append_right _ (List.mem_cons_of_mem _ hx0))
            ⟨Shape.BalancedTowards_of_not_mem x0 sib hxs, hself⟩ with
            ⟨h, h'⟩ | ⟨c1, c2, u, fuel', e, h1, h2, h3, h4, h5, h6⟩
          · exact Or.inl ⟨h, fun ok => by rw [hstep ok]; exact h' ok⟩
          · exact Or.inr ⟨Frame.right p kp sib :: c1, c2, u, fuel', by rw [e]; rfl,
              h1, h2, h3, h4, h5, fun ok => by rw [hstep ok]; exact h6 ok⟩

/-- The first half of `ScapegoatInsert` for a key that is not stored, on a
non-empty well-formed tree with the node allocation succeeding, step by step:
`FindClosestNode` returns the node `parent`; the new node is allocated at the
address `t.nodes.length`, its `parent` field is set, and it becomes the left or
the right child of `parent` according to the comparison; the tree `t3` with
these nodes and `tree_size` one more holds the linked shape, and the call
continues as the upward walk from the new node on `t3`. -/
theorem ScapegoatInsert_link_all {t : ScapegoatTree K} {S : Shape K}
    (htot : TotalOrder t.comparator) (hinv : Inv t S) (key : K) (fuel : Nat)
    (hfuel : 2 * S.size + 4 ≤ fuel) (hne : S ≠ Shape.nil)
    (hnew : ∀ a ∈ S.keys, t.comparator key a ≠ 0) :
    ∃ parent pn nodes1 nodes2 nodes3 c,
      FindClosestNode fuel t t.root key = some (some parent) ∧
      readNode t.nodes parent = some pn ∧
      AllocateNewNode t.nodes key true = (nodes1, some t.nodes.length) ∧
      setParent nodes1 t.nodes.length (some parent) = some nodes2 ∧
      (if t.comparator key pn.key < 0 then setLeft nodes2 parent (some t.nodes.length)
        else setRight nodes2 parent (some t.nodes.length)) = some nodes3 ∧
      Inv { t with tree_size := t.tree_size + 1, nodes := nodes3 }
        (plug c (Shape.node Shape.nil t.nodes.length key Shape.nil)) ∧
      linkShape t.comparator S key t.nodes.length
        = plug c (Shape.node Shape.nil t.nodes.length key Shape.nil) ∧
      c ≠ [] ∧ nodes3.length = t.nodes.length + 1 ∧
      (plug c (Shape.node Shape.nil t.nodes.length key Shape.nil)).size = S.size + 1 ∧
      c.length ≤ S.size ∧
      ∀ cok, ScapegoatInsert fuel t key true cok
        = FindAndRebalanceRecursive fuel
            { t with tree_size := t.tree_size + 1, nodes := nodes3 } t.nodes.length 0 0 cok := by
  obtain ⟨P, hSroot⟩ : ∃ P, S.root = some P := by
    cases S with
    | nil => exact absurd rfl hne
    | node L P KP R => exact ⟨P, rfl⟩
  have hroot : t.root = some P := by rw [hinv.root_eq, hSroot]
  obtain ⟨hplug, hb, ha, hasc', hstop⟩ :=
    descend_spec htot key S [] hinv.asc (by simp [ctxBefore]) (by simp [ctxAfter])
  obtain ⟨l, p, k, r, hd2, hreason⟩ := hstop hne
  generalize hd1 : (descend t.comparator key [] S).1 = c at hplug hb ha
  rw [hd2] at hplug hasc'
  have hdesc : descend t.comparator key [] S = (c, Shape.node l p k r) := Prod.ext hd1 hd2
  have hplug' : plug c (Shape.node l p k r) = S := hplug
  have hfind : FindClosestNode fuel t (some P) key = some (some p) := by
    have := FindClosestNode_of_Rep t key S [] none fuel hinv.rep
      (by have := S.levels_le_size; omega)
    rw [hSroot, hd2] at this
    exact this
  have hinvp : Inv t (plug c (Shape.node l p k r)) := by rw [hplug']; exact hinv
  obtain ⟨hctx, hreps⟩ := (Rep_plug _ _ _).mp hinvp.rep
  have hp := hreps.1
  have hlist : S.toList = ctxBefore c ++ ((Shape.node l p k r).toList ++ ctxAfter c) := by
    rw [← hplug', plug_toList]; simp
  have hsize : S.size = (ctxPtrs c).length + (Shape.node l p k r).size := by
    rw [← hplug', plug_size]
  have hcl := ctxPtrs_length_ge c
  have hk : k ∈ S.keys := by
    simp [Shape.keys, hlist]
  have hz : ¬ t.comparator key k = 0 := hnew k hk
  have halloc : AllocateNewNode t.nodes key true
      = (t.nodes ++ [{ parent := none, left := none, right := none, key := key }],
         some t.nodes.length) := by
    simp [AllocateNewNode]
  by_cases hlt : t.comparator key k < 0
  · have hl : l = Shape.nil := by
      rcases hreason with h | h | h
      · exact absurd h hz
      · exact h.2
      · omega
    subst hl
    obtain ⟨nodes2, nodes3, e1, e2, hinv3⟩ := Inv_link_left htot hinvp hb hlt ha
    refine ⟨p, _, _, nodes2, nodes3, Frame.left p k r :: c, by rw [hroot]; exact hfind, hp,
      halloc, e1, ?_, hinv3, ?_, by simp, ?_, ?_, ?_, ?_⟩
    · simp only [hlt, if_true]; exact e2
    · simp [linkShape, hdesc, hz, hlt]
    · rw [setLeft_length e2, setParent_length e1]; simp
    · rw [plug_size, hsize]
      simp [ctxPtrs, ctxBefore, ctxAfter]; omega
    · simp only [List.length_cons, hsize, Shape.size_node]; omega
    · intro cok
      simp [ScapegoatInsert, hroot, hfind, hp, hz, hlt, AllocateNewNode, e1, e2]
  · have hr : r = Shape.nil := by
      rcases hreason with h | h | h
      · exact absurd h hz
      · exact absurd h.1 hlt
      · exact h.2
    subst hr
    have hgt : t.comparator k key < 0 := by
      have := htot.antisymm k key
      omega
    obtain ⟨nodes2, nodes3, e1, e2, hinv3⟩ := Inv_link_right htot hinvp hb hgt ha
    refine ⟨p, _, _, nodes2, nodes3, Frame.right p k l :: c, by rw [hroot]; exact hfind, hp,
      halloc, e1, ?_, hinv3, ?_, by simp, ?_, ?_, ?_, ?_⟩
    · simp only [hlt, if_false]; exact e2
    · simp [linkShape, hdesc, hz, hlt]
    · rw [setRight_length e2, setParent_length e1]; simp
    · rw [plug_size, hsize]
      simp [ctxPtrs, ctxBefore, ctxAfter]; omega
    · simp only [List.length_cons, hsize, Shape.size_node]; omega
    · intro cok
      simp [ScapegoatInsert, hroot, hfind, hp, hz, hlt, AllocateNewNode, e1, e2]

/-- C18 (known sizes are the true sizes).  For an insert of a key that is not
stored into a non-empty well-formed tree, with the node allocation succeeding:
`FindClosestNode` returns the node `parent`, the new node is allocated at the
address `t.nodes.length`, its `parent` field is set and it is made the left or
the right child of `parent` according to the comparison.  The tree `t3` with
these nodes and `tree_size` one more holds the linked shape, and
`ScapegoatInsert` continues on `t3` as the upward walk
`FindAndRebalanceRecursive(new_node, 0, 0)`.  Every call of that walk (the list
`calls`) is made on a node of `t3` that is the root of a subtree of the linked
shape containing the new node, with `left_size` and `right_size` equal to
`GetTreeSize` of the node's left and right child, the sizes of its two
subtrees.  The walk ends with its last call `(u, a, b)`: if `IsUnbalanced(a, b)`
it is `RebuildSubtree(u, a + b + 1)`, otherwise it returns `1`.  In the rebuild,
whenever a buffer is obtained it has at least `a + b + 1` entries,
`TraverseNodesInOrder` from `u` returns having written exactly `a + b + 1`
entries, and so every write was inside the buffer. -/
theorem C18_known_sizes_are_true {t : ScapegoatTree K} {S : Shape K}
    (htot : TotalOrder t.comparator) (hinv : Inv t S) (key : K) (fuel : Nat)
    (hfuel : 2 * S.size + 4 ≤ fuel) (cache_alloc_ok : Bool) (hne : S ≠ Shape.nil)
    (hnew : ∀ a ∈ S.keys, t.comparator key a ≠ 0) :
    ∃ parent pn nodes1 nodes2 nodes3 t3 calls u a b,
      FindClosestNode fuel t t.root key = some (some parent) ∧
      readNode t.nodes parent = some pn ∧
      AllocateNewNode t.nodes key true = (nodes1, some t.nodes.length) ∧
      setParent nodes1 t.nodes.length (some parent) = some nodes2 ∧
      (if t.comparator key pn.key < 0 then setLeft nodes2 parent (some t.nodes.length)
        else setRight nodes2 parent (some t.nodes.length)) = some nodes3 ∧
      t3 = { t with tree_size := t.tree_size + 1, nodes := nodes3 } ∧
      Inv t3 (linkShape t.comparator S key t.nodes.length) ∧
      ScapegoatInsert fuel t key true cache_alloc_ok
        = FindAndRebalanceRecursive fuel t3 t.nodes.length 0 0 cache_alloc_ok ∧
      walkCalls fuel t3 t.nodes.length 0 0 = some calls ∧
      (∀ call ∈ calls,
        (∃ n, readNode t3.nodes call.1 = some n ∧
          GetTreeSize fuel t3.nodes n.left = some call.2.1 ∧
          GetTreeSize fuel t3.nodes n.right = some call.2.2) ∧
        (∃ c2 l1 k1 r1, linkShape t.comparator S key t.nodes.length
            = plug c2 (Shape.node l1 call.1 k1 r1) ∧
          t.nodes.length ∈ (Shape.node l1 call.1 k1 r1).ptrs ∧
          call.2.1 = l1.size ∧ call.2.2 = r1.size)) ∧
      calls.getLast? = some (u, a, b) ∧
      FindAndRebalanceRecursive fuel t3 t.nodes.length 0 0 cache_alloc_ok =
        (if IsUnbalanced a b ≠ 0 then
          RebuildSubtree (fuel - calls.length) t3 u (a + b + 1) cache_alloc_ok
        else some (1, t3)) ∧
      (∀ t4 buf, GetOrAllocateNodePtrCache t3 (a + b + 1) cache_alloc_ok = (t4, some buf) →
        a + b + 1 ≤ buf.length ∧
        ∃ buf', TraverseNodesInOrder (fuel - calls.length) t4.nodes (some u) buf 0
            = some (buf', a + b + 1) ∧ buf'.length = buf.length) := by
  obtain ⟨parent, pn, nodes1, nodes2, nodes3, c, e1, e2, e3, e4, e5, hinv3, hlink, -, -, hsz3,
      hclen, hcomp⟩ := ScapegoatInsert_link_all htot hinv key fuel hfuel hne hnew
  have hfuel3 : c.length
      + (plug c (Shape.node Shape.nil t.nodes.length key Shape.nil)).size + 2 ≤ fuel := by
    rw [hsz3]; omega
  obtain ⟨calls, hcalls, hlen, hall⟩ :=
    walkCalls_subtrees c _ Shape.nil Shape.nil t.nodes.length key fuel hinv3 hfuel3
  obtain ⟨u, a, b, hlast, -, hres⟩ :=
    FindAndRebalanceRecursive_of_walkCalls cache_alloc_ok fuel _ _ _ _ calls hcalls
  have hsub : ∀ call ∈ calls, ∃ c2 l1 k1 r1,
      Inv { t with tree_size := t.tree_size + 1, nodes := nodes3 }
        (plug c2 (Shape.node l1 call.1 k1 r1)) ∧
      (plug c2 (Shape.node l1 call.1 k1 r1)).size = S.size + 1 ∧
      call.2.1 = l1.size ∧ call.2.2 = r1.size ∧
      linkShape t.comparator S key t.nodes.length = plug c2 (Shape.node l1 call.1 k1 r1) ∧
      t.nodes.length ∈ (Shape.node l1 call.1 k1 r1).ptrs := by
    intro call hcall
    obtain ⟨c1, c2, l1, k1, r1, e, h1, h2, h3⟩ := hall call hcall
    have hEq : plug c2 (Shape.node l1 call.1 k1 r1)
        = plug c (Shape.node Shape.nil t.nodes.length key Shape.nil) := by
      rw [← h1, ← plug_append, ← e]
    refine ⟨c2, l1, k1, r1, ?_, ?_, h2, h3, ?_, ?_⟩
    · rw [hEq]; exact hinv3
    · rw [hEq]; exact hsz3
    · rw [hEq]; exact hlink
    · rw [← h1]; exact mem_plug_ptrs c1 (by simp)
  refine ⟨parent, pn, nodes1, nodes2, nodes3, _, calls, u, a, b, e1, e2, e3, e4, e5, rfl,
    by rw [hlink]; exact hinv3, hcomp cache_alloc_ok, hcalls, ?_, hlast, hres, ?_⟩
  · intro call hcall
    obtain ⟨c2, l1, k1, r1, hinvc, hsame, h2, h3, h4, h5⟩ := hsub call hcall
    obtain ⟨-, hreps⟩ := (Rep_plug _ _ _).mp hinvc.rep
    refine ⟨?_, c2, l1, k1, r1, h4, h5, h2, h3⟩
    rw [h2, h3]
    refine true_sizes_of_Rep hreps fuel ?_
    have := plug_size c2 (Shape.node l1 call.1 k1 r1)
    omega
  · intro t4 buf hG
    have hmem : (u, a, b) ∈ calls := List.mem_of_mem_getLast? hlast
    obtain ⟨c2, l1, k1, r1, hinvc, hsame, h2, h3, -, -⟩ := hsub (u, a, b) hmem
    dsimp only at hinvc hsame h2 h3
    obtain ⟨-, hreps⟩ := (Rep_plug _ _ _).mp hinvc.rep
    have hsz : a + b + 1 = (Shape.node l1 u k1 r1).size := by
      rw [h2, h3]; simp; omega
    have hps := plug_size c2 (Shape.node l1 u k1 r1)
    have hle := hinvc.size_le
    obtain ⟨t1, res, hG1, hn1, -, -, -, -, hresc⟩ :=
      GetOrAllocateNodePtrCache_cases _ (a + b + 1) cache_alloc_ok hinvc.cache_some
        hinvc.cache_none (by omega) (by rw [hsz]; omega)
    rw [hG] at hG1
    obtain ⟨rfl, rfl⟩ : t4 = t1 ∧ some buf = res := by
      simpa using hG1
    obtain ⟨hcap, -⟩ := hresc
    have hlev : (Shape.node l1 u k1 r1).levels < fuel - calls.length := by
      have := (Shape.node l1 u k1 r1).levels_le_size
      omega
    have hT := TraverseNodesInOrder_zero nodes3 (Shape.node l1 u k1 r1) (ctxParent c2)
      (fuel - calls.length) buf hreps hlev (by rw [← hsz]; exact hcap)
    refine ⟨hcap, (Shape.node l1 u k1 r1).ptrs.map some
      ++ buf.drop (Shape.node l1 u k1 r1).size, ?_, ?_⟩
    · rw [hn1, hsz]
      exact hT
    · simp only [List.length_append, List.length_map, Shape.length_ptrs, List.length_drop]
      rw [← hsz]; omega

/-- Witness of C18: inserting `3` into the chain `0, 1, 2`. -/
theorem C18_known_sizes_are_true_witness :
    TotalOrder chain3.comparator ∧ Inv chain3 chain3Shape ∧ 2 * chain3Shape.size + 4 ≤ 10 ∧
    chain3Shape ≠ Shape.nil ∧ (∀ a ∈ chain3Shape.keys, chain3.comparator 3 a ≠ 0) ∧
    ∃ t3 calls,
      Inv t3 (linkShape chain3.comparator chain3Shape 3 chain3.nodes.length) ∧
      ScapegoatInsert 10 chain3 3 true true
        = FindAndRebalanceRecursive 10 t3 chain3.nodes.length 0 0 true ∧
      walkCalls 10 t3 chain3.nodes.length 0 0 = some calls ∧
      (∀ call ∈ calls, ∃ n, readNode t3.nodes call.1 = some n ∧
        GetTreeSize 10 t3.nodes n.left = some call.2.1 ∧
        GetTreeSize 10 t3.nodes n.right = some call.2.2) := by
  have h4 : chain3Shape ≠ Shape.nil := by simp [chain3Shape]
  have h5 : ∀ a ∈ chain3Shape.keys, chain3.comparator 3 a ≠ 0 := by decide
  obtain ⟨-, -, -, -, -, t3, calls, -, -, -, -, -, -, -, -, -, a, b, c, d, -⟩ :=
    C18_known_sizes_are_true IntComparator_total chain3_inv 3 10 (by decide) true h4 h5
  exact ⟨IntComparator_total, chain3_inv, by decide, h4, h5, t3, calls, a, b, c,
    fun call hcall => (d call hcall).1⟩

/-- A buffer request above the capacity whose allocation fails leaves a capacity
below the request. -/
theorem GetOrAllocateNodePtrCache_fail_size (t : ScapegoatTree K) (req : Nat)
    (h : t.node_ptr_cache_size < req) :
    (GetOrAllocateNodePtrCache t req false).1.node_ptr_cache_size < req := by
  unfold GetOrAllocateNodePtrCache
  rw [if_neg (by omega)]
  split
  · exact h
  · simp only [Bool.false_eq_true, if_false]
    omega

/-- C9 (failed rebalance keeps the key).  For a non-empty well-formed tree and
a key that is not stored, with the node allocation succeeding and the scratch
buffer allocation failing: if, once the new node is linked, some node on the
path from the new node to the root fails `IsUnbalanced` (a rebuild is due), and
the scratch buffer has fewer entries than every subtree on that path whose root
fails the test (the walk rebuilds the first of them on the way up, which is the
smallest, so the buffer has to be grown), then `ScapegoatInsert` returns `0` and
nevertheless the key is in the tree: the resulting tree is well formed and holds
the linked shape (the plain insertion of the new node as a leaf, nothing is
rolled back), the new node with the key is in it, and a following
`ScapegoatSearch(tree, key)` returns that very key. -/
theorem C9_failed_rebalance_keeps_key {t : ScapegoatTree K} {S : Shape K}
    (htot : TotalOrder t.comparator) (hinv : Inv t S) (key : K) (fuel : Nat)
    (hfuel : 2 * S.size + 4 ≤ fuel) (hne : S ≠ Shape.nil)
    (hnew : ∀ a ∈ S.keys, t.comparator key a ≠ 0)
    (hunb : ¬ (linkShape t.comparator S key t.nodes.length).BalancedTowards t.nodes.length)
    (hgrow : ∀ c U, linkShape t.comparator S key t.nodes.length = plug c U →
      t.nodes.length ∈ U.ptrs → U.rootUnbalanced → t.node_ptr_cache_size < U.size) :
    ∃ t', ScapegoatInsert fuel t key true false = some (0, t') ∧
      ScapegoatSearch fuel t' key = some (some key) ∧
      Inv t' (linkShape t.comparator S key t.nodes.length) ∧
      (t.nodes.length, key) ∈ (linkShape t.comparator S key t.nodes.length).toList ∧
      (linkShape t.comparator S key t.nodes.length).size = S.size + 1 ∧
      t'.nodes.length = t.nodes.length + 1 ∧ t'.tree_size = t.tree_size + 1 := by
  obtain ⟨parent, pn, nodes1, nodes2, nodes3, c, -, -, -, -, -, hinv3, hlink, -, hlen3, hsz3,
      hclen, hcomp⟩ := ScapegoatInsert_link_all htot hinv key fuel hfuel hne hnew
  rcases FindAndRebalanceRecursive_cases_all t.nodes.length c _ Shape.nil Shape.nil
      t.nodes.length key fuel hinv3 (by rw [hsz3]; omega) (by simp) ⟨trivial, trivial⟩ with
    ⟨h, -⟩ | ⟨c1, c2, u, fuel', e, h1, h2, h3, h4, h5, h6⟩
  · rw [← hlink] at h
    exact absurd h hunb
  · obtain ⟨l1, k1, r1, hU⟩ := Shape.eq_node_of_root h1
    have hinvU : Inv { t with tree_size := t.tree_size + 1, nodes := nodes3 }
        (plug c2 (Shape.node l1 u k1 r1)) := by
      rw [← hU, ← plug_append, ← e]; exact hinv3
    have hcap : t.node_ptr_cache_size
        < (plug c1 (Shape.node Shape.nil t.nodes.length key Shape.nil)).size :=
      hgrow c2 _ (by rw [hlink, e, plug_append]) h4 h2
    rw [hU] at h5 hcap
    obtain ⟨ret, t', hR, -, hts, hcases⟩ := RebuildSubtree_full hinvU fuel' h5 false
    have hins : ScapegoatInsert fuel t key true false = some (ret, t') := by
      have h6' := h6 false
      simp only [Shape.size_nil] at h6'
      rw [hcomp false, h6', hU]; exact hR
    rcases hcases with ⟨-, -, -, buf, -, -, hle⟩ | ⟨h0, -, hnodes, -, hinv'⟩
    · exfalso
      have h7 := RebuildSubtree_cache_size hR
      have h8 := GetOrAllocateNodePtrCache_fail_size
        { t with tree_size := t.tree_size + 1, nodes := nodes3 } _ hcap
      omega
    · subst h0
      refine ⟨t', hins, (ScapegoatInsert_zero_keeps_key htot hinv key fuel hfuel false hins).2.1,
        ?_, ?_, ?_, ?_, ?_⟩
      · rw [hlink, e, plug_append, hU]; exact hinv'
      · rw [hlink, plug_toList]; simp
      · rw [hlink]; exact hsz3
      · rw [hnodes]; exact hlen3
      · rw [hts]

/-- Witness of C9: on the chain `0, 1, 2`, which has no scratch buffer yet,
inserting `3` makes the root unbalanced; with the scratch buffer allocation
failing the call returns `0`, and `3` is found. -/
theorem C9_failed_rebalance_keeps_key_witness :
    TotalOrder chain3.comparator ∧ Inv chain3 chain3Shape ∧ 2 * chain3Shape.size + 4 ≤ 10 ∧
    chain3Shape ≠ Shape.nil ∧ (∀ a ∈ chain3Shape.keys, chain3.comparator 3 a ≠ 0) ∧
    ¬ (linkShape chain3.comparator chain3Shape 3 chain3.nodes.length).BalancedTowards
        chain3.nodes.length ∧
    (∀ c U, linkShape chain3.comparator chain3Shape 3 chain3.nodes.length = plug c U →
      chain3.nodes.length ∈ U.ptrs → U.rootUnbalanced → chain3.node_ptr_cache_size < U.size) ∧
    ∃ t', ScapegoatInsert 10 chain3 3 true false = some (0, t') ∧
      ScapegoatSearch 10 t' 3 = some (some 3) := by
  have h4 : chain3Shape ≠ Shape.nil := by simp [chain3Shape]
  have h5 : ∀ a ∈ chain3Shape.keys, chain3.comparator 3 a ≠ 0 := by decide
  have h6 : ¬ (linkShape chain3.comparator chain3Shape 3 chain3.nodes.length).BalancedTowards
      chain3.nodes.length := by
    intro h
    have h0 : IsUnbalanced 0 3 = 0 := h.1 (by decide)
    revert h0
    decide
  have h7 : ∀ c U, linkShape chain3.comparator chain3Shape 3 chain3.nodes.length = plug c U →
      chain3.nodes.length ∈ U.ptrs → U.rootUnbalanced →
      chain3.node_ptr_cache_size < U.size := by
    intro c U _ hx _
    rw [← Shape.length_ptrs]
    exact List.length_pos_of_mem hx
  obtain ⟨t', a, b, -⟩ :=
    C9_failed_rebalance_keeps_key IntComparator_total chain3_inv 3 10 (by decide) h4 h5 h6 h7
  exact ⟨IntComparator_total, chain3_inv, by decide, h4, h5, h6, h7, t', a, b⟩

theorem Rep_root_parent {nodes : List (ScapegoatTreeNode K)} {par : Option Nat} {s : Shape K}
    {c : Nat} (h : Rep nodes par s) (hc : s.root = some c) :
    ∃ m, readNode nodes c = some m ∧ m.parent = par := by
  obtain ⟨l, k, r, rfl⟩ := Shape.eq_node_of_root hc
  exact ⟨_, h.1, rfl⟩

/-- In a stored shape every child pointer leads to a node of the shape whose
parent pointer leads back. -/
theorem Rep_parent_links (nodes : List (ScapegoatTreeNode K)) (s : Shape K) :
    ∀ par, Rep nodes par s → ∀ p ∈ s.ptrs, ∃ n, readNode nodes p = some n ∧
      (∀ c, n.left = some c → c ∈ s.ptrs ∧ ∃ m, readNode nodes c = some m ∧ m.parent = some p) ∧
      (∀ c, n.right = some c →
        c ∈ s.ptrs ∧ ∃ m, readNode nodes c = some m ∧ m.parent = some p) := by
  induction s with
  | nil => intro par _ p hp; simp at hp
  | node l x k r ihl ihr =>
    intro par h p hp
    obtain ⟨h1, h2, h3⟩ := h
    simp only [Shape.ptrs_node, List.mem_append, List.mem_cons] at hp
    rcases hp with hp | rfl | hp
    · obtain ⟨n, hn, a, b⟩ := ihl _ h2 p hp
      refine ⟨n, hn, fun c hc => ?_, fun c hc => ?_⟩
      · exact ⟨by rw [Shape.ptrs_node]; exact List.mem_append_left _ (a c hc).1, (a c hc).2⟩
      · exact ⟨by rw [Shape.ptrs_node]; exact List.mem_append_left _ (b c hc).1, (b c hc).2⟩
    · refine ⟨_, h1, fun c hc => ?_, fun c hc => ?_⟩
      · have hc' : l.root = some c := hc
        exact ⟨by rw [Shape.ptrs_node]
                  exact List.mem_append_left _ (Shape.root_mem_ptrs hc'),
          Rep_root_parent h2 hc'⟩
      · have hc' : r.root = some c := hc
        exact ⟨by rw [Shape.ptrs_node]
                  exact List.mem_append_right _
                    (List.mem_cons_of_mem _ (Shape.root_mem_ptrs hc')),
          Rep_root_parent h3 hc'⟩
    · obtain ⟨n, hn, a, b⟩ := ihr _ h3 p hp
      refine ⟨n, hn, fun c hc => ?_, fun c hc => ?_⟩
      · exact ⟨by rw [Shape.ptrs_node]
                  exact List.mem_append_right _ (List.mem_cons_of_mem _ (a c hc).1),
          (a c hc).2⟩
      · exact ⟨by rw [Shape.ptrs_node]
                  exact List.mem_append_right _ (List.mem_cons_of_mem _ (b c hc).1),
          (b c hc).2⟩

/-- C17 (parent links stay consistent).  For every total-order comparator and
every tree reached from `CreateScapegoatTree` by a sequence of `ScapegoatInsert`
calls (successful or not, with or without rebuilds): the nodes reachable from
the root are the nodes of the shape `S` the tree holds (the in-order traversal
from the root lists exactly them); the root's parent is `NULL`; and for every
reachable node `p`, a non-`NULL` `p.left` is a reachable node whose parent is
`p`, and so is a non-`NULL` `p.right`. -/
theorem C17_parent_links_consistent (cmp : K → K → Int) (htot : TotalOrder cmp)
    (ops : List (K × Bool × Bool)) (fuel : Nat) (hfuel : 2 * ops.length + 4 ≤ fuel) :
    ∃ t0 rets t S, CreateScapegoatTree cmp true = some t0 ∧
      insertMany fuel t0 ops = some (rets, t) ∧ Inv t S ∧
      (∀ buf : List (Option Nat), S.size ≤ buf.length →
        TraverseNodesInOrder fuel t.nodes t.root buf 0
          = some (S.ptrs.map some ++ buf.drop S.size, S.size)) ∧
      (∀ r, t.root = some r → ∃ n, readNode t.nodes r = some n ∧ n.parent = none) ∧
      (∀ p ∈ S.ptrs, ∃ n, readNode t.nodes p = some n ∧
        (∀ c, n.left = some c →
          c ∈ S.ptrs ∧ ∃ m, readNode t.nodes c = some m ∧ m.parent = some p) ∧
        (∀ c, n.right = some c →
          c ∈ S.ptrs ∧ ∃ m, readNode t.nodes c = some m ∧ m.parent = some p)) := by
  obtain ⟨t0, h0, hinv0, hc0, -, -⟩ := CreateScapegoatTree_inv cmp
  obtain ⟨rets, t, S, hrun, hinv, -, hsz, -, -, -, -, -⟩ :=
    insertMany_spec ops t0 Shape.nil fuel (by rw [hc0]; exact htot) hinv0
      (by simp only [Shape.size_nil]; omega)
  simp only [Shape.size_nil, Nat.zero_add] at hsz
  refine ⟨t0, rets, t, S, h0, hrun, hinv, ?_, ?_, Rep_parent_links t.nodes S none hinv.rep⟩
  · intro buf hbuf
    rw [hinv.root_eq]
    exact TraverseNodesInOrder_zero t.nodes S none fuel buf hinv.rep
      (by have := S.levels_le_size; omega) hbuf
  · intro r hr
    rw [hinv.root_eq] at hr
    exact Rep_root_parent hinv.rep hr

/-- Witness of C17: the keys `0, 1, 2, 3` inserted (the last insert rebuilds). -/
theorem C17_parent_links_consistent_witness :
    TotalOrder IntComparator ∧ 2 * (allOk [(0 : Int), 1, 2, 3]).length + 4 ≤ 12 ∧
    ∃ t0 rets t, CreateScapegoatTree IntComparator true = some t0 ∧
      insertMany 12 t0 (allOk [(0 : Int), 1, 2, 3]) = some (rets, t) ∧
      ∀ r, t.root = some r → ∃ n, readNode t.nodes r = some n ∧ n.parent = none := by
  obtain ⟨t0, rets, t, S, a, b, -, -, c, -⟩ :=
    C17_parent_links_consistent IntComparator IntComparator_total
      (allOk [(0 : Int), 1, 2, 3]) 12 (by decide)
  exact ⟨IntComparator_total, by decide, t0, rets, t, a, b, c⟩

/-- C19 (re-attachment and frame of a rebuild).  On a well-formed tree, let
`RebuildSubtree` on the node `x` (with its subtree's size) return `1`, and let
`y` be the new subtree root.  The parent link of `x` before the call is the
parent `p` on its path (or `NULL`).  If `x` had the parent `p`: the node `p`
afterwards is the node `p` before with `left` set to `y` when `x` was its left
child, and with `right` set to `y` otherwise (then `x` was its right child);
the parent link of `y` is `p`; and `tree.root` is unchanged.  If `x` had no
parent: `tree.root` is `y` and the parent link of `y` is `NULL`.  Every node
outside the rebuilt subtree other than `p` has all its fields unchanged. -/
theorem C19_reattachment_and_frame {t t' : ScapegoatTree K} {c : List (Frame K)}
    {l r : Shape K} {x : Nat} {k : K} (hinv : Inv t (plug c (Shape.node l x k r)))
    (fuel : Nat) (hfuel : (Shape.node l x k r).size < fuel) (ok : Bool)
    (hrun : RebuildSubtree fuel t x (Shape.node l x k r).size ok = some (1, t')) :
    ∃ y, (balanced (Shape.node l x k r).toList).root = some y ∧
      Inv t' (plug c (balanced (Shape.node l x k r).toList)) ∧
      (∃ n, readNode t.nodes x = some n ∧ n.parent = ctxParent c) ∧
      (∃ m, readNode t'.nodes y = some m ∧ m.parent = ctxParent c) ∧
      (∀ p, ctxParent c = some p →
        t'.root = t.root ∧
        ∃ pn pn', readNode t.nodes p = some pn ∧ readNode t'.nodes p = some pn' ∧
          ((pn.left = some x ∧ pn' = { pn with left := some y }) ∨
           (pn.left ≠ some x ∧ pn.right = some x ∧ pn' = { pn with right := some y }))) ∧
      (ctxParent c = none → t'.root = some y) ∧
      (∀ q, q ∉ (Shape.node l x k r).ptrs → ctxParent c ≠ some q →
        readNode t'.nodes q = readNode t.nodes q) := by
  obtain ⟨ret, t1, h1, -, -, hcases⟩ := RebuildSubtree_full hinv fuel hfuel ok
  rw [hrun] at h1
  have e := Option.some.inj h1
  have e1 : 1 = ret := congrArg Prod.fst e
  have e2 : t' = t1 := congrArg Prod.snd e
  subst e1
  subst e2
  rcases hcases with ⟨-, hinv', hout, -⟩ | ⟨h0, -⟩
  swap
  · cases h0
  have hU : (balanced (Shape.node l x k r).toList).toList = (Shape.node l x k r).toList :=
    balanced_toList _
  have hsz : (balanced (Shape.node l x k r).toList).size = (Shape.node l x k r).size :=
    Shape.size_eq_of_toList hU
  generalize balanced (Shape.node l x k r).toList = U at hinv' hU hsz ⊢
  have hUne : U.root ≠ none := by
    intro h
    rw [(Shape.root_eq_none_iff U).mp h] at hsz
    simp at hsz
    omega
  obtain ⟨y, hy⟩ := Option.ne_none_iff_exists'.mp hUne
  obtain ⟨hctx, hreps⟩ := (Rep_plug _ _ _).mp hinv.rep
  obtain ⟨hctx', hreps'⟩ := (Rep_plug _ _ _).mp hinv'.rep
  obtain ⟨-, -, hdisj⟩ := plug_nodup hinv.nodup
  refine ⟨y, hy, hinv', ⟨_, hreps.1, rfl⟩, Rep_root_parent hreps' hy, ?_, ?_, hout⟩
  · intro p hp
    cases c with
    | nil => cases hp
    | cons fr c =>
      have hxc : x ∉ ctxPtrs (fr :: c) := hdisj x (by simp)
      refine ⟨?_, ?_⟩
      · rw [hinv'.root_eq, hinv.root_eq]
        exact plug_root_cons fr c _ _
      · rw [hy] at hctx'
        cases fr with
        | left q kq sib =>
          simp only [ctxParent, Frame.ptr, Option.some.injEq] at hp
          subst hp
          exact ⟨_, _, hctx.1, hctx'.1, Or.inl ⟨rfl, rfl⟩⟩
        | right q kq sib =>
          simp only [ctxParent, Frame.ptr, Option.some.injEq] at hp
          subst hp
          have hsx : sib.root ≠ some x := by
            intro hs
            exact hxc ((mem_ctxPtrs_right _ _ _ _ _).mpr
              (Or.inr (Or.inl (Shape.root_mem_ptrs hs))))
          exact ⟨_, _, hctx.1, hctx'.1, Or.inr ⟨hsx, rfl, rfl⟩⟩
  · intro hp
    cases c with
    | nil => rw [hinv'.root_eq]; exact hy
    | cons fr c => cases hp

/-- Witness of C19: in the chain `0, 1, 2`, rebuilding the two-node subtree at
the node `1`, the right child of the root `0`. -/
theorem C19_reattachment_and_frame_witness :
    ∃ t', RebuildSubtree 5 chain3 1 2 true = some (1, t') ∧
      ∃ y, (balanced (Shape.node Shape.nil 1 (1 : Int)
          (Shape.node Shape.nil 2 2 Shape.nil)).toList).root = some y ∧
        t'.root = chain3.root := by
  obtain ⟨y, a, -, -, -, b, -⟩ :=
    C19_reattachment_and_frame (c := [Frame.right 0 (0 : Int) Shape.nil]) (l := Shape.nil)
      (x := 1) (k := (1 : Int)) (r := Shape.node Shape.nil 2 2 Shape.nil)
      (t := chain3) chain3_inv 5 (by decide) true rfl
  exact ⟨_, rfl, y, a, (b 0 rfl).1⟩

/-- C20 (closest-node search).  On a well-formed tree with a total-order
comparator, `FindClosestNode` from the root returns; it returns `NULL` if and
only if the tree has no root; a node it returns is a node of the tree, and if
some stored key compares equal to the key then the returned node holds a key
that compares equal; otherwise the comparator's sign at the returned node is
negative with an empty left slot, or positive with an empty right slot, and
linking a new node for the key there (as `ScapegoatInsert` does) gives a
well-formed tree, its keys still in strictly ascending order, holding the
linked shape. -/
theorem C20_closest_node {t : ScapegoatTree K} {S : Shape K}
    (htot : TotalOrder t.comparator) (hinv : Inv t S) (key : K) (fuel : Nat)
    (hfuel : S.levels < fuel) :
    ∃ res, FindClosestNode fuel t t.root key = some res ∧
      (res = none ↔ t.root = none) ∧
      (∀ p, res = some p → ∃ n, readNode t.nodes p = some n ∧ p ∈ S.ptrs ∧
        ((∃ a ∈ S.keys, t.comparator key a = 0) → t.comparator key n.key = 0) ∧
        (t.comparator key n.key = 0 ∨
          (t.comparator key n.key < 0 ∧ n.left = none ∧
            ∃ nodes2 nodes3,
              setParent (t.nodes ++ [{ parent := none, left := none, right := none,
                                       key := key }]) t.nodes.length (some p) = some nodes2 ∧
              setLeft nodes2 p (some t.nodes.length) = some nodes3 ∧
              Inv { t with tree_size := t.tree_size + 1, nodes := nodes3 }
                (linkShape t.comparator S key t.nodes.length)) ∨
          (0 < t.comparator key n.key ∧ n.right = none ∧
            ∃ nodes2 nodes3,
              setParent (t.nodes ++ [{ parent := none, left := none, right := none,
                                       key := key }]) t.nodes.length (some p) = some nodes2 ∧
              setRight nodes2 p (some t.nodes.length) = some nodes3 ∧
              Inv { t with tree_size := t.tree_size + 1, nodes := nodes3 }
                (linkShape t.comparator S key t.nodes.length)))) := by
  by_cases hne : S = Shape.nil
  · subst hne
    have hroot : t.root = none := hinv.root_eq
    refine ⟨none, ?_, by simp [hroot], fun p hp => by cases hp⟩
    cases fuel with
    | zero => simp at hfuel
    | succ f => simp [FindClosestNode, hroot]
  · obtain ⟨P, hSroot⟩ : ∃ P, S.root = some P := by
      cases S with
      | nil => exact absurd rfl hne
      | node L P KP R => exact ⟨P, rfl⟩
    have hroot : t.root = some P := by rw [hinv.root_eq, hSroot]
    obtain ⟨hplug, hb, ha, hasc', hstop⟩ :=
      descend_spec htot key S [] hinv.asc (by simp [ctxBefore]) (by simp [ctxAfter])
    obtain ⟨l, p, k, r, hd2, hreason⟩ := hstop hne
    generalize hd1 : (descend t.comparator key [] S).1 = c at hplug hb ha
    rw [hd2] at hplug hasc'
    have hdesc : descend t.comparator key [] S = (c, Shape.node l p k r) := Prod.ext hd1 hd2
    have hplug' : plug c (Shape.node l p k r) = S := hplug
    have hfind : FindClosestNode fuel t (some P) key = some (some p) := by
      have := FindClosestNode_of_Rep t key S [] none fuel hinv.rep hfuel
      rw [hSroot, hd2] at this
      exact this
    have hinvp : Inv t (plug c (Shape.node l p k r)) := by rw [hplug']; exact hinv
    obtain ⟨hctx, hreps⟩ := (Rep_plug _ _ _).mp hinvp.rep
    have hp := hreps.1
    have hlist : S.toList = ctxBefore c ++ ((Shape.node l p k r).toList ++ ctxAfter c) := by
      rw [← hplug', plug_toList]; simp
    obtain ⟨-, -, hlk, hkr⟩ := Ascending_node hasc'
    have hpmem : p ∈ S.ptrs := by
      rw [← hplug']
      exact mem_plug_ptrs_iff.mpr (Or.inl (by simp))
    refine ⟨some p, by rw [hroot]; exact hfind, by simp [hroot], ?_⟩
    intro p' hp'
    cases hp'
    refine ⟨_, hp, hpmem, ?_, ?_⟩
    · -- a stored key that compares equal is found
      rintro ⟨a, hamem, haeq⟩
      show t.comparator key k = 0
      by_contra hz
      simp only [Shape.keys, hlist, List.map_append, List.mem_append, List.mem_map] at hamem
      have hkey_a : t.comparator a key = 0 := htot.eq_symm haeq
      rcases hamem with ⟨b, hbm, rfl⟩ | ⟨b, hbm, rfl⟩ | ⟨b, hbm, rfl⟩
      · have := hb b hbm
        omega
      · simp only [Shape.toList_node, List.mem_append, List.mem_cons] at hbm
        rcases hreason with h | ⟨hlt, hl⟩ | ⟨hgt, hr⟩
        · exact hz h
        · subst hl
          rcases hbm with hbm | rfl | hbm
          · simp at hbm
          · exact hz haeq
          · have := htot.lt_trans hlt (hkr _ (Shape.mem_keys_of_mem_toList hbm))
            omega
        · subst hr
          have hkk : t.comparator k key < 0 := (htot.gt_iff key k).mp hgt
          rcases hbm with hbm | rfl | hbm
          · have := htot.lt_trans (hlk _ (Shape.mem_keys_of_mem_toList hbm)) hkk
            omega
          · exact hz haeq
          · simp at hbm
      · have := ha b hbm
        omega
    · show t.comparator key k = 0 ∨ (t.comparator key k < 0 ∧ l.root = none ∧ _) ∨
        (0 < t.comparator key k ∧ r.root = none ∧ _)
      by_cases hz : t.comparator key k = 0
      · exact Or.inl hz
      · by_cases hlt : t.comparator key k < 0
        · have hl : l = Shape.nil := by
            rcases hreason with h | h | h
            · exact absurd h hz
            · exact h.2
            · omega
          subst hl
          obtain ⟨nodes2, nodes3, e1, e2, hinv3⟩ := Inv_link_left htot hinvp hb hlt ha
          have hlink : linkShape t.comparator S key t.nodes.length
              = plug (Frame.left p k r :: c)
                  (Shape.node Shape.nil t.nodes.length key Shape.nil) := by
            simp [linkShape, hdesc, hz, hlt]
          exact Or.inr (Or.inl ⟨hlt, rfl, nodes2, nodes3, e1, e2, by rw [hlink]; exact hinv3⟩)
        · have hr : r = Shape.nil := by
            rcases hreason with h | h | h
            · exact absurd h hz
            · exact absurd h.1 hlt
            · exact h.2
          subst hr
          have hgt : t.comparator k key < 0 := by
            have := htot.antisymm k key
            omega
          obtain ⟨nodes2, nodes3, e1, e2, hinv3⟩ := Inv_link_right htot hinvp hb hgt ha
          have hlink : linkShape t.comparator S key t.nodes.length
              = plug (Frame.right p k l :: c)
                  (Shape.node Shape.nil t.nodes.length key Shape.nil) := by
            simp [linkShape, hdesc, hz, hlt]
          exact Or.inr (Or.inr ⟨(htot.gt_iff key k).mpr hgt, rfl, nodes2, nodes3, e1, e2,
            by rw [hlink]; exact hinv3⟩)

/-- Witness of C20: the search for `3` in the chain `0, 1, 2` returns the node
`2`. -/
theorem C20_closest_node_witness :
    TotalOrder chain3.comparator ∧ Inv chain3 chain3Shape ∧ chain3Shape.levels < 5 ∧
    FindClosestNode 5 chain3 chain3.root 3 = some (some 2) ∧
    ∃ res, FindClosestNode 5 chain3 chain3.root 3 = some res ∧
      (res = none ↔ chain3.root = none) := by
  obtain ⟨res, a, b, -⟩ := C20_closest_node IntComparator_total chain3_inv 3 5 (by decide)
  exact ⟨IntComparator_total, chain3_inv, by decide, rfl, res, a, b⟩

/-! ### Ascending insertions seen on the right spine -/

theorem spSize_append (a b : List (Nat × Nat)) : spSize (a ++ b) = spSize a + spSize b := by
  induction a with
  | nil => simp [spSize]
  | cons x a ih =>
    show spSize (x :: (a ++ b)) = spSize (x :: a) + spSize b
    simp only [spSize, ih]; omega

theorem spSize_rspine (s : Shape K) : spSize (rspine s) = s.size := by
  induction s with
  | nil => rfl
  | node l p k r ihl ihr =>
    simp only [rspine, spSize_append, ihr, spSize, Shape.size_node]; omega

theorem spLevels_rspine (s : Shape K) : spLevels (rspine s).reverse = s.levels := by
  induction s with
  | nil => rfl
  | node l p k r ihl ihr =>
    simp only [rspine, List.reverse_append, List.reverse_cons, List.reverse_nil,
      List.nil_append, List.cons_append, spLevels, ihr, Shape.levels_node]

theorem rspine_plug : ∀ (c : List (Frame K)) (s : Shape K), AllRight c →
    rspine (plug c s) = rspine s ++ absCtx c := by
  intro c
  induction c with
  | nil => intro s _; simp [plug, absCtx]
  | cons f c ih =>
    intro s h
    cases f with
    | left p k sib => exact absurd h (by simp [AllRight])
    | right p k sib =>
      show rspine (plug c (Shape.node sib p k s)) = _
      rw [ih _ h]
      simp [rspine, absCtx]

theorem buildShape_levels : ∀ (f : Nat) (l : List (Nat × K)),
    (buildShape f l).levels = blevels f l.length := by
  intro f
  induction f with
  | zero => intro l; rfl
  | succ f ih =>
    intro l
    cases hm : l[l.length / 2]? with
    | none =>
      have h0 : l.length = 0 := by
        have := List.getElem?_eq_none_iff.mp hm
        omega
      have hnil : l = [] := List.length_eq_zero.mp h0
      subst hnil
      simp [buildShape, blevels]
    | some pk =>
      have hlt : l.length / 2 < l.length := (List.getElem?_eq_some.mp hm).1
      have hne : ¬ l.length = 0 := by omega
      simp only [buildShape, hm, Shape.levels_node, ih, blevels, hne, if_false,
        List.length_take, List.length_drop]
      rw [Nat.min_eq_left (Nat.le_of_lt hlt)]

theorem rspine_buildShape : ∀ (f : Nat) (l : List (Nat × K)) (acc : List (Nat × Nat)),
    l.length ≤ f → rspine (buildShape f l) ++ acc = bspineAcc f l.length acc := by
  intro f
  induction f with
  | zero =>
    intro l acc _
    rfl
  | succ f ih =>
    intro l acc hl
    cases hm : l[l.length / 2]? with
    | none =>
      have h0 : l.length = 0 := by
        have := List.getElem?_eq_none_iff.mp hm
        omega
      have hnil : l = [] := List.length_eq_zero.mp h0
      subst hnil
      simp [buildShape, bspineAcc, rspine]
    | some pk =>
      have hlt : l.length / 2 < l.length := (List.getElem?_eq_some.mp hm).1
      have hne : ¬ l.length = 0 := by omega
      have h1 : (l.take (l.length / 2)).length ≤ f := by simp; omega
      have h2 : (l.drop (l.length / 2 + 1)).length ≤ f := by simp; omega
      have s1 : (buildShape f (l.take (l.length / 2))).size = l.length / 2 := by
        rw [buildShape_size _ _ h1]; simp; omega
      have l1 : (buildShape f (l.take (l.length / 2))).levels = blevels f (l.length / 2) := by
        rw [buildShape_levels]; simp; congr 1; omega
      simp only [buildShape, hm, rspine, bspineAcc, hne, if_false, List.append_assoc,
        List.singleton_append, s1, l1]
      rw [ih _ _ h2]
      simp

theorem unbalanced_iff_exact (ls rs : Nat) (h : ls + rs + 1 < 2 ^ 31) :
    IsUnbalanced ls rs ≠ 0 ↔ (7 * (ls + rs + 1) < 10 * ls ∨ 7 * (ls + rs + 1) < 10 * rs) := by
  rw [Ne, IsUnbalanced_iff ls rs h]
  rcases Nat.le_total ls rs with hlr | hlr
  · rw [max_eq_right hlr]; omega
  · rw [max_eq_left hlr]; omega

theorem awalk_rebuild (ctx : List (Nat × Nat)) (ls rs : Nat) (full : List (Nat × Nat))
    (h : 7 * (ls + rs + 1) < 10 * ls ∨ 7 * (ls + rs + 1) < 10 * rs) :
    awalk ctx ls rs full = bspineAcc (ls + rs + 1) (ls + rs + 1) ctx := by
  cases ctx with
  | nil => simp only [awalk, if_pos h]
  | cons a ctx => simp only [awalk, if_pos h]

theorem awalk_nil (ls rs : Nat) (full : List (Nat × Nat))
    (h : ¬ (7 * (ls + rs + 1) < 10 * ls ∨ 7 * (ls + rs + 1) < 10 * rs)) :
    awalk [] ls rs full = full := by
  simp only [awalk, if_neg h]

theorem awalk_cons (a : Nat × Nat) (ctx : List (Nat × Nat)) (ls rs : Nat)
    (full : List (Nat × Nat))
    (h : ¬ (7 * (ls + rs + 1) < 10 * ls ∨ 7 * (ls + rs + 1) < 10 * rs)) :
    awalk (a :: ctx) ls rs full = awalk ctx a.1 (ls + rs + 1) full := by
  simp only [awalk, if_neg h]

/-- The upward walk of the model on a path of right-child steps, seen on the
right spine. -/
theorem rspine_walk : ∀ (c : List (Frame K)) (s : Shape K) (ls rs : Nat), AllRight c →
    ls + rs + 1 = s.size → (plug c s).size < 2 ^ 31 →
    rspine (walk c s ls rs) = awalk (absCtx c) ls rs (rspine s ++ absCtx c) := by
  intro c
  induction c with
  | nil =>
    intro s ls rs _ hsz hb
    have hlt : ls + rs + 1 < 2 ^ 31 := by rw [hsz]; exact hb
    by_cases hu : IsUnbalanced ls rs ≠ 0
    · rw [walk_unbalanced _ _ _ _ hu, awalk_rebuild _ _ _ _ ((unbalanced_iff_exact ls rs hlt).mp hu)]
      rw [hsz, ← Shape.length_toList, ← rspine_buildShape _ _ _ (Nat.le_refl _)]
      show rspine (balanced s.toList) = rspine (balanced s.toList) ++ []
      rw [List.append_nil]
    · rw [walk_nil _ _ _ hu]
      show _ = awalk [] ls rs (rspine s ++ [])
      rw [awalk_nil _ _ _ (fun h => hu ((unbalanced_iff_exact ls rs hlt).mpr h)),
        List.append_nil]
  | cons f c ih =>
    intro s ls rs hc hsz hb
    have hps := plug_size (f :: c) s
    have hlt : ls + rs + 1 < 2 ^ 31 := by rw [hsz]; omega
    by_cases hu : IsUnbalanced ls rs ≠ 0
    · rw [walk_unbalanced _ _ _ _ hu, rspine_plug _ _ hc,
        awalk_rebuild _ _ _ _ ((unbalanced_iff_exact ls rs hlt).mp hu)]
      rw [hsz, ← Shape.length_toList, ← rspine_buildShape _ _ _ (Nat.le_refl _)]
      rfl
    · cases f with
      | left p k sib => exact absurd hc (by simp [AllRight])
      | right p k sib =>
        rw [walk_right _ _ _ _ _ _ _ hu]
        rw [ih (Shape.node sib p k s) sib.size (ls + rs + 1) hc
          (by simp only [Shape.size_node]; omega) hb]
        show _ = awalk ((sib.size, sib.levels) :: absCtx c) ls rs
          (rspine s ++ (sib.size, sib.levels) :: absCtx c)
        rw [awalk_cons _ _ _ _ _ (fun h => hu ((unbalanced_iff_exact ls rs hlt).mpr h))]
        simp only [rspine, List.append_assoc, List.singleton_append]

theorem ctxAfter_of_AllRight : ∀ (c : List (Frame K)), AllRight c → ctxAfter c = [] := by
  intro c
  induction c with
  | nil => intro _; rfl
  | cons f c ih =>
    intro h
    cases f with
    | left p k sib => exact absurd h (by simp [AllRight])
    | right p k sib => exact ih h

/-- The descent for a key above all stored keys follows the right spine down to
the rightmost node. -/
theorem descend_max {cmp : K → K → Int} (key : K) (s : Shape K) :
    ∀ (c : List (Frame K)), s ≠ Shape.nil → (∀ a ∈ s.keys, 0 < cmp key a) → AllRight c →
    ∃ c1 l p k, descend cmp key c s = (c1, Shape.node l p k Shape.nil) ∧ AllRight c1 ∧
      plug c1 (Shape.node l p k Shape.nil) = plug c s ∧ 0 < cmp key k := by
  induction s with
  | nil => intro c h; exact absurd rfl h
  | node l p k r ihl ihr =>
    intro c _ hmax hc
    have hk : 0 < cmp key k := hmax k (by simp)
    have hz : ¬ cmp key k = 0 := by omega
    have hlt : ¬ cmp key k < 0 := by omega
    rw [descend_node_eq, if_neg hz, if_neg hlt]
    by_cases hr : r.root = none
    · rw [if_pos hr]
      have hrn : r = Shape.nil := (Shape.root_eq_none_iff r).mp hr
      subst hrn
      exact ⟨c, l, p, k, rfl, hc, rfl, hk⟩
    · rw [if_neg hr]
      have hrne : r ≠ Shape.nil := fun h => hr ((Shape.root_eq_none_iff r).mpr h)
      obtain ⟨c1, l1, p1, k1, h1, h2, h3, h4⟩ :=
        ihr (Frame.right p k l :: c) hrne
          (fun a ha => hmax a (by simp only [Shape.keys_node, List.mem_append, List.mem_cons]
                                  exact Or.inr (Or.inr ha))) hc
      exact ⟨c1, l1, p1, k1, h1, h2, h3, h4⟩

/-- The insertion of a key above all stored keys appends the new node to the
in-order list and acts on the right spine as `astep`. -/
theorem insertShape_max (cmp : K → K → Int) (S : Shape K) (key : K) (x : Nat)
    (hmax : ∀ a ∈ S.keys, 0 < cmp key a) (hb : S.size + 1 < 2 ^ 31) :
    rspine (insertShape cmp S key x) = astep (rspine S) ∧
    (insertShape cmp S key x).toList = S.toList ++ [(x, key)] := by
  by_cases hne : S = Shape.nil
  · subst hne
    refine ⟨?_, ?_⟩
    · show rspine (Shape.node Shape.nil x key Shape.nil) = awalk [] 0 0 [(0, 0)]
      rw [awalk_nil _ _ _ (by omega)]
      rfl
    · rfl
  · obtain ⟨c1, l, p, k, hd, hc1, hplug, hk⟩ := descend_max key S [] hne hmax trivial
    have hz : ¬ cmp key k = 0 := by omega
    have hlt : ¬ cmp key k < 0 := by omega
    have hins : insertShape cmp S key x
        = walk (Frame.right p k l :: c1) (Shape.node Shape.nil x key Shape.nil) 0 0 := by
      simp [insertShape, hd, hz, hlt]
    have hS : S = plug c1 (Shape.node l p k Shape.nil) := hplug.symm
    have hc2 : AllRight (Frame.right p k l :: c1) := hc1
    have hsp : rspine S = absCtx (Frame.right p k l :: c1) := by
      rw [hS, rspine_plug _ _ hc1]
      simp [rspine, absCtx]
    have hlist : (plug (Frame.right p k l :: c1)
        (Shape.node Shape.nil x key Shape.nil)).toList = S.toList ++ [(x, key)] := by
      rw [hS, plug_toList, plug_toList, ctxAfter_of_AllRight _ hc1,
        ctxAfter_of_AllRight _ hc2]
      simp [ctxBefore]
    have hsize : (plug (Frame.right p k l :: c1)
        (Shape.node Shape.nil x key Shape.nil)).size = S.size + 1 := by
      rw [← Shape.length_toList, hlist, List.length_append, Shape.length_toList]
      rfl
    refine ⟨?_, ?_⟩
    · rw [hins, rspine_walk _ _ 0 0 hc2 (by simp) (by rw [hsize]; exact hb), hsp]
      rfl
    · rw [hins, walk_toList, hlist]

/-- Inserting keys each of which is above all keys before it acts on the right
spine as the iteration of `astep`. -/
theorem rspine_insertShapes (cmp : K → K → Int) : ∀ (ks : List K) (S : Shape K),
    ks.Pairwise (fun a b => 0 < cmp b a) → (∀ k ∈ ks, ∀ a ∈ S.keys, 0 < cmp k a) →
    S.size + ks.length < 2 ^ 31 →
    rspine (insertShapes cmp S ks) = asteps ks.length (rspine S) := by
  intro ks
  induction ks with
  | nil => intro S _ _ _; rfl
  | cons k ks ih =>
    intro S hp hS hb
    obtain ⟨hk, hp'⟩ := List.pairwise_cons.mp hp
    simp only [List.length_cons] at hb
    obtain ⟨h1, h2⟩ := insertShape_max cmp S k S.size
      (fun a ha => hS k (by simp) a ha) (by omega)
    have hsz : (insertShape cmp S k S.size).size = S.size + 1 := by
      rw [← Shape.length_toList, h2, List.length_append, Shape.length_toList]
      rfl
    show rspine (insertShapes cmp (insertShape cmp S k S.size) ks)
      = asteps ks.length (astep (rspine S))
    rw [ih _ hp' ?_ (by rw [hsz]; omega), h1]
    intro k' hk' a ha
    simp only [Shape.keys, h2, List.map_append, List.map_cons, List.map_nil, List.mem_append,
      List.mem_singleton] at ha
    rcases ha with ha | rfl
    · exact hS k' (by simp [hk']) a ha
    · exact hk k' hk'

/-- The right spine after 1000 ascending insertions: 14 levels, 1000 nodes (by
evaluation of the spine model). -/
theorem asteps_scenarioE :
    spLevels (asteps 1000 []).reverse = 14 ∧ spSize (asteps 1000 []) = 1000 := by
  decide!

/-- The shape after inserting `0, 1, ..., 999` in this order: 14 levels, 1000
nodes. -/
theorem scenarioE_shape :
    (insertShapes IntComparator Shape.nil ((List.range 1000).map Int.ofNat)).levels = 14 ∧
    (insertShapes IntComparator Shape.nil ((List.range 1000).map Int.ofNat)).size = 1000 := by
  have hp : ((List.range 1000).map Int.ofNat).Pairwise
      (fun a b => 0 < IntComparator b a) := by
    refine (List.pairwise_lt_range 1000).map _ (fun a b h => ?_)
    have h1 : (Int.ofNat a) < (Int.ofNat b) := Int.ofNat_lt.mpr h
    simp only [IntComparator]
    rw [if_neg (by omega), if_pos (by omega)]
    decide
  have hr := rspine_insertShapes IntComparator ((List.range 1000).map Int.ofNat)
    Shape.nil hp (by intro k _ a ha; simp at ha) (by simp)
  simp only [List.length_map, List.length_range] at hr
  have hr0 : rspine (insertShapes IntComparator Shape.nil ((List.range 1000).map Int.ofNat))
      = asteps 1000 [] := hr
  rw [← spLevels_rspine, ← spSize_rspine, hr0]
  exact asteps_scenarioE

/-- C8 (scenario E).  Inserting any 1000 integer keys in strictly ascending
order into an empty tree (integer comparator, balance factor `0.7`): every insert
returns `1`, the tree has 1000 nodes (`tree_size` and the count of the nodes
reachable from the root), and it has 14 levels: the longest path from the root
to a leaf has 13 edges, which is at most 20. -/
theorem C8_scenario_E (ks : List Int) (hlen : ks.length = 1000)
    (hasc : ks.Pairwise (fun a b => a < b)) (fuel : Nat) (hfuel : 2004 ≤ fuel) :
    ∃ t, CreateScapegoatTree IntComparator true = some emptyTree ∧
      insertMany fuel emptyTree (allOk ks) = some (List.replicate 1000 1, t) ∧
      t.tree_size = 1000 ∧ GetTreeSize fuel t.nodes t.root = some 1000 ∧
      treeLevels fuel t.nodes t.root = some 14 ∧ 14 - 1 ≤ 20 := by
  obtain ⟨t0, t, h0, hrun, hinv, -, hts, -⟩ :=
    insertMany_allOk IntComparator IntComparator_total ks fuel (by rw [hlen]; omega)
  have e0 : t0 = emptyTree := (Option.some.inj h0).symm
  subst e0
  have hshape : insertShapes IntComparator Shape.nil ks
      = (insertShapes IntComparator Shape.nil ((List.range 1000).map Int.ofNat)).mapKeys
          (keyAt ks) := by
    have := insertShapes_mapKeys (keyAt ks)
      (IntComparator_keyAt hasc (by omega)) ((List.range 1000).map Int.ofNat) Shape.nil
    rw [← this, ← hlen, map_keyAt_range]
    rfl
  have hlev : (insertShapes IntComparator Shape.nil ks).levels = 14 := by
    rw [hshape, Shape.levels_mapKeys]; exact scenarioE_shape.1
  have hsz : (insertShapes IntComparator Shape.nil ks).size = 1000 := by
    rw [hshape, Shape.size_mapKeys]; exact scenarioE_shape.2
  rw [hlen] at hrun
  refine ⟨t, rfl, hrun, by rw [hts, hsz], ?_, ?_, by decide⟩
  · have := GetTreeSize_of_Rep t.nodes _ none fuel hinv.rep (by rw [hlev]; omega)
    rw [← hinv.root_eq, hsz] at this
    exact this
  · have := treeLevels_of_Rep t.nodes _ none fuel hinv.rep (by rw [hlev]; omega)
    rw [← hinv.root_eq, hlev] at this
    exact this

/-- Witness of C8 with the keys `0, 1, ..., 999` and the fuel `2004`. -/
theorem C8_scenario_E_witness :
    ((List.range 1000).map Int.ofNat).length = 1000 ∧
    ((List.range 1000).map Int.ofNat).Pairwise (fun a b => a < b) ∧
    ∃ t, insertMany 2004 emptyTree (allOk ((List.range 1000).map Int.ofNat))
        = some (List.replicate 1000 1, t) ∧
      t.tree_size = 1000 ∧ GetTreeSize 2004 t.nodes t.root = some 1000 ∧
      treeLevels 2004 t.nodes t.root = some 14 := by
  have h1 : ((List.range 1000).map Int.ofNat).length = 1000 := by simp
  have h2 : ((List.range 1000).map Int.ofNat).Pairwise (fun a b => a < b) :=
    (List.pairwise_lt_range 1000).map _ (fun a b h => Int.ofNat_lt.mpr h)
  obtain ⟨t, -, a, b, c, d, -⟩ := C8_scenario_E _ h1 h2 2004 (by decide)
  exact ⟨h1, h2, t, a, b, c, d⟩

end Scapegoat
